import Mathlib

set_option linter.unusedTactic false
set_option linter.unreachableTactic false
set_option linter.unusedVariables false

/-!
# Verification development for the asset-inventory JSON engine

Shallow embedding of `src/mini_json.hpp`, `src/mini_json.cpp` and
`src/inventory.cpp`.

Conventions of the embedding.

* A C++ `char` is a Lean `Char`, a `std::string` is a `List Char`.  Every
  function of the engine inspects one `char` at a time and treats all codes
  from `0x80` upwards alike, so a byte string is read as the list of its bytes.
* The parser object `Parser {t, i}` is represented by the unread suffix
  `t[i..]` of the text: `i < t.size()` is "the suffix is not empty".
* A C++ exception (`std::runtime_error`) is the `error` alternative of `Res`,
  carrying the text of `what()`.
* A `double` is its IEEE-754 binary64 bit pattern (`F64.bits`, taken modulo
  `2^64`).  The two library calls on doubles, `std::stod` and
  `operator<<` under `std::setprecision(15)`, are embedded by exact integer
  arithmetic (correct rounding, ties to even).
* The calls into the platform layer (`src/platform.hpp`) are represented by the
  record `platforminfo.Host` of their answers; `std::hash` is a parameter.
-/

namespace minijson

/-! ## Characters (`<cctype>` in the "C" locale) -/

/-- `std::isspace`: space, `\t`, `\n`, `\v`, `\f`, `\r`. -/
def isspace (c : Char) : Bool :=
  c.toNat == 32 || (9 ≤ c.toNat && c.toNat ≤ 13)

/-- `std::isdigit`. -/
def isdigit (c : Char) : Bool :=
  48 ≤ c.toNat && c.toNat ≤ 57

/-- `std::isxdigit`. -/
def isxdigit (c : Char) : Bool :=
  isdigit c || (97 ≤ c.toNat && c.toNat ≤ 102) || (65 ≤ c.toNat && c.toNat ≤ 70)

/-- The character NUL, which `peek` and `get` return at the end of the input. -/
def NUL : Char := Char.ofNat 0

/-! ## Doubles -/

/-- A `double`, given by its binary64 bit pattern (read modulo `2^64`). -/
structure F64 where
  bits : Nat
deriving DecidableEq, Repr

namespace F64

/-- Sign bit. -/
def neg (x : F64) : Bool := decide (2 ^ 63 ≤ x.bits % 2 ^ 64)

/-- Biased exponent field (11 bits). -/
def expo (x : F64) : Nat := x.bits / 2 ^ 52 % 2048

/-- Fraction field (52 bits). -/
def frac (x : F64) : Nat := x.bits % 2 ^ 52

/-- Integer significand `m` of a finite double: `|x| = m * 2 ^ (max expo 1 - 1075)`. -/
def mant (x : F64) : Nat := if x.expo = 0 then x.frac else 2 ^ 52 + x.frac

/-- Magnitude of a finite double as an exact fraction `num / den`. -/
def magnitude (x : F64) : Nat × Nat :=
  let e := max x.expo 1
  if 1075 ≤ e then (x.mant * 2 ^ (e - 1075), 1) else (x.mant, 2 ^ (1075 - e))

/-- The loop of `ilog2`, bounded by `fuel` iterations. -/
def ilog2Aux : Nat → Nat → Nat
  | 0, _ => 0
  | fuel + 1, n => if 2 ≤ n then ilog2Aux fuel (n / 2) + 1 else 0

/-- Position of the leading binary digit of `n`: `⌊log₂ n⌋`, and `0` for `n ≤ 1`. -/
def ilog2 (n : Nat) : Nat := ilog2Aux n n

/-- Round the positive fraction `num / den` to the nearest double (ties to
even) and attach the sign.  `none` is the `ERANGE` outcome of `strtod` as the GNU C
library reports it: the result overflows, or the value is below the least normal
double and inexact (underflow).  Tininess is detected after rounding: a value that
the rounding to 53 bits at its own exponent carries up to the least normal double
is not tiny (`carry`).  In the binade right below the least normal double a value
that lies exactly a quarter of the spacing above a subnormal double is returned
rounded without `ERANGE` (`quarter`). -/
def round (sign : Bool) (num den : Nat) : Option F64 :=
  let s := if sign then 2 ^ 63 else 0
  if num = 0 then some ⟨s⟩
  else
    -- binary exponent of the unit in the last place, at least -1074
    let lg : Int := (ilog2 num : Int) - (ilog2 den : Int)
    let e0 : Int := if num * 2 ^ (- lg).toNat < den * 2 ^ lg.toNat then lg - 1 else lg
    let e : Int := max (e0 - 52) (-1074)
    let n := num * 2 ^ (- e).toNat
    let d := den * 2 ^ e.toNat
    let q := n / d
    let r := n % d
    let q1 := if d < 2 * r ∨ (d = 2 * r ∧ q % 2 = 1) then q + 1 else q
    let b := (e + 1074).toNat * 2 ^ 52 + q1
    let carry : Bool :=
      decide (num * 2 ^ 1075 / den = 2 ^ 53 - 1 ∧ den ≤ 2 * (num * 2 ^ 1075 % den))
    let quarter : Bool := decide (e0 = -1023 ∧ 4 * r = d)
    if 2047 * 2 ^ 52 ≤ b then none
    else if e0 < -1022 ∧ r ≠ 0 ∧ carry = false ∧ quarter = false then none
    else some ⟨s + b⟩

/-- Conversion `(double)n` of an integer. -/
def ofInt (n : Int) : F64 :=
  match round (decide (n < 0)) n.natAbs 1 with
  | some x => x
  | none => ⟨0⟩

/-- The double with value `n`. -/
def ofNat (n : Nat) : F64 := ofInt n

/-- Decimal digit character of `d % 10`. -/
def digitChar (d : Nat) : Char := Char.ofNat (48 + d % 10)

/-- The last `k` decimal digits of `n`, most significant first. -/
def decDigits : Nat → Nat → List Char
  | 0, _ => []
  | k + 1, n => decDigits k (n / 10) ++ [digitChar n]

/-- The loop of `numDigits`, bounded by `fuel` iterations. -/
def numDigitsAux : Nat → Nat → Nat
  | 0, _ => 0
  | fuel + 1, n => if n = 0 then 0 else numDigitsAux fuel (n / 10) + 1

/-- Number of decimal digits of `n` (`0` has none). -/
def numDigits (n : Nat) : Nat := numDigitsAux n n

/-- Drop the trailing zeros of a digit string. -/
def stripZeros (ds : List Char) : List Char :=
  (ds.reverse.dropWhile (fun c => c == '0')).reverse

/-- Fifteen significant digits of the positive fraction `num / den`: the pair
`(D, X)` with `10^14 ≤ D < 10^15` and `num / den ≈ D * 10 ^ (X - 14)`, rounded
to nearest, ties to even (`X` is the exponent of the `%e` conversion). -/
def sig15 (num den : Nat) : Nat × Int :=
  let x0 : Int :=
    if den ≤ num then (numDigits (num / den) : Int) - 1
    else
      let j := numDigits (den / num)
      if den ≤ num * 10 ^ (j - 1) then - ((j : Int) - 1) else - (j : Int)
  let n := num * 10 ^ (14 - x0).toNat
  let d := den * 10 ^ (x0 - 14).toNat
  let q := n / d
  let r := n % d
  let q1 := if d < 2 * r ∨ (d = 2 * r ∧ q % 2 = 1) then q + 1 else q
  if q1 = 10 ^ 15 then (10 ^ 14, x0 + 1) else (q1, x0)

/-- A fraction part: nothing when no digit is left, else `.` and the digits. -/
def fracPart (ds : List Char) : List Char :=
  match ds with
  | [] => []
  | _ :: _ => '.' :: ds

/-- Style `%e` with trailing zeros removed: `d[.ddd]e±XX`. -/
def sciText (D : Nat) (X : Int) : List Char :=
  decDigits 1 (D / 10 ^ 14) ++ fracPart (stripZeros (decDigits 14 D))
    ++ 'e' :: (if X < 0 then '-' else '+')
    :: decDigits (max 2 (numDigits X.natAbs)) X.natAbs

/-- Style `%f` with trailing zeros removed, for `-4 ≤ X < 15`. -/
def fixText (D : Nat) (X : Int) : List Char :=
  if X < 0 then
    decDigits 1 0 ++ fracPart (stripZeros (decDigits (14 + X.natAbs) D))
  else
    decDigits (X.toNat + 1) (D / 10 ^ (14 - X.toNat))
      ++ fracPart (stripZeros (decDigits (14 - X.toNat) D))

/-- Text written by `o << std::setprecision(15) << x`, that is `printf("%.15g")`. -/
def fmt15 (x : F64) : List Char :=
  let sign : List Char := if x.neg then ['-'] else []
  if x.expo = 2047 then
    sign ++ (if x.frac = 0 then "inf".toList else "nan".toList)
  else if x.mant = 0 then sign ++ ['0']
  else
    let m := x.magnitude
    let p := sig15 m.1 m.2
    sign ++ (if p.2 < -4 ∨ 15 ≤ p.2 then sciText p.1 p.2 else fixText p.1 p.2)

/-- Value of a string of decimal digits. -/
def digitsVal (ds : List Char) : Nat :=
  ds.foldl (fun acc c => acc * 10 + (c.toNat - 48)) 0

/-- Optional sign of `strtod`: `(negative, rest)`. -/
def takeSign (s : List Char) : Bool × List Char :=
  match s with
  | [] => (false, [])
  | c :: r =>
    if c = '-' then (true, r)
    else if c = '+' then (false, r)
    else (false, c :: r)

/-- Exponent part of `strtod`: `e` or `E`, an optional sign and at least one
digit; anything else is no exponent part. -/
def takeExp (s : List Char) : Int :=
  match s with
  | [] => 0
  | c :: r =>
    if c = 'e' ∨ c = 'E' then
      let sg := takeSign r
      let ds := sg.2.takeWhile isdigit
      if ds = [] then 0
      else if sg.1 then - (digitsVal ds : Int) else (digitsVal ds : Int)
    else 0

/-- The conversion of `strtod` behind leading whitespace and sign: the
longest prefix `digits* ('.' digits*)? exponent?` of `u`, which must hold a
digit, rounded correctly. -/
def stod_digits (sign : Bool) (u : List Char) : Option F64 :=
  let ip := u.takeWhile isdigit
  let r1 := u.dropWhile isdigit
  let fp : List Char :=
    match r1 with
    | [] => []
    | c :: r => if c = '.' then r.takeWhile isdigit else []
  let r2 : List Char :=
    match r1 with
    | [] => []
    | c :: r => if c = '.' then r.dropWhile isdigit else c :: r
  if ip = [] ∧ fp = [] then none
  else
    let ex : Int := takeExp r2 - (fp.length : Int)
    round sign (digitsVal (ip ++ fp) * 10 ^ ex.toNat) (10 ^ (- ex).toNat)

/-- `std::stod` on the text the number scanner hands over (made of `-`, `+`,
`.`, `e`, `E`, digits and whitespace): skip leading whitespace, read the
longest prefix `sign? digits* ('.' digits*)? exponent?` holding at least one
digit, ignore the rest, and round correctly.  `none`: `std::invalid_argument`
(no digit) or `std::out_of_range` (`ERANGE`). -/
def stod (s : List Char) : Option F64 :=
  let sg := takeSign (s.dropWhile isspace)
  stod_digits sg.1 sg.2

end F64

/-! ## The value model (`mini_json.hpp`) -/

/-- `struct Value`, as built by its six factories: exactly one variant, the
fields of the other variants at their defaults.  The `std::map` of an Object is
the list of its entries in iteration order. -/
inductive Value where
  | nullv : Value
  | boolean (b : Bool) : Value
  | number (num : F64) : Value
  | string (s : List Char) : Value
  | array (a : List Value) : Value
  | object (o : List (List Char × Value)) : Value

/-- `std::map<std::string, Value>`: entries in iteration order. -/
abbrev Map := List (List Char × Value)

instance : Inhabited Value := ⟨Value.nullv⟩

instance : Nonempty Value := ⟨Value.nullv⟩

instance : Nonempty (List Value) := ⟨[]⟩

instance : Nonempty (List (List Char × Value)) := ⟨[]⟩

/-- `std::string::operator<`: lexicographic on the `unsigned char` codes, a
proper initial segment first. -/
def strLt : List Char → List Char → Bool
  | [], [] => false
  | [], _ :: _ => true
  | _ :: _, [] => false
  | a :: x, b :: y => a.toNat < b.toNat || (a.toNat == b.toNat && strLt x y)

namespace Map

/-- `std::map::find`: the value stored under `k`, if any. -/
def find (k : List Char) : Map → Option Value
  | [] => none
  | (k1, v) :: m => if k1 = k then some v else find k m

/-- `std::map::emplace`: insert `(k, v)` at its place in key order; a map that
already holds `k` is left unchanged. -/
def emplace (k : List Char) (v : Value) : Map → Map
  | [] => [(k, v)]
  | (k1, v1) :: m =>
    if strLt k k1 then (k, v) :: (k1, v1) :: m
    else if k1 = k then (k1, v1) :: m
    else (k1, v1) :: emplace k v m

/-- The map built from an initializer list: the entries are inserted in turn. -/
def ofList (l : List (List Char × Value)) : Map :=
  l.foldl (fun m kv => emplace kv.1 kv.2 m) []

end Map

namespace Value

def is_null : Value → Bool
  | nullv => true
  | _ => false

def is_bool : Value → Bool
  | boolean _ => true
  | _ => false

def is_number : Value → Bool
  | number _ => true
  | _ => false

def is_string : Value → Bool
  | string _ => true
  | _ => false

def is_array : Value → Bool
  | array _ => true
  | _ => false

def is_object : Value → Bool
  | object _ => true
  | _ => false

/-- Field `a`: the elements of an Array, empty for every other variant. -/
def a : Value → List Value
  | array xs => xs
  | _ => []

/-- Field `o`: the map of an Object, empty for every other variant. -/
def o : Value → Map
  | object m => m
  | _ => []

/-- `Value::has`. -/
def has (v : Value) (k : List Char) : Bool := (Map.find k v.o).isSome

/-- `Value::at`: the child, or the exception `missing key: k`. -/
def «at» (v : Value) (k : List Char) : Except String Value :=
  match Map.find k v.o with
  | none => .error ("missing key: " ++ String.mk k)
  | some x => .ok x

end Value

/-! ## The parser (`mini_json.cpp`) -/

/-- Outcome of a parsing function: a result, the `std::runtime_error` thrown
(its message), or exhaustion of the recursion budget of the embedding. -/
inductive Res (α : Type) where
  | ok (x : α) : Res α
  | error (what : String) : Res α
  | fuel : Res α

namespace Parser

/-- `ws()`: skip whitespace. -/
def ws (t : List Char) : List Char := t.dropWhile isspace

/-- `peek()`: skip whitespace, then the next character without consuming it
(`NUL` at the end).  Returns the character and the parser position. -/
def peek (t : List Char) : Char × List Char :=
  match ws t with
  | [] => (NUL, [])
  | c :: r => (c, c :: r)

/-- `get()`: consume one character (`NUL`, consuming nothing, at the end). -/
def get (t : List Char) : Char × List Char :=
  match t with
  | [] => (NUL, [])
  | c :: r => (c, r)

/-- `expect(c)`. -/
def expect (c : Char) (t : List Char) : Res (List Char) :=
  let g := get (ws t)
  if g.1 ≠ c then .error ("expected '" ++ String.mk [c] ++ "'") else .ok g.2

/-- The loop of `consume(lit)`. -/
def consume_loop (lit : String) : List Char → List Char → Res (List Char)
  | [], t => .ok t
  | p :: ps, t =>
    let g := get t
    if g.1 ≠ p then .error ("expected literal: " ++ lit) else consume_loop lit ps g.2

/-- `consume(lit)`. -/
def consume (lit : String) (t : List Char) : Res (List Char) :=
  consume_loop lit lit.toList (ws t)

/-- The one-character cases of the `switch (e)` in `parse_string`: the
character pushed for the escape letter `e`. -/
def simple_escape (e : Char) : Option Char :=
  if e = '"' then some '"'
  else if e = '\\' then some '\\'
  else if e = '/' then some '/'
  else if e = 'b' then some '\x08'
  else if e = 'f' then some '\x0c'
  else if e = 'n' then some '\n'
  else if e = 'r' then some '\r'
  else if e = 't' then some '\t'
  else none

/-- Program points inside the `while` loop of `parse_string`, one `get()`
apart: `normal` is the head of the loop, `esc` is just after a backslash
(before `char e = get()`), `hex k` is inside `for (int k=0;k<4;k++)` with
`k + 1` hexadecimal digits still to be read. -/
inductive StrState where
  | normal : StrState
  | esc : StrState
  | hex (k : Nat) : StrState

/-- The `while (i < t.size())` loop of `parse_string`, after the opening
quote, one `get()` per step; `out` is the string built so far.  The loop ends
at a closing quote, and also when the input ends.  At the end of the input
`get()` yields `NUL`: as an escape letter it falls to `default`, as a
hexadecimal digit it fails `isxdigit`. -/
def string_loop : StrState → List Char → List Char → Res (List Char × List Char)
  | .normal, out, [] => .ok (out, [])
  | .normal, out, c :: r =>
    if c = '"' then .ok (out, r)
    else if c = '\\' then string_loop .esc out r
    else string_loop .normal (out ++ [c]) r
  | .esc, _, [] => .error "bad escape"
  | .esc, out, e :: r =>
    match simple_escape e with
    | some x => string_loop .normal (out ++ [x]) r
    | none =>
      if e = 'u' then string_loop (.hex 3) out r
      else .error "bad escape"
  | .hex _, _, [] => .error "bad \\u escape"
  | .hex k, out, h :: r =>
    if isxdigit h then
      match k with
      | 0 => string_loop .normal (out ++ ['?']) r
      | k1 + 1 => string_loop (.hex k1) out r
    else .error "bad \\u escape"

/-- `parse_string()`. -/
def parse_string (t : List Char) : Res (List Char × List Char) :=
  let g := get (ws t)
  if g.1 ≠ '"' then .error "expected string quote" else string_loop .normal [] g.2

/-- `while (std::isdigit(peek())) get();` on the unread text: `peek` skips
whitespace before it looks, so the loop consumes digits and whitespace alike
and stops, whitespace skipped, in front of the first other character.  Returns
the characters passed over (they all belong to `substr(start, i - start)`) and
the unread rest. -/
def scan_digits : List Char → List Char × List Char
  | [] => ([], [])
  | c :: r =>
    if isspace c || isdigit c then
      let p := scan_digits r
      (c :: p.1, p.2)
    else ([], c :: r)

/-- `if (peek() == c1 || peek() == c2) get();`: whitespace is skipped in any
case; the characters passed over and the unread rest. -/
def scan_opt (c1 c2 : Char) (t : List Char) : List Char × List Char :=
  let w := t.takeWhile isspace
  match ws t with
  | [] => (w, [])
  | c :: r => if c = c1 ∨ c = c2 then (w ++ [c], r) else (w, c :: r)

/-- `if (peek() == '.') { get(); while (std::isdigit(peek())) get(); }`. -/
def scan_frac (t : List Char) : List Char × List Char :=
  let w := t.takeWhile isspace
  match ws t with
  | [] => (w, [])
  | c :: r =>
    if c = '.' then
      let p := scan_digits r
      (w ++ c :: p.1, p.2)
    else (w, c :: r)

/-- The exponent block of `parse_number()`:
`if (peek() == 'e' || peek() == 'E') { get(); if (peek() == '+' || peek() == '-') get();
while (std::isdigit(peek())) get(); }`. -/
def scan_exp (t : List Char) : List Char × List Char :=
  let w := t.takeWhile isspace
  match ws t with
  | [] => (w, [])
  | c :: r =>
    if c = 'e' ∨ c = 'E' then
      let q := scan_opt '+' '-' r
      let p := scan_digits q.2
      (w ++ c :: (q.1 ++ p.1), p.2)
    else (w, c :: r)

/-- The scanning part of `parse_number()`, from `start` on: the substring
`t.substr(start, i - start)` and the unread rest. -/
def scan_number (t : List Char) : List Char × List Char :=
  let s1 := scan_opt '-' '-' t
  let s2 := scan_digits s1.2
  let s3 := scan_frac s2.2
  let s4 := scan_exp s3.2
  (s1.1 ++ s2.1 ++ s3.1 ++ s4.1, s4.2)

/-- `parse_number()`. -/
def parse_number (t : List Char) : Res (F64 × List Char) :=
  let s := scan_number (ws t)
  match F64.stod s.1 with
  | none => .error "bad number"
  | some x => .ok (x, s.2)

/-- The `while (true)` loop of `parse_array()`; `pv` is `parse_value`, `k`
bounds the number of iterations. -/
def array_loop (pv : List Char → Res (Value × List Char)) :
    Nat → List Value → List Char → Res (Value × List Char)
  | 0, _, _ => .fuel
  | k + 1, arr, t =>
    match pv t with
    | .error e => .error e
    | .fuel => .fuel
    | .ok (v, t1) =>
      let g := get (ws t1)
      if g.1 = ']' then .ok (Value.array (arr ++ [v]), g.2)
      else if g.1 ≠ ',' then .error "expected , or ]"
      else array_loop pv k (arr ++ [v]) g.2

/-- `parse_array()`. -/
def parse_array (pv : List Char → Res (Value × List Char)) (t : List Char) :
    Res (Value × List Char) :=
  match expect ('[') t with
  | .error e => .error e
  | .fuel => .fuel
  | .ok t1 =>
    let p := peek (ws t1)
    if p.1 = ']' then .ok (Value.array [], (get p.2).2)
    else array_loop pv (p.2.length + 1) [] p.2

/-- The `while (true)` loop of `parse_object()`. -/
def object_loop (pv : List Char → Res (Value × List Char)) :
    Nat → Map → List Char → Res (Value × List Char)
  | 0, _, _ => .fuel
  | k + 1, obj, t =>
    match parse_string t with
    | .error e => .error e
    | .fuel => .fuel
    | .ok (key, t1) =>
      match expect (':') (ws t1) with
      | .error e => .error e
      | .fuel => .fuel
      | .ok t2 =>
        match pv t2 with
        | .error e => .error e
        | .fuel => .fuel
        | .ok (val, t3) =>
          let g := get (ws t3)
          if g.1 = '}' then .ok (Value.object (Map.emplace key val obj), g.2)
          else if g.1 ≠ ',' then .error "expected , or \x7d"
          else object_loop pv k (Map.emplace key val obj) g.2

/-- `parse_object()`. -/
def parse_object (pv : List Char → Res (Value × List Char)) (t : List Char) :
    Res (Value × List Char) :=
  match expect ('{') t with
  | .error e => .error e
  | .fuel => .fuel
  | .ok t1 =>
    let p := peek (ws t1)
    if p.1 = '}' then .ok (Value.object [], (get p.2).2)
    else object_loop pv (p.2.length + 1) [] p.2

/-- `parse_value()`, with a bound `n` on the nesting depth still allowed. -/
def parse_value : Nat → List Char → Res (Value × List Char)
  | 0, _ => .fuel
  | n + 1, t =>
    let p := peek (ws t)
    if p.1 = '"' then
      match parse_string p.2 with
      | .ok (s, r) => .ok (Value.string s, r)
      | .error e => .error e
      | .fuel => .fuel
    else if p.1 = '{' then parse_object (parse_value n) p.2
    else if p.1 = '[' then parse_array (parse_value n) p.2
    else if p.1 = 't' then
      match consume "true" p.2 with
      | .ok r => .ok (Value.boolean true, r)
      | .error e => .error e
      | .fuel => .fuel
    else if p.1 = 'f' then
      match consume "false" p.2 with
      | .ok r => .ok (Value.boolean false, r)
      | .error e => .error e
      | .fuel => .fuel
    else if p.1 = 'n' then
      match consume "null" p.2 with
      | .ok r => .ok (Value.nullv, r)
      | .error e => .error e
      | .fuel => .fuel
    else if p.1 = '-' ∨ isdigit p.1 then
      match parse_number p.2 with
      | .ok (x, r) => .ok (Value.number x, r)
      | .error e => .error e
      | .fuel => .fuel
    else .error "invalid json value"

end Parser

/-- `parse(text)`.  The nesting budget `text.size() + 1` is never exhausted
(`parse_ne_fuel`). -/
def parse (text : List Char) : Res Value :=
  match Parser.parse_value (text.length + 1) text with
  | .error e => .error e
  | .fuel => .fuel
  | .ok (v, r) =>
    let r1 := Parser.ws r
    if r1 ≠ [] ∧ r1.any (fun c => !isspace c) then .error "trailing data" else .ok v

/-! ## The serializer (`mini_json.cpp`) -/

/-- The `switch` of `esc` for one character. -/
def esc_char (c : Char) : List Char :=
  if c = '"' then ['\\', '"']
  else if c = '\\' then ['\\', '\\']
  else if c = '\x08' then ['\\', 'b']
  else if c = '\x0c' then ['\\', 'f']
  else if c = '\n' then ['\\', 'n']
  else if c = '\r' then ['\\', 'r']
  else if c = '\t' then ['\\', 't']
  else if c.toNat < 32 then ['?']
  else [c]

/-- `esc(s)`. -/
def esc : List Char → List Char
  | [] => []
  | c :: s => esc_char c ++ esc s

/-- `indent(o, n)`: `n` spaces, none when `n ≤ 0`. -/
def indent (n : Int) : List Char := List.replicate n.toNat (' ')

/-- The text `s` when `pretty` is set, nothing otherwise (`if (pretty) o << s`). -/
def ifp (pretty : Bool) (s : List Char) : List Char := if pretty then s else []

mutual

/-- `stringify(v, pretty, indent_level)`. -/
def stringify : Value → Bool → Int → List Char
  | Value.nullv, _, _ => "null".toList
  | Value.boolean b, _, _ => if b then "true".toList else "false".toList
  | Value.number x, _, _ => F64.fmt15 x
  | Value.string s, _, _ => '"' :: (esc s ++ ['"'])
  | Value.array xs, pretty, lvl =>
    match xs with
    | [] => ['[', ']']
    | _ :: _ =>
      '[' :: (ifp pretty ['\n'] ++ stringify_elems xs pretty lvl
        ++ ifp pretty (indent lvl) ++ [']'])
  | Value.object m, pretty, lvl =>
    match m with
    | [] => ['{', '}']
    | _ :: _ =>
      '{' :: (ifp pretty ['\n'] ++ stringify_members m pretty lvl
        ++ ifp pretty (indent lvl) ++ ['}'])

/-- The `for` loop of the Array case over the elements still to be written. -/
def stringify_elems : List Value → Bool → Int → List Char
  | [], _, _ => []
  | x :: xs, pretty, lvl =>
    ifp pretty (indent (lvl + 2)) ++ stringify x pretty (lvl + 2)
      ++ (if xs.isEmpty then [] else [',']) ++ ifp pretty ['\n']
      ++ stringify_elems xs pretty lvl

/-- The `for` loop of the Object case over the members still to be written. -/
def stringify_members : List (List Char × Value) → Bool → Int → List Char
  | [], _, _ => []
  | (k, x) :: m, pretty, lvl =>
    ifp pretty (indent (lvl + 2)) ++ '"' :: (esc k ++ ['"', ':'])
      ++ ifp pretty [' '] ++ stringify x pretty (lvl + 2)
      ++ (if m.isEmpty then [] else [',']) ++ ifp pretty ['\n']
      ++ stringify_members m pretty lvl

end

end minijson

/-! ## The schema validator (`inventory.cpp`) -/

namespace inventory

open minijson

/-- `is_num_intish`. -/
def is_num_intish (v : Value) : Bool := v.is_number

/-- The test `!v.has(k) || !p(v.at(k))` with its short-circuit evaluation:
`at` is called only when `has` answered true; an exception of `at` propagates. -/
def lacks (v : Value) (k : String) (p : Value → Bool) : Except String Bool :=
  if !v.has k.toList then .ok true
  else
    match v.«at» k.toList with
    | .error e => .error e
    | .ok x => .ok (!p x)

/-- `req_str`. -/
def req_str : List String :=
  ["asset_id", "hostname", "os", "cpu_model", "timestamp_utc", "agent_version"]

/-- The loop over `req_str`: the reason of the first failing key, if any. -/
def check_req_str (root : Value) : List String → Except String (Option String)
  | [] => .ok none
  | k :: ks =>
    match lacks root k Value.is_string with
    | .error e => .error e
    | .ok true => .ok (some ("field string wajib: " ++ k))
    | .ok false => check_req_str root ks

/-- The body of the loop over the disks, for one element. -/
def check_disk (d : Value) : Except String (Option String) :=
  if !d.is_object then .ok (some "disk item bukan object")
  else
    match lacks d "mount" Value.is_string with
    | .error e => .error e
    | .ok true => .ok (some "disk.mount wajib string")
    | .ok false =>
      match lacks d "total_gb" Value.is_number with
      | .error e => .error e
      | .ok true => .ok (some "disk.total_gb wajib number")
      | .ok false =>
        match lacks d "free_gb" Value.is_number with
        | .error e => .error e
        | .ok true => .ok (some "disk.free_gb wajib number")
        | .ok false => .ok none

/-- The loop over `root.at("disks").a`. -/
def check_disks : List Value → Except String (Option String)
  | [] => .ok none
  | d :: ds =>
    match check_disk d with
    | .error e => .error e
    | .ok (some why) => .ok (some why)
    | .ok none => check_disks ds

/-- `validate_asset_schema(root, why)`: the returned flag and the final
content of `why`; `.error` is an exception escaping the function. -/
def validate_asset_schema (root : Value) : Except String (Bool × String) :=
  if !root.is_object then .ok (false, "root bukan object")
  else
    match check_req_str root req_str with
    | .error e => .error e
    | .ok (some why) => .ok (false, why)
    | .ok none =>
      match lacks root "cpu_cores" is_num_intish with
      | .error e => .error e
      | .ok true => .ok (false, "field number wajib: cpu_cores")
      | .ok false =>
        match lacks root "ram_total_mb" Value.is_number with
        | .error e => .error e
        | .ok true => .ok (false, "field number wajib: ram_total_mb")
        | .ok false =>
          match lacks root "disks" Value.is_array with
          | .error e => .error e
          | .ok true => .ok (false, "field array wajib: disks")
          | .ok false =>
            match root.«at» "disks".toList with
            | .error e => .error e
            | .ok dv =>
              match check_disks dv.a with
              | .error e => .error e
              | .ok (some why) => .ok (false, why)
              | .ok none => .ok (true, "")

end inventory

/-! ## The payload builder (`inventory.cpp`, `platform.hpp`) -/

namespace platforminfo

/-- `struct DiskInfo`. -/
structure DiskInfo where
  mount : List Char
  total_gb : Int
  free_gb : Int

/-- The answers of the platform layer to the calls `build_asset_payload` makes:
`hostname()`, `os_name()`, `cpu_brand()`, `cpu_cores()`, `ram_total_mb()`,
`disks()` and `now_iso_utc()`. -/
structure Host where
  hostname : List Char
  os_name : List Char
  cpu_brand : List Char
  cpu_cores : Int
  ram_total_mb : Int
  disks : List DiskInfo
  now_iso_utc : List Char

end platforminfo

namespace inventory

open minijson

/-- `make_asset_id(hostname)`: `asset-` followed by the hash of the host name in
hexadecimal; `hash` is `std::hash<std::string>`, a `size_t`. -/
def make_asset_id (hash : List Char → Nat) (hostname : List Char) : List Char :=
  "asset-".toList ++ Nat.toDigits 16 (hash hostname % 2 ^ 64)

/-- The Object pushed to `disk_arr` for the disk `d`. -/
def disk_value (d : platforminfo.DiskInfo) : Value :=
  Value.object (Map.ofList [
    ("mount".toList, Value.string d.mount),
    ("total_gb".toList, Value.number (F64.ofInt d.total_gb)),
    ("free_gb".toList, Value.number (F64.ofInt d.free_gb))])

/-- `build_asset_payload(agent_version)` on the host `p`. -/
def build_asset_payload (hash : List Char → Nat) (p : platforminfo.Host)
    (agent_version : List Char) : Value :=
  let host := p.hostname
  let os := p.os_name
  let cpu := p.cpu_brand
  let cores := p.cpu_cores
  let ram := p.ram_total_mb
  let disk_arr := p.disks.map disk_value
  Value.object (Map.ofList [
    ("asset_id".toList, Value.string (make_asset_id hash host)),
    ("hostname".toList, Value.string host),
    ("os".toList, Value.string os),
    ("cpu_model".toList, Value.string cpu),
    ("cpu_cores".toList, Value.number (F64.ofInt cores)),
    ("ram_total_mb".toList, Value.number (F64.ofInt ram)),
    ("disks".toList, Value.array disk_arr),
    ("timestamp_utc".toList, Value.string p.now_iso_utc),
    ("agent_version".toList, Value.string agent_version)])

/-- The schema gate of `main` in `agent_main.cpp`: `some why` when the agent stops
with `payload schema invalid: why` and exit code 1, `none` when it goes on to send
the payload. -/
def schema_gate (payload : Value) : Except String (Option String) :=
  match validate_asset_schema payload with
  | .error e => .error e
  | .ok (true, _) => .ok none
  | .ok (false, why) => .ok (some why)

end inventory

/-! ## Definitions that follow the words of the spec -/

namespace minijson

/-- The serialization rule of the spec for one character of a string: the
two-character escapes of `"`, `\\`, backspace, form-feed, newline, carriage
return and tab, `?` for every other character below `0x20`, and the character
itself otherwise. -/
def spec_escape (c : Char) : List Char :=
  match c with
  | '"' => "\\\"".toList
  | '\\' => "\\\\".toList
  | '\x08' => "\\b".toList
  | '\x0c' => "\\f".toList
  | '\n' => "\\n".toList
  | '\r' => "\\r".toList
  | '\t' => "\\t".toList
  | _ => if c.toNat < 0x20 then ['?'] else [c]

/-- The spec's sample asset record, as text. -/
def sample_text : List Char :=
  ("\x7b\"asset_id\":\"a\",\"hostname\":\"h\",\"os\":\"o\",\"cpu_model\":\"c\"," ++
   "\"timestamp_utc\":\"t\",\"agent_version\":\"1\",\"cpu_cores\":4,\"ram_total_mb\":8192," ++
   "\"disks\":[\x7b\"mount\":\"/\",\"total_gb\":100,\"free_gb\":40\x7d]\x7d").toList

/-- The sample text without its `cpu_cores` member. -/
def sample_text_no_cores : List Char :=
  ("\x7b\"asset_id\":\"a\",\"hostname\":\"h\",\"os\":\"o\",\"cpu_model\":\"c\"," ++
   "\"timestamp_utc\":\"t\",\"agent_version\":\"1\",\"ram_total_mb\":8192," ++
   "\"disks\":[\x7b\"mount\":\"/\",\"total_gb\":100,\"free_gb\":40\x7d]\x7d").toList

/-- The disk of the sample record. -/
def sample_disk : Value :=
  Value.object [("free_gb".toList, Value.number (F64.ofNat 40)),
    ("mount".toList, Value.string "/".toList),
    ("total_gb".toList, Value.number (F64.ofNat 100))]

/-- The Value of the sample record (members in map order). -/
def sample_doc : Value :=
  Value.object [("agent_version".toList, Value.string "1".toList),
    ("asset_id".toList, Value.string "a".toList),
    ("cpu_cores".toList, Value.number (F64.ofNat 4)),
    ("cpu_model".toList, Value.string "c".toList),
    ("disks".toList, Value.array [sample_disk]),
    ("hostname".toList, Value.string "h".toList),
    ("os".toList, Value.string "o".toList),
    ("ram_total_mb".toList, Value.number (F64.ofNat 8192)),
    ("timestamp_utc".toList, Value.string "t".toList)]

/-- The sample record without `cpu_cores`. -/
def sample_doc_no_cores : Value :=
  Value.object [("agent_version".toList, Value.string "1".toList),
    ("asset_id".toList, Value.string "a".toList),
    ("cpu_model".toList, Value.string "c".toList),
    ("disks".toList, Value.array [sample_disk]),
    ("hostname".toList, Value.string "h".toList),
    ("os".toList, Value.string "o".toList),
    ("ram_total_mb".toList, Value.number (F64.ofNat 8192)),
    ("timestamp_utc".toList, Value.string "t".toList)]

end minijson

namespace inventory
open minijson

/-- Field `k` of `v` exists and is a String. -/
def HasString (v : Value) (k : String) : Prop :=
  ∃ s, Map.find k.toList v.o = some (Value.string s)

/-- Field `k` of `v` exists and is a Number. -/
def HasNumber (v : Value) (k : String) : Prop :=
  ∃ x, Map.find k.toList v.o = some (Value.number x)

/-- A disk entry of the schema: an Object with `mount` a String and
`total_gb`, `free_gb` Numbers. -/
def IsDisk (d : Value) : Prop :=
  d.is_object = true ∧ HasString d "mount" ∧ HasNumber d "total_gb" ∧ HasNumber d "free_gb"

/-- The Asset Record schema in the words of the spec. -/
def IsAssetRecord (v : Value) : Prop :=
  v.is_object = true
    ∧ HasString v "asset_id" ∧ HasString v "hostname" ∧ HasString v "os"
    ∧ HasString v "cpu_model" ∧ HasString v "timestamp_utc"
    ∧ HasString v "agent_version"
    ∧ HasNumber v "cpu_cores" ∧ HasNumber v "ram_total_mb"
    ∧ ∃ ds, Map.find "disks".toList v.o = some (Value.array ds) ∧ ∀ d ∈ ds, IsDisk d

/-- Field `k` of `v` exists and satisfies `p` (false when `v` has no such key). -/
def holds (v : Value) (k : String) (p : Value → Bool) : Bool :=
  match Map.find k.toList v.o with
  | some x => p x
  | none => false

/-- The elements the disk checks run over: those of the `disks` field. -/
def disk_items (v : Value) : List Value :=
  match Map.find "disks".toList v.o with
  | some dv => dv.a
  | none => []

/-- The checks of the spec on one disk element, in order: outcome and reason. -/
def disk_checks (d : Value) : List (Bool × String) :=
  [(d.is_object, "disk item bukan object"),
   (holds d "mount" Value.is_string, "disk.mount wajib string"),
   (holds d "total_gb" Value.is_number, "disk.total_gb wajib number"),
   (holds d "free_gb" Value.is_number, "disk.free_gb wajib number")]

/-- The checks of the spec in their fixed order, each with its outcome
(`true`: passed) and the reason reported when it fails. -/
def spec_checks (v : Value) : List (Bool × String) :=
  [(v.is_object, "root bukan object"),
   (holds v "asset_id" Value.is_string, "field string wajib: asset_id"),
   (holds v "hostname" Value.is_string, "field string wajib: hostname"),
   (holds v "os" Value.is_string, "field string wajib: os"),
   (holds v "cpu_model" Value.is_string, "field string wajib: cpu_model"),
   (holds v "timestamp_utc" Value.is_string, "field string wajib: timestamp_utc"),
   (holds v "agent_version" Value.is_string, "field string wajib: agent_version"),
   (holds v "cpu_cores" Value.is_number, "field number wajib: cpu_cores"),
   (holds v "ram_total_mb" Value.is_number, "field number wajib: ram_total_mb"),
   (holds v "disks" Value.is_array, "field array wajib: disks")]
  ++ (disk_items v).flatMap disk_checks

/-- Result of a list of checks: ok with an empty reason when all pass, else
not-ok with the reason of the earliest failing check. -/
def first_failure : List (Bool × String) → Bool × String
  | [] => (true, "")
  | (true, _) :: cs => first_failure cs
  | (false, why) :: _ => (false, why)

end inventory

/-! ## Auxiliary definitions of the proofs -/

namespace minijson

/-- Every character of `w` is whitespace. -/
def AllSpace (w : List Char) : Prop := ∀ c ∈ w, isspace c = true

/-- Every character of `ds` is a decimal digit. -/
def Digits (ds : List Char) : Prop := ∀ c ∈ ds, isdigit c = true

/-- The text `r` is empty or starts with `,`, `]` or a closing brace: what
follows a value inside serialized text. -/
def NumStop (r : List Char) : Prop := ∀ c ∈ r.head?, c = ',' ∨ c = ']' ∨ c = '}'

/-- An exponent part `e±dd` or nothing. -/
def ExpTok (ex : List Char) : Prop :=
  ex = [] ∨ ∃ s ed, ex = 'e' :: s :: ed ∧ (s = '+' ∨ s = '-') ∧ Digits ed ∧ ed ≠ []

/-- Number tokens as `printf("%.15g")` writes them for finite values:
`-? digit+ (. digit+)? (e± digit+)?`. -/
def NumTok (a : List Char) : Prop :=
  ∃ sg ip fd ex, a = sg ++ (ip ++ (F64.fracPart fd ++ ex))
    ∧ (sg = [] ∨ sg = ['-']) ∧ Digits ip ∧ ip ≠ [] ∧ Digits fd ∧ ExpTok ex

/-- The character read back by `parse_string` from the escaped form of `c`:
`c` itself, except that the control characters `esc` replaces come back as `?`. -/
def reread_char (c : Char) : Char :=
  if c = '\x08' ∨ c = '\x0c' ∨ c = '\n' ∨ c = '\r' ∨ c = '\t' then c
  else if c.toNat < 32 then '?'
  else c

mutual

/-- The result of parsing the serialized form of a Value, computed on the
Value: strings and keys go through `reread_char`, a Number is parsed from its
own text, the members of an Object are inserted one after the other into an
empty map; the first failing Number decides the error. -/
def reparse : Value → Res Value
  | Value.nullv => .ok Value.nullv
  | Value.boolean b => .ok (Value.boolean b)
  | Value.number x => parse (F64.fmt15 x)
  | Value.string s => .ok (Value.string (s.map reread_char))
  | Value.array xs =>
    match reparse_elems xs with
    | .ok ys => .ok (Value.array ys)
    | .error e => .error e
    | .fuel => .fuel
  | Value.object m =>
    match reparse_members m [] with
    | .ok o => .ok (Value.object o)
    | .error e => .error e
    | .fuel => .fuel

/-- `reparse` along the elements of an Array. -/
def reparse_elems : List Value → Res (List Value)
  | [] => .ok []
  | x :: xs =>
    match reparse x with
    | .ok y =>
      match reparse_elems xs with
      | .ok ys => .ok (y :: ys)
      | .error e => .error e
      | .fuel => .fuel
    | .error e => .error e
    | .fuel => .fuel

/-- `reparse` along the members of an Object; `acc` is the map built so far. -/
def reparse_members : List (List Char × Value) → Map → Res Map
  | [], acc => .ok acc
  | (k, x) :: m, acc =>
    match reparse x with
    | .ok y => reparse_members m (Map.emplace (k.map reread_char) y acc)
    | .error e => .error e
    | .fuel => .fuel

end

/-- The outcome `res` of a parsing function agrees with the expected result
`exp`: the same error, or the expected Value with unread text that is `r` up
to leading whitespace. -/
def Reads (res : Res (Value × List Char)) (exp : Res Value) (r : List Char) : Prop :=
  match exp with
  | .ok v => ∃ q, res = .ok (v, q) ∧ Parser.ws q = r
  | .error e => res = .error e
  | .fuel => False

/-- The expected outcome of the array loop on the text of the elements `xs`. -/
def ReadsElems (res : Res (Value × List Char)) (arr : List Value) (xs : List Value)
    (rest : List Char) : Prop :=
  match reparse_elems xs with
  | .ok ys => res = .ok (Value.array (arr ++ ys), rest)
  | .error e => res = .error e
  | .fuel => False

/-- The expected outcome of the object loop on the text of the members `m`. -/
def ReadsMembers (res : Res (Value × List Char)) (obj : Map) (m : List (List Char × Value))
    (rest : List Char) : Prop :=
  match reparse_members m obj with
  | .ok o => res = .ok (Value.object o, rest)
  | .error e => res = .error e
  | .fuel => False

/-- The keys of a map are strictly ascending. -/
def Map.Sorted (m : Map) : Prop := (m.map Prod.fst).Pairwise (fun a b => strLt a b = true)

mutual

/-- The Objects inside a Value all hold their keys in strictly ascending
order: the invariant of `std::map`. -/
def Value.KeysSorted : Value → Prop
  | Value.array xs => elems_sorted xs
  | Value.object m => members_sorted m ∧ Map.Sorted m
  | _ => True

/-- `KeysSorted` for every element of an Array. -/
def elems_sorted : List Value → Prop
  | [] => True
  | x :: xs => x.KeysSorted ∧ elems_sorted xs

/-- `KeysSorted` for every member value of an Object. -/
def members_sorted : List (List Char × Value) → Prop
  | [] => True
  | (_, x) :: m => x.KeysSorted ∧ members_sorted m

end

mutual

/-- A Value on the lossless path: no string or key holds a character below
`0x20`, and every Number is read back from its own serialized text. -/
def Value.Lossless : Value → Prop
  | Value.number x => parse (F64.fmt15 x) = .ok (Value.number x)
  | Value.string s => ∀ c ∈ s, 32 ≤ c.toNat
  | Value.array xs => elems_lossless xs
  | Value.object m => members_lossless m
  | _ => True

/-- `Lossless` for every element of an Array. -/
def elems_lossless : List Value → Prop
  | [] => True
  | x :: xs => x.Lossless ∧ elems_lossless xs

/-- `Lossless` for every key and member value of an Object. -/
def members_lossless : List (List Char × Value) → Prop
  | [] => True
  | (k, x) :: m => (∀ c ∈ k, 32 ≤ c.toNat) ∧ x.Lossless ∧ members_lossless m

end

/-- Every Value `pv` returns has its keys sorted. -/
def YieldsSorted (pv : List Char → Res (Value × List Char)) : Prop :=
  ∀ t v r, pv t = .ok (v, r) → v.KeysSorted

/-- The text of one Object member: indentation, quoted key, colon, value. -/
def member_text (pretty : Bool) (lvl : Int) (kv : List Char × Value) : List Char :=
  ifp pretty (indent (lvl + 2)) ++ '"' :: (esc kv.1 ++ ['"', ':'])
    ++ ifp pretty [' '] ++ stringify kv.2 pretty (lvl + 2)

/-- `pv` never returns more unread text than it was given. -/
def Shrinks (pv : List Char → Res (Value × List Char)) : Prop :=
  ∀ t v r, pv t = .ok (v, r) → r.length ≤ t.length

end minijson

/-! ## Layout, number grammar and whitespace in the words of the spec -/

namespace minijson

/-- Layout in the words of the specification: the items of a pretty container, each
on its own line after `n` spaces, with a comma after every item but the last. -/
def spec_layout_lines (n : Nat) : List (List Char) → List Char
  | [] => []
  | [s] => List.replicate n ' ' ++ s ++ ['\n']
  | s :: t :: rest =>
    List.replicate n ' ' ++ s ++ [','] ++ ['\n'] ++ spec_layout_lines n (t :: rest)

/-- The layout of a non-empty container at indent level `L` between the brackets
`lb` and `rb`: compact output joins the items with commas, pretty output puts them on
lines of their own and the closing bracket after `L` spaces. -/
def spec_layout (lb rb : Char) (pretty : Bool) (L : Nat) (items : List (List Char)) : List Char :=
  if pretty then
    [lb, '\n'] ++ spec_layout_lines (L + 2) items ++ List.replicate L ' ' ++ [rb]
  else
    [lb] ++ List.intercalate [','] items ++ [rb]

/-- The text of one member: the escaped quoted key, the colon, the value. -/
def spec_member (pretty : Bool) (L : Nat) (kv : List Char × Value) : List Char :=
  ['"'] ++ esc kv.1 ++ ['"'] ++ (if pretty then [':', ' '] else [':'])
    ++ stringify kv.2 pretty ((L : Int) + 2)

/-- The Object with the single key `a` mapped to the Array of `true` and `null`. -/
def layout_doc : Value :=
  Value.object [("a".toList, Value.array [Value.boolean true, Value.nullv])]

/-- One or more decimal digits at the start of `t`: the text after them, `none` when
`t` does not start with a digit. -/
def spec_digits (t : List Char) : Option (List Char) :=
  if (t.takeWhile isdigit).isEmpty then none else some (t.dropWhile isdigit)

/-- The number grammar of the specification,
`'-'? digit+ ('.' digit+)? (('e'|'E') ('+'|'-')? digit+)?`: whether the whole of `t`
matches it. -/
def spec_number (t : List Char) : Bool :=
  let t1 := match t with
    | '-' :: r => r
    | _ => t
  match spec_digits t1 with
  | none => false
  | some t2 =>
    let t3 := match t2 with
      | '.' :: r => spec_digits r
      | _ => some t2
    match t3 with
    | none => false
    | some t4 =>
      let t5 := match t4 with
        | 'e' :: '+' :: r => spec_digits r
        | 'e' :: '-' :: r => spec_digits r
        | 'e' :: r => spec_digits r
        | 'E' :: '+' :: r => spec_digits r
        | 'E' :: '-' :: r => spec_digits r
        | 'E' :: r => spec_digits r
        | _ => some t4
      match t5 with
      | some [] => true
      | _ => false

/-- The characters `std::isspace` accepts in the C locale: space, tab, newline,
vertical tab, form feed, carriage return. -/
def isspace_chars : List Char := [' ', '\t', '\n', '\x0b', '\x0c', '\r']

end minijson

/-! ## Auxiliary definitions of the later proofs -/

namespace minijson

/-- No character of `s` is a control character (below 0x20). -/
def Printable (s : List Char) : Prop := ∀ c ∈ s, 32 ≤ c.toNat

instance (s : List Char) : Decidable (Printable s) := by
  unfold Printable
  infer_instance

/-- The text starts with four hexadecimal digits. -/
def hex4 : List Char → Bool
  | a :: b :: c :: d :: _ => isxdigit a && isxdigit b && isxdigit c && isxdigit d
  | _ => false

/-- The text `c` does not end with a comma or a colon. -/
def NoSepEnd (c : List Char) : Prop := ∀ x ∈ c.getLast?, x ≠ ',' ∧ x ≠ ':'

/-- The unread rest `r` of `t` after a value: `r` is empty, or the text consumed
in front of it is non-empty and does not end with a comma or a colon. -/
def EndsValue (t r : List Char) : Prop :=
  r = [] ∨ ∃ c, t = c ++ r ∧ c ≠ [] ∧ NoSepEnd c

/-- Every result of `pv` satisfies `EndsValue`. -/
def Ends (pv : List Char → Res (Value × List Char)) : Prop :=
  ∀ t v r, pv t = .ok (v, r) → EndsValue t r

/-- The rest `r` of `t` follows the bracket `rb`, which closes, after whitespace,
a text `c` that does not end with a comma or a colon. -/
def ClosedBy (rb : Char) (t r : List Char) : Prop :=
  ∃ c w, t = c ++ (w ++ rb :: r) ∧ AllSpace w ∧ NoSepEnd c

end minijson

/-! ## Records that violate the schema -/

namespace minijson

/-- The sample record with a `disks` Array whose elements are not Objects. -/
def sample_doc_bad_disk : Value :=
  Value.object [("agent_version".toList, Value.string "1".toList),
    ("asset_id".toList, Value.string "a".toList),
    ("cpu_cores".toList, Value.number (F64.ofNat 4)),
    ("cpu_model".toList, Value.string "c".toList),
    ("disks".toList, Value.array [Value.nullv, Value.array []]),
    ("hostname".toList, Value.string "h".toList),
    ("os".toList, Value.string "o".toList),
    ("ram_total_mb".toList, Value.number (F64.ofNat 8192)),
    ("timestamp_utc".toList, Value.string "t".toList)]

/-- The sample record with `disks` a String instead of an Array. -/
def sample_doc_mistyped : Value :=
  Value.object [("agent_version".toList, Value.string "1".toList),
    ("asset_id".toList, Value.string "a".toList),
    ("cpu_cores".toList, Value.number (F64.ofNat 4)),
    ("cpu_model".toList, Value.string "c".toList),
    ("disks".toList, Value.string "none".toList),
    ("hostname".toList, Value.string "h".toList),
    ("os".toList, Value.string "o".toList),
    ("ram_total_mb".toList, Value.number (F64.ofNat 8192)),
    ("timestamp_utc".toList, Value.string "t".toList)]

end minijson

/-! ## Numbers that fifteen significant digits determine -/

namespace minijson

namespace F64

/-- The binary exponent of the positive fraction `num / den`, as `round` computes
it: `⌊log₂ (num / den)⌋`. -/
def binexp (num den : Nat) : Int :=
  let lg : Int := (ilog2 num : Int) - (ilog2 den : Int)
  if num * 2 ^ (- lg).toNat < den * 2 ^ lg.toNat then lg - 1 else lg

/-- The rounding of `round` for a fraction `num / den` with binary exponent `e0`. -/
def roundAt (sign : Bool) (num den : Nat) (e0 : Int) : Option F64 :=
  let s := if sign then 2 ^ 63 else 0
  let e : Int := max (e0 - 52) (-1074)
  let n := num * 2 ^ (- e).toNat
  let d := den * 2 ^ e.toNat
  let q := n / d
  let r := n % d
  let q1 := if d < 2 * r ∨ (d = 2 * r ∧ q % 2 = 1) then q + 1 else q
  let b := (e + 1074).toNat * 2 ^ 52 + q1
  let carry : Bool :=
    decide (num * 2 ^ 1075 / den = 2 ^ 53 - 1 ∧ den ≤ 2 * (num * 2 ^ 1075 % den))
  let quarter : Bool := decide (e0 = -1023 ∧ 4 * r = d)
  if 2047 * 2 ^ 52 ≤ b then none
  else if e0 < -1022 ∧ r ≠ 0 ∧ carry = false ∧ quarter = false then none
  else some ⟨s + b⟩

/-- The decimal value of the text that `fmt15` writes for a finite double, as a
fraction: `0` for a zero, else `D * 10 ^ (X - 14)` for the fifteen significant digits
`(D, X)` of the magnitude. -/
def dec15 (x : F64) : Nat × Nat :=
  if x.mant = 0 then (0, 1)
  else
    let p := sig15 x.magnitude.1 x.magnitude.2
    (p.1 * 10 ^ (p.2 - 14).toNat, 10 ^ (14 - p.2).toNat)

/-- Fifteen significant digits determine the double `x`: `x` is finite, and the
double nearest to the decimal value of its fifteen significant digits is `x`
itself. -/
def Exact15 (x : F64) : Prop :=
  x.expo ≠ 2047 ∧ round x.neg (dec15 x).1 (dec15 x).2 = some x

instance (x : F64) : Decidable (Exact15 x) := by
  unfold Exact15
  infer_instance

end F64

mutual

/-- A Value that survives the round trip: no string or key holds a character below
`0x20`, and fifteen significant digits determine every Number. -/
def Value.Exact : Value → Prop
  | Value.number x => F64.Exact15 x
  | Value.string s => ∀ c ∈ s, 32 ≤ c.toNat
  | Value.array xs => elems_exact xs
  | Value.object m => members_exact m
  | _ => True

/-- `Exact` for every element of an Array. -/
def elems_exact : List Value → Prop
  | [] => True
  | x :: xs => x.Exact ∧ elems_exact xs

/-- `Exact` for every key and member value of an Object. -/
def members_exact : List (List Char × Value) → Prop
  | [] => True
  | (k, x) :: m => (∀ c ∈ k, 32 ≤ c.toNat) ∧ x.Exact ∧ members_exact m

end

end minijson

/-! ## The members of an object text -/

namespace minijson

namespace Parser

/-- The members that the `while (true)` loop of `parse_object()` reads, in the order
of the text: the loop `object_loop` with every pair `(k, v)` listed at the place
where the source calls `obj.emplace(k, v)`. -/
def object_members (pv : List Char → Res (Value × List Char)) :
    Nat → List Char → Res (List (List Char × Value) × List Char)
  | 0, _ => .fuel
  | k + 1, t =>
    match parse_string t with
    | .error e => .error e
    | .fuel => .fuel
    | .ok (key, t1) =>
      match expect (':') (ws t1) with
      | .error e => .error e
      | .fuel => .fuel
      | .ok t2 =>
        match pv t2 with
        | .error e => .error e
        | .fuel => .fuel
        | .ok (val, t3) =>
          let g := get (ws t3)
          if g.1 = '}' then .ok ([(key, val)], g.2)
          else if g.1 ≠ ',' then .error "expected , or \x7d"
          else
            match object_members pv k g.2 with
            | .error e => .error e
            | .fuel => .fuel
            | .ok (ms, r) => .ok ((key, val) :: ms, r)

/-- The members that `parse_object()` reads, in the order of the text. -/
def parse_object_members (pv : List Char → Res (Value × List Char)) (t : List Char) :
    Res (List (List Char × Value) × List Char) :=
  match expect ('{') t with
  | .error e => .error e
  | .fuel => .fuel
  | .ok t1 =>
    let p := peek (ws t1)
    if p.1 = '}' then .ok ([], (get p.2).2)
    else object_members pv (p.2.length + 1) p.2

end Parser

/-- The members of the object text `text` in the order of the text, keys and values
as `parse` reads them: `parse` on a text whose first character is an opening brace,
with the members listed instead of inserted into the map.  A text that does not
start with an opening brace is no object text. -/
def text_members (text : List Char) : Res (List (List Char × Value)) :=
  if (Parser.peek (Parser.ws text)).1 = '{' then
    match Parser.parse_object_members (Parser.parse_value text.length)
        (Parser.peek (Parser.ws text)).2 with
    | .error e => .error e
    | .fuel => .fuel
    | .ok (ms, r) =>
      let r1 := Parser.ws r
      if r1 ≠ [] ∧ r1.any (fun c => !isspace c) then .error "trailing data" else .ok ms
  else .error "no object text"

/-- An object text with blanks and line breaks, the key `k` three times (once with
an escaped letter), and the key `a/b` twice (once with an escaped slash). -/
def dup_text : List Char :=
  ("\x7b \"k\" : 1.0 ,\n  \"a\\/b\" : [ ] ,\n  \"k\" : 2 , \"a/b\":true,\"\\u006b\":null , " ++
   "\"k\" : \x7b\"k\":3,\"k\":4\x7d \x7d\n").toList

end minijson

/-! # Theorems -/

/-! ## The schema validator -/

namespace inventory

open minijson

theorem lacks_eq (v : Value) (k : String) (p : Value → Bool) :
    lacks v k p = .ok (!holds v k p) := by
  unfold lacks holds Value.has Value.«at»
  cases h : Map.find k.toList v.o <;> simp

theorem first_failure_cases (cs : List (Bool × String)) :
    first_failure cs = (true, "") ∨ ∃ w, first_failure cs = (false, w) := by
  induction cs with
  | nil => exact Or.inl rfl
  | cons c cs ih =>
    rcases c with ⟨b, w⟩
    cases b
    · exact Or.inr ⟨w, rfl⟩
    · exact ih

theorem check_disk_eq (d : Value) :
    check_disk d = .ok (match first_failure (disk_checks d) with
      | (true, _) => none | (false, why) => some why) := by
  unfold check_disk disk_checks
  simp only [lacks_eq]
  cases d.is_object <;> cases holds d "mount" Value.is_string <;>
    cases holds d "total_gb" Value.is_number <;>
    cases holds d "free_gb" Value.is_number <;> simp [first_failure]

theorem check_disks_eq (ds : List Value) :
    check_disks ds = .ok (match first_failure (ds.flatMap disk_checks) with
      | (true, _) => none | (false, why) => some why) := by
  induction ds with
  | nil => simp [check_disks, first_failure]
  | cons d ds ih =>
    unfold check_disks
    rw [check_disk_eq, ih]
    simp only [List.flatMap_cons, disk_checks]
    cases d.is_object <;> cases holds d "mount" Value.is_string <;>
    cases holds d "total_gb" Value.is_number <;>
    cases holds d "free_gb" Value.is_number <;> simp [first_failure]

theorem validate_eq (v : Value) :
    validate_asset_schema v = .ok (first_failure (spec_checks v)) := by
  have hn : is_num_intish = Value.is_number := rfl
  unfold validate_asset_schema spec_checks
  simp only [req_str, check_req_str, lacks_eq, hn]
  cases hf : Map.find "disks".toList v.o with
  | none =>
    have hh : holds v "disks" Value.is_array = false := by unfold holds; rw [hf]
    rw [hh]
    cases v.is_object <;> cases holds v "asset_id" Value.is_string <;>
    cases holds v "hostname" Value.is_string <;> cases holds v "os" Value.is_string <;>
    cases holds v "cpu_model" Value.is_string <;>
    cases holds v "timestamp_utc" Value.is_string <;>
    cases holds v "agent_version" Value.is_string <;>
    cases holds v "cpu_cores" Value.is_number <;>
    cases holds v "ram_total_mb" Value.is_number <;> simp [first_failure]
  | some dv =>
    have hh : holds v "disks" Value.is_array = dv.is_array := by unfold holds; rw [hf]
    have hd : v.«at» "disks".toList = .ok dv := by unfold Value.«at»; rw [hf]
    have hi : disk_items v = dv.a := by unfold disk_items; rw [hf]
    rw [hh, hd, hi]
    simp only [check_disks_eq]
    rcases first_failure_cases (dv.a.flatMap disk_checks) with h | ⟨w, h⟩ <;>
    cases v.is_object <;> cases holds v "asset_id" Value.is_string <;>
    cases holds v "hostname" Value.is_string <;> cases holds v "os" Value.is_string <;>
    cases holds v "cpu_model" Value.is_string <;>
    cases holds v "timestamp_utc" Value.is_string <;>
    cases holds v "agent_version" Value.is_string <;>
    cases holds v "cpu_cores" Value.is_number <;>
    cases holds v "ram_total_mb" Value.is_number <;>
    cases dv.is_array <;> simp [first_failure, h]

theorem first_failure_ok_iff (cs : List (Bool × String)) :
    first_failure cs = (true, "") ↔ ∀ c ∈ cs, c.1 = true := by
  induction cs with
  | nil => simp [first_failure]
  | cons c cs ih =>
    rcases c with ⟨b, w⟩
    cases b
    · simp [first_failure]
    · simp [first_failure, ih]

theorem holds_string_iff (v : Value) (k : String) :
    holds v k Value.is_string = true ↔ HasString v k := by
  unfold holds HasString
  cases h : Map.find k.toList v.o with
  | none => simp
  | some x => cases x <;> simp [Value.is_string]

theorem holds_number_iff (v : Value) (k : String) :
    holds v k Value.is_number = true ↔ HasNumber v k := by
  unfold holds HasNumber
  cases h : Map.find k.toList v.o with
  | none => simp
  | some x => cases x <;> simp [Value.is_number]

theorem disk_checks_iff (d : Value) :
    (∀ c ∈ disk_checks d, c.1 = true) ↔ IsDisk d := by
  unfold IsDisk
  rw [← holds_string_iff, ← holds_number_iff, ← holds_number_iff]
  simp [disk_checks]

theorem holds_disks_iff (v : Value) :
    (holds v "disks" Value.is_array = true ∧ ∀ d ∈ disk_items v, IsDisk d)
      ↔ ∃ ds, Map.find "disks".toList v.o = some (Value.array ds) ∧ ∀ d ∈ ds, IsDisk d := by
  unfold holds disk_items
  cases h : Map.find "disks".toList v.o with
  | none => simp
  | some x => cases x <;> simp [Value.is_array, Value.a]

theorem spec_checks_iff (v : Value) :
    (∀ c ∈ spec_checks v, c.1 = true) ↔ IsAssetRecord v := by
  unfold IsAssetRecord
  rw [← holds_disks_iff, ← holds_string_iff, ← holds_string_iff, ← holds_string_iff,
    ← holds_string_iff, ← holds_string_iff, ← holds_string_iff, ← holds_number_iff,
    ← holds_number_iff]
  have hflat : (∀ c ∈ (disk_items v).flatMap disk_checks, c.1 = true)
      ↔ ∀ d ∈ disk_items v, IsDisk d := by
    constructor
    · intro h d hd
      exact (disk_checks_iff d).1 (fun c hc => h c (List.mem_flatMap.2 ⟨d, hd, hc⟩))
    · intro h c hc
      rcases List.mem_flatMap.1 hc with ⟨d, hd, hc1⟩
      exact (disk_checks_iff d).2 (h d hd) c hc1
  simp only [spec_checks, List.forall_mem_append, List.forall_mem_cons, hflat,
    List.not_mem_nil, false_implies, implies_true, and_true, and_assoc]

set_option maxRecDepth 10000 in
theorem parse_sample_text : parse sample_text = .ok sample_doc := by rfl

set_option maxRecDepth 10000 in
theorem parse_sample_text_no_cores : parse sample_text_no_cores = .ok sample_doc_no_cores := by
  rfl

/-- C5.  The validator accepts exactly the asset records of the spec:
`validate_asset_schema v` returns `(true, "")` if and only if `v` is an Object
with the six required String fields, the Number fields `cpu_cores` and
`ram_total_mb`, and an Array `disks` (possibly empty) whose every element is an
Object with `mount` a String and `total_gb`, `free_gb` Numbers; nothing else
about `v` matters.  The sample document of the spec parses to `sample_doc` and
is accepted. -/
theorem validator_correct :
    (∀ v : Value, validate_asset_schema v = .ok (true, "") ↔ IsAssetRecord v)
    ∧ parse sample_text = .ok sample_doc
    ∧ validate_asset_schema sample_doc = .ok (true, "") := by
  refine ⟨fun v => ?_, parse_sample_text, by rfl⟩
  rw [validate_eq, ← spec_checks_iff, ← first_failure_ok_iff]
  constructor
  · intro h; injection h
  · intro h; rw [h]

/-- C6.  For every Object whose six required string fields are present as
Strings and whose `cpu_cores` is absent or not a Number, the validator returns
`(false, "field number wajib: cpu_cores")`. -/
theorem validator_cpu_cores_reason (v : Value) (h0 : v.is_object = true)
    (h1 : HasString v "asset_id") (h2 : HasString v "hostname")
    (h3 : HasString v "os") (h4 : HasString v "cpu_model")
    (h5 : HasString v "timestamp_utc") (h6 : HasString v "agent_version")
    (h7 : ¬ HasNumber v "cpu_cores") :
    validate_asset_schema v = .ok (false, "field number wajib: cpu_cores") := by
  rw [validate_eq]
  have e7 : holds v "cpu_cores" Value.is_number = false := by
    rw [← Bool.not_eq_true, holds_number_iff]; exact h7
  simp [spec_checks, first_failure, (holds_string_iff v _).2 h1, (holds_string_iff v _).2 h2,
    (holds_string_iff v _).2 h3, (holds_string_iff v _).2 h4, (holds_string_iff v _).2 h5,
    (holds_string_iff v _).2 h6, e7, h0]

/-- Witness of C6: the sample document of the spec with `cpu_cores` removed. -/
theorem validator_cpu_cores_reason_witness :
    parse sample_text_no_cores = .ok sample_doc_no_cores
    ∧ validate_asset_schema sample_doc_no_cores
        = .ok (false, "field number wajib: cpu_cores") :=
  ⟨parse_sample_text_no_cores,
   validator_cpu_cores_reason sample_doc_no_cores rfl ⟨_, rfl⟩ ⟨_, rfl⟩ ⟨_, rfl⟩ ⟨_, rfl⟩
     ⟨_, rfl⟩ ⟨_, rfl⟩ (by
       rintro ⟨x, hx⟩
       have hn : Map.find "cpu_cores".toList sample_doc_no_cores.o = none := rfl
       rw [hn] at hx
       cases hx)⟩

theorem first_failure_mem (cs : List (Bool × String)) (w : String)
    (h : first_failure cs = (false, w)) : ∃ c ∈ cs, c.2 = w := by
  induction cs with
  | nil => simp [first_failure] at h
  | cons c cs ih =>
    rcases c with ⟨b, w1⟩
    cases b
    · simp only [first_failure, Prod.mk.injEq, true_and] at h
      exact ⟨(false, w1), List.mem_cons_self _ _, h⟩
    · rcases ih h with ⟨c, hc, hw⟩
      exact ⟨c, List.mem_cons_of_mem _ hc, hw⟩

theorem spec_checks_reason_ne (v : Value) : ∀ c ∈ spec_checks v, c.2 ≠ "" := by
  intro c hc
  simp only [spec_checks, List.mem_append, List.mem_flatMap, disk_checks] at hc
  rcases hc with hc | ⟨d, _, hc⟩
  · simp only [List.mem_cons, List.mem_singleton, List.not_mem_nil, or_false] at hc
    rcases hc with rfl | rfl | rfl | rfl | rfl | rfl | rfl | rfl | rfl | rfl <;>
      (dsimp only; decide)
  · simp only [List.mem_cons, List.mem_singleton, List.not_mem_nil, or_false] at hc
    rcases hc with rfl | rfl | rfl | rfl <;> (dsimp only; decide)

/-- C7.  The validator reports the first violation in the fixed order of the
checks (`spec_checks`: root is Object; the six string fields in order;
`cpu_cores`; `ram_total_mb`; `disks` is Array; then, for each disk element in
array order, is Object, `mount`, `total_gb`, `free_gb`): its result is ok with
an empty reason when every check passes, else not-ok with the reason of the
earliest failing check.  Every reason of a check is non-empty, so the returned
reason is empty exactly when the result is ok.  An Object that lacks both
`hostname` and `cpu_cores` yields `field string wajib: hostname`. -/
theorem validator_first_violation :
    (∀ v : Value, validate_asset_schema v = .ok (first_failure (spec_checks v))
      ∧ (∀ c ∈ spec_checks v, c.2 ≠ "")
      ∧ ((first_failure (spec_checks v)).2 = "" ↔ (first_failure (spec_checks v)).1 = true))
    ∧ validate_asset_schema (Value.object [("asset_id".toList, Value.string "a".toList)])
        = .ok (false, "field string wajib: hostname") := by
  refine ⟨fun v => ⟨validate_eq v, spec_checks_reason_ne v, ?_⟩, by rfl⟩
  rcases first_failure_cases (spec_checks v) with h | ⟨w, h⟩
  · rw [h]; simp
  · rcases first_failure_mem _ _ h with ⟨c, hc, hw⟩
    have hne := spec_checks_reason_ne v c hc
    rw [h]
    simp only [Bool.false_eq_true, iff_false]
    rw [← hw]; exact hne

end inventory

/-! ## Strings, trailing data, unterminated literals -/

namespace minijson

open Parser

theorem esc_char_eq_spec (c : Char) : esc_char c = spec_escape c := by
  unfold esc_char
  by_cases h1 : c = '"'
  · subst h1; rfl
  by_cases h2 : c = '\\'
  · subst h2; rfl
  by_cases h3 : c = '\x08'
  · subst h3; rfl
  by_cases h4 : c = '\x0c'
  · subst h4; rfl
  by_cases h5 : c = '\n'
  · subst h5; rfl
  by_cases h6 : c = '\r'
  · subst h6; rfl
  by_cases h7 : c = '\t'
  · subst h7; rfl
  simp only [if_neg h1, if_neg h2, if_neg h3, if_neg h4, if_neg h5, if_neg h6, if_neg h7]
  unfold spec_escape
  by_cases h8 : c.toNat < 0x20
  · simp only [if_pos h8]
  · simp only [if_neg h8]

theorem esc_eq_spec (s : List Char) : esc s = (s.map spec_escape).flatten := by
  induction s with
  | nil => rfl
  | cons c s ih => simp [esc, ih, esc_char_eq_spec]

/-- C10.  String serialization rule: `stringify` of a String `s` is a double
quote, the concatenation of `spec_escape c` over the characters `c` of `s`, and
a double quote, in both modes and at every indent level; the key of an Object
member is written by the same rule (followed by the colon). -/
theorem string_serialization_rule :
    (∀ (s : List Char) (pretty : Bool) (lvl : Int),
      stringify (Value.string s) pretty lvl = '"' :: ((s.map spec_escape).flatten ++ ['"']))
    ∧ (∀ (k : List Char) (x : Value) (m : Map) (pretty : Bool) (lvl : Int),
      stringify_members ((k, x) :: m) pretty lvl
        = ifp pretty (indent (lvl + 2))
          ++ '"' :: ((k.map spec_escape).flatten ++ ['"', ':'])
          ++ ifp pretty [' '] ++ stringify x pretty (lvl + 2)
          ++ (if m.isEmpty then [] else [',']) ++ ifp pretty ['\n']
          ++ stringify_members m pretty lvl) := by
  constructor
  · intro s pretty lvl
    rw [stringify, esc_eq_spec]
  · intro k x m pretty lvl
    rw [stringify_members, esc_eq_spec]

/-- C3.  The texts `1` and `2` each parse to a Number, and so does `1 2`:
`parse` returns the Number 1 for it instead of failing with "trailing data".
The digit loop of `parse_number` looks ahead with `peek()`, which skips the
blank, so the scanner runs on into the second number and `std::stod` reads the
substring `1 2` as 1. -/
theorem trailing_number_accepted :
    parse "1".toList = .ok (Value.number (F64.ofNat 1))
    ∧ parse "2".toList = .ok (Value.number (F64.ofNat 2))
    ∧ parse "1 2".toList = .ok (Value.number (F64.ofNat 1)) := by
  refine ⟨by rfl, by rfl, by rfl⟩

theorem string_loop_plain (s out : List Char)
    (h : ∀ c ∈ s, c ≠ '"' ∧ c ≠ '\\') :
    string_loop .normal out s = .ok (out ++ s, []) := by
  induction s generalizing out with
  | nil => simp [string_loop]
  | cons c s ih =>
    have hc := h c (List.mem_cons_self _ _)
    rw [string_loop]
    simp only [hc.1, hc.2, if_false]
    rw [ih _ (fun d hd => h d (List.mem_cons_of_mem _ hd))]
    simp

/-- C4.  An unterminated string literal is accepted: for every `s` without
`"` and without a backslash, `parse` of an opening quote followed by `s` returns
the String `s`; the loop of `parse_string` also ends when the input ends, and
no error is raised there. -/
theorem unterminated_string_accepted (s : List Char)
    (h : ∀ c ∈ s, c ≠ '"' ∧ c ≠ '\\') :
    parse ('"' :: s) = .ok (Value.string s) := by
  have hs : string_loop .normal [] s = .ok (s, []) := by
    simpa using string_loop_plain s [] h
  have hq : isspace '"' = false := by decide
  simp [parse, parse_value, peek, ws, parse_string, Parser.get, hs, hq]

/-- Witness of C4: an opening quote followed by `abc` parses to the String `abc`. -/
theorem unterminated_string_accepted_witness :
    parse "\"abc".toList = .ok (Value.string "abc".toList) :=
  unterminated_string_accepted "abc".toList (by decide)

end minijson

/-! ## Basic facts about the parser -/

namespace minijson

open Parser

/-! ## Lengths: no parsing function returns more text than it was given -/

theorem ws_length (t : List Char) : (ws t).length ≤ t.length := by
  unfold ws
  induction t with
  | nil => simp
  | cons c t ih =>
    rw [List.dropWhile_cons]
    split
    · exact Nat.le_succ_of_le ih
    · exact Nat.le_refl _

theorem get_length (t : List Char) : (Parser.get t).2.length ≤ t.length := by
  cases t <;> simp [Parser.get]

theorem get_length_lt (t : List Char) (h : (Parser.get t).1 ≠ NUL) :
    (Parser.get t).2.length < t.length := by
  cases t with
  | nil => simp [Parser.get] at h
  | cons c t => simp [Parser.get]

theorem expect_eq (c : Char) (t : List Char) :
    expect c t = if (Parser.get (ws t)).1 = c then .ok (Parser.get (ws t)).2
      else .error ("expected '" ++ String.mk [c] ++ "'") := by
  unfold expect
  by_cases h : (Parser.get (ws t)).1 = c <;> simp [h]

theorem expect_ok (c : Char) (hc : c ≠ NUL) (t r : List Char) :
    expect c t = .ok r ↔ ws t = c :: r := by
  rw [expect_eq]
  cases h : ws t with
  | nil =>
    simp only [Parser.get]
    have : NUL ≠ c := fun e => hc e.symm
    simp [this]
  | cons d t1 =>
    simp only [Parser.get]
    by_cases hd : d = c
    · simp [hd]
    · simp [hd]

theorem expect_length_lt (c : Char) (hc : c ≠ NUL) (t r : List Char)
    (h : expect c t = .ok r) : r.length < t.length := by
  have h1 := (expect_ok c hc t r).1 h
  have h2 := ws_length t
  rw [h1] at h2
  exact h2

theorem consume_loop_length (lit : String) (ps t r : List Char)
    (h : consume_loop lit ps t = .ok r) : r.length ≤ t.length := by
  induction ps generalizing t with
  | nil => simp [consume_loop] at h; rw [← h]
  | cons p ps ih =>
    rw [consume_loop] at h
    split at h
    · cases h
    · exact Nat.le_trans (ih _ h) (get_length _)

theorem consume_length (lit : String) (t r : List Char) (h : consume lit t = .ok r) :
    r.length ≤ t.length :=
  Nat.le_trans (consume_loop_length lit _ _ _ h) (ws_length _)

theorem string_loop_length (t : List Char) :
    ∀ (st : StrState) (out s r : List Char), string_loop st out t = .ok (s, r) →
      r.length ≤ t.length := by
  induction t with
  | nil =>
    intro st out s r h
    cases st <;> simp [string_loop] at h
    rw [← h.2]
  | cons c t ih =>
    intro st out s r h
    have step : ∀ (st1 : StrState) (o : List Char),
        string_loop st1 o t = .ok (s, r) → r.length ≤ (c :: t).length := by
      intro st1 o ho
      exact Nat.le_succ_of_le (ih st1 o s r ho)
    cases st with
    | normal =>
      rw [string_loop] at h
      split at h
      · injection h with h; injection h with _ h; rw [← h]; simp
      · split at h
        · exact step _ _ h
        · exact step _ _ h
    | esc =>
      rw [string_loop] at h
      split at h
      · exact step _ _ h
      · split at h
        · exact step _ _ h
        · cases h
    | hex k =>
      cases k with
      | zero =>
        rw [string_loop] at h
        split at h
        · exact step _ _ h
        · cases h
      | succ k =>
        rw [string_loop] at h
        split at h
        · exact step _ _ h
        · cases h

theorem parse_string_ok (t s r : List Char) :
    parse_string t = .ok (s, r)
      ↔ ∃ t1, ws t = '"' :: t1 ∧ string_loop .normal [] t1 = .ok (s, r) := by
  unfold parse_string
  cases h : ws t with
  | nil =>
    have : NUL ≠ '"' := by decide
    simp [Parser.get, this]
  | cons d t1 =>
    simp only [Parser.get]
    by_cases hd : d = '"'
    · simp [hd]
    · simp [hd]

theorem parse_string_length (t s r : List Char) (h : parse_string t = .ok (s, r)) :
    r.length < t.length := by
  rcases (parse_string_ok t s r).1 h with ⟨t1, h1, h2⟩
  have h3 := string_loop_length t1 .normal [] s r h2
  have h4 := ws_length t
  rw [h1] at h4
  simp at h4
  omega

/-! Number scanning -/

theorem scan_digits_append (t : List Char) :
    (scan_digits t).1 ++ (scan_digits t).2 = t := by
  induction t with
  | nil => rfl
  | cons c t ih =>
    rw [scan_digits]
    split
    · simp [ih]
    · rfl

theorem scan_opt_append (c1 c2 : Char) (t : List Char) :
    (scan_opt c1 c2 t).1 ++ (scan_opt c1 c2 t).2 = t := by
  unfold scan_opt ws
  have h := List.takeWhile_append_dropWhile isspace t
  cases hd : List.dropWhile isspace t with
  | nil => rw [hd] at h; simpa using h
  | cons c r =>
    rw [hd] at h
    by_cases hc : c = c1 ∨ c = c2
    · simp [hc, h]
    · simp [hc, h]

theorem scan_frac_append (t : List Char) :
    (scan_frac t).1 ++ (scan_frac t).2 = t := by
  unfold scan_frac ws
  have h := List.takeWhile_append_dropWhile isspace t
  cases hd : List.dropWhile isspace t with
  | nil => rw [hd] at h; simpa using h
  | cons c r =>
    rw [hd] at h
    have hr := scan_digits_append r
    by_cases hc : c = '.'
    · simp only [hc, if_true]
      rw [List.append_assoc, List.cons_append, hr, ← hc]; exact h
    · simp [hc, h]

theorem scan_exp_append (t : List Char) :
    (scan_exp t).1 ++ (scan_exp t).2 = t := by
  unfold scan_exp ws
  have h := List.takeWhile_append_dropWhile isspace t
  cases hd : List.dropWhile isspace t with
  | nil => rw [hd] at h; simpa using h
  | cons c r =>
    rw [hd] at h
    have hq := scan_opt_append '+' '-' r
    have hr := scan_digits_append (scan_opt '+' '-' r).2
    by_cases hc : c = 'e' ∨ c = 'E'
    · simp only [hc, if_true]
      rw [List.append_assoc, List.cons_append, List.append_assoc, hr, hq]; exact h
    · simp [hc, h]

theorem scan_number_append (t : List Char) :
    (scan_number t).1 ++ (scan_number t).2 = t := by
  unfold scan_number
  simp only [List.append_assoc]
  rw [scan_exp_append, scan_frac_append, scan_digits_append, scan_opt_append]

theorem scan_number_length (t : List Char) : (scan_number t).2.length ≤ t.length := by
  have h := congrArg List.length (scan_number_append t)
  rw [List.length_append] at h
  omega

theorem parse_number_length (t : List Char) (x : F64) (r : List Char)
    (h : parse_number t = .ok (x, r)) : r.length ≤ t.length := by
  simp only [parse_number] at h
  split at h
  · cases h
  · injection h with h
    injection h with _ h
    rw [← h]
    exact Nat.le_trans (scan_number_length _) (ws_length _)

theorem array_loop_length (pv : List Char → Res (Value × List Char)) (hpv : Shrinks pv) :
    ∀ (k : Nat) (arr : List Value) (t : List Char) (v : Value) (r : List Char),
      array_loop pv k arr t = .ok (v, r) → r.length ≤ t.length := by
  intro k
  induction k with
  | zero => intro arr t v r h; simp [array_loop] at h
  | succ k ih =>
    intro arr t v r h
    rw [array_loop] at h
    split at h
    · cases h
    · cases h
    · rename_i v1 t1 hv
      have h1 := hpv _ _ _ hv
      have h2 := Nat.le_trans (get_length (ws t1)) (ws_length t1)
      simp only at h
      split at h
      · injection h with h; injection h with _ h; rw [← h]; omega
      · split at h
        · cases h
        · have := ih _ _ _ _ h
          omega

theorem parse_array_length (pv : List Char → Res (Value × List Char)) (hpv : Shrinks pv)
    (t : List Char) (v : Value) (r : List Char) (h : parse_array pv t = .ok (v, r)) :
    r.length ≤ t.length := by
  unfold parse_array at h
  split at h
  · cases h
  · cases h
  · rename_i t1 he
    have h1 := expect_length_lt '[' (by decide) _ _ he
    have h2 : (peek (ws t1)).2.length ≤ t1.length := by
      unfold peek
      split <;> rename_i hw
      · simp
      · simp only; rw [← hw]; exact Nat.le_trans (ws_length _) (ws_length _)
    simp only at h
    split at h
    · injection h with h; injection h with _ h; rw [← h]
      have := get_length (peek (ws t1)).2
      omega
    · have := array_loop_length pv hpv _ _ _ _ _ h
      omega

theorem object_loop_length (pv : List Char → Res (Value × List Char)) (hpv : Shrinks pv) :
    ∀ (k : Nat) (obj : Map) (t : List Char) (v : Value) (r : List Char),
      object_loop pv k obj t = .ok (v, r) → r.length ≤ t.length := by
  intro k
  induction k with
  | zero => intro obj t v r h; simp [object_loop] at h
  | succ k ih =>
    intro obj t v r h
    rw [object_loop] at h
    split at h
    · cases h
    · cases h
    · rename_i key t1 hs
      have h1 := parse_string_length _ _ _ hs
      split at h
      · cases h
      · cases h
      · rename_i t2 he
        have h2 := expect_length_lt ':' (by decide) _ _ he
        have h2w := ws_length t1
        split at h
        · cases h
        · cases h
        · rename_i val t3 hv
          have h3 := hpv _ _ _ hv
          have h4 := Nat.le_trans (get_length (ws t3)) (ws_length t3)
          simp only at h
          split at h
          · injection h with h; injection h with _ h; rw [← h]; omega
          · split at h
            · cases h
            · have := ih _ _ _ _ h
              omega

theorem parse_object_length (pv : List Char → Res (Value × List Char)) (hpv : Shrinks pv)
    (t : List Char) (v : Value) (r : List Char) (h : parse_object pv t = .ok (v, r)) :
    r.length ≤ t.length := by
  unfold parse_object at h
  split at h
  · cases h
  · cases h
  · rename_i t1 he
    have h1 := expect_length_lt '{' (by decide) _ _ he
    have h2 : (peek (ws t1)).2.length ≤ t1.length := by
      unfold peek
      split <;> rename_i hw
      · simp
      · simp only; rw [← hw]; exact Nat.le_trans (ws_length _) (ws_length _)
    simp only at h
    split at h
    · injection h with h; injection h with _ h; rw [← h]
      have := get_length (peek (ws t1)).2
      omega
    · have := object_loop_length pv hpv _ _ _ _ _ h
      omega

theorem peek_length (t : List Char) : (peek t).2.length ≤ t.length := by
  unfold peek
  split <;> rename_i hw
  · simp
  · simp only; rw [← hw]; exact ws_length _

theorem parse_value_length : ∀ (n : Nat), Shrinks (parse_value n) := by
  intro n
  induction n with
  | zero => intro t v r h; simp [parse_value] at h
  | succ n ih =>
    intro t v r h
    rw [parse_value] at h
    have hp : (peek (ws t)).2.length ≤ t.length :=
      Nat.le_trans (peek_length _) (ws_length _)
    split at h
    · split at h
      · rename_i s r1 hs
        injection h with h; injection h with _ h; rw [← h]
        have := parse_string_length _ _ _ hs
        omega
      · cases h
      · cases h
    · split at h
      · have := parse_object_length _ ih _ _ _ h; omega
      · split at h
        · have := parse_array_length _ ih _ _ _ h; omega
        · split at h
          · split at h
            · rename_i r1 hc
              injection h with h; injection h with _ h; rw [← h]
              have := consume_length _ _ _ hc; omega
            · cases h
            · cases h
          · split at h
            · split at h
              · rename_i r1 hc
                injection h with h; injection h with _ h; rw [← h]
                have := consume_length _ _ _ hc; omega
              · cases h
              · cases h
            · split at h
              · split at h
                · rename_i r1 hc
                  injection h with h; injection h with _ h; rw [← h]
                  have := consume_length _ _ _ hc; omega
                · cases h
                · cases h
              · split at h
                · split at h
                  · rename_i x r1 hc
                    injection h with h; injection h with _ h; rw [← h]
                    have := parse_number_length _ _ _ hc; omega
                  · cases h
                  · cases h
                · cases h

/-! ## The recursion budget of `parse` is never exhausted -/

theorem string_loop_ne_fuel (t : List Char) :
    ∀ (st : StrState) (out : List Char), string_loop st out t ≠ .fuel := by
  induction t with
  | nil => intro st out; cases st <;> simp [string_loop]
  | cons c t ih =>
    intro st out
    cases st with
    | normal =>
      rw [string_loop]
      split
      · simp
      · split <;> exact ih _ _
    | esc =>
      rw [string_loop]
      split
      · exact ih _ _
      · split
        · exact ih _ _
        · simp
    | hex k =>
      cases k with
      | zero =>
        rw [string_loop]
        split
        · exact ih _ _
        · simp
      | succ k =>
        rw [string_loop]
        split
        · exact ih _ _
        · simp

theorem parse_string_ne_fuel (t : List Char) : parse_string t ≠ .fuel := by
  simp only [parse_string]
  split
  · simp
  · exact string_loop_ne_fuel _ _ _

theorem expect_ne_fuel (c : Char) (t : List Char) : expect c t ≠ .fuel := by
  rw [expect_eq]
  split <;> simp

theorem consume_loop_ne_fuel (lit : String) (ps : List Char) :
    ∀ t, consume_loop lit ps t ≠ .fuel := by
  induction ps with
  | nil => intro t; simp [consume_loop]
  | cons p ps ih =>
    intro t
    rw [consume_loop]
    split
    · simp
    · exact ih _

theorem consume_ne_fuel (lit : String) (t : List Char) : consume lit t ≠ .fuel :=
  consume_loop_ne_fuel _ _ _

theorem parse_number_ne_fuel (t : List Char) : parse_number t ≠ .fuel := by
  simp only [parse_number]
  split <;> simp

theorem array_loop_ne_fuel (pv : List Char → Res (Value × List Char)) (hpv : Shrinks pv)
    (L : Nat) (hnf : ∀ t, t.length ≤ L → pv t ≠ .fuel) :
    ∀ (k : Nat) (arr : List Value) (t : List Char), t.length < k → t.length ≤ L →
      array_loop pv k arr t ≠ .fuel := by
  intro k
  induction k with
  | zero => intro arr t h; exact absurd h (Nat.not_lt_zero _)
  | succ k ih =>
    intro arr t hk hL
    rw [array_loop]
    split
    · simp
    · rename_i hf; exact absurd hf (hnf t hL)
    · rename_i v t1 hv
      have h1 := hpv _ _ _ hv
      simp only
      split
      · simp
      · rename_i hne
        split
        · simp
        · rename_i hc
          have hc1 : (Parser.get (ws t1)).1 = ',' := by simpa using hc
          have h2 := get_length_lt (ws t1) (by rw [hc1]; decide)
          have h3 := ws_length t1
          exact ih _ _ (by omega) (by omega)

theorem parse_array_ne_fuel (pv : List Char → Res (Value × List Char)) (hpv : Shrinks pv)
    (t : List Char) (hnf : ∀ t1, t1.length < t.length → pv t1 ≠ .fuel) :
    parse_array pv t ≠ .fuel := by
  unfold parse_array
  split
  · simp
  · rename_i hf; exact absurd hf (expect_ne_fuel _ _)
  · rename_i t1 he
    have h1 := expect_length_lt '[' (by decide) _ _ he
    have h2 := Nat.le_trans (peek_length (ws t1)) (ws_length t1)
    simp only
    split
    · simp
    · exact array_loop_ne_fuel pv hpv (t.length - 1) (fun t2 h => hnf t2 (by omega)) _ _ _
        (Nat.lt_succ_self _) (by omega)

theorem object_loop_ne_fuel (pv : List Char → Res (Value × List Char)) (hpv : Shrinks pv)
    (L : Nat) (hnf : ∀ t, t.length ≤ L → pv t ≠ .fuel) :
    ∀ (k : Nat) (obj : Map) (t : List Char), t.length < k → t.length ≤ L →
      object_loop pv k obj t ≠ .fuel := by
  intro k
  induction k with
  | zero => intro arr t h; exact absurd h (Nat.not_lt_zero _)
  | succ k ih =>
    intro obj t hk hL
    rw [object_loop]
    split
    · simp
    · rename_i hf; exact absurd hf (parse_string_ne_fuel _)
    · rename_i key t1 hs
      have h1 := parse_string_length _ _ _ hs
      split
      · simp
      · rename_i hf; exact absurd hf (expect_ne_fuel _ _)
      · rename_i t2 he
        have h2 := expect_length_lt ':' (by decide) _ _ he
        have h2w := ws_length t1
        split
        · simp
        · rename_i hf; exact absurd hf (hnf t2 (by omega))
        · rename_i val t3 hv
          have h3 := hpv _ _ _ hv
          simp only
          split
          · simp
          · split
            · simp
            · rename_i hc
              have hc1 : (Parser.get (ws t3)).1 = ',' := by simpa using hc
              have h4 := get_length_lt (ws t3) (by rw [hc1]; decide)
              have h5 := ws_length t3
              exact ih _ _ (by omega) (by omega)

theorem parse_object_ne_fuel (pv : List Char → Res (Value × List Char)) (hpv : Shrinks pv)
    (t : List Char) (hnf : ∀ t1, t1.length < t.length → pv t1 ≠ .fuel) :
    parse_object pv t ≠ .fuel := by
  unfold parse_object
  split
  · simp
  · rename_i hf; exact absurd hf (expect_ne_fuel _ _)
  · rename_i t1 he
    have h1 := expect_length_lt '{' (by decide) _ _ he
    have h2 := Nat.le_trans (peek_length (ws t1)) (ws_length t1)
    simp only
    split
    · simp
    · exact object_loop_ne_fuel pv hpv (t.length - 1) (fun t2 h => hnf t2 (by omega)) _ _ _
        (Nat.lt_succ_self _) (by omega)

theorem parse_value_ne_fuel : ∀ (n : Nat) (t : List Char), t.length < n →
    parse_value n t ≠ .fuel := by
  intro n
  induction n with
  | zero => intro t h; exact absurd h (Nat.not_lt_zero _)
  | succ n ih =>
    intro t hn
    rw [parse_value]
    have hp : (peek (ws t)).2.length ≤ t.length :=
      Nat.le_trans (peek_length _) (ws_length _)
    have hsub : ∀ t1, t1.length < (peek (ws t)).2.length → parse_value n t1 ≠ .fuel :=
      fun t1 h1 => ih t1 (by omega)
    split
    · split
      · simp
      · simp
      · rename_i hf; exact absurd hf (parse_string_ne_fuel _)
    · split
      · exact parse_object_ne_fuel _ (parse_value_length n) _ hsub
      · split
        · exact parse_array_ne_fuel _ (parse_value_length n) _ hsub
        · split
          · split
            · simp
            · simp
            · rename_i hf; exact absurd hf (consume_ne_fuel _ _)
          · split
            · split
              · simp
              · simp
              · rename_i hf; exact absurd hf (consume_ne_fuel _ _)
            · split
              · split
                · simp
                · simp
                · rename_i hf; exact absurd hf (consume_ne_fuel _ _)
              · split
                · split
                  · simp
                  · simp
                  · rename_i hf; exact absurd hf (parse_number_ne_fuel _)
                · simp

/-- `parse` never runs out of its recursion budget: it returns a Value or
throws. -/
theorem parse_ne_fuel (text : List Char) : parse text ≠ .fuel := by
  unfold parse
  split
  · simp
  · rename_i hf; exact absurd hf (parse_value_ne_fuel _ _ (Nat.lt_succ_self _))
  · simp only
    split <;> simp

end minijson

/-! ## Number tokens -/

namespace minijson

open Parser

/-! ## Whitespace and spans -/

theorem ws_allSpace_append (w r : List Char) (hw : AllSpace w) : ws (w ++ r) = ws r := by
  induction w with
  | nil => rfl
  | cons c w ih =>
    have hc : isspace c = true := hw c (List.mem_cons_self _ _)
    simp only [ws, List.cons_append, List.dropWhile_cons, hc, if_true]
    exact ih (fun d hd => hw d (List.mem_cons_of_mem _ hd))

theorem takeWhile_allSpace_append (w r : List Char) (hw : AllSpace w) :
    (w ++ r).takeWhile isspace = w ++ r.takeWhile isspace := by
  induction w with
  | nil => rfl
  | cons c w ih =>
    have hc : isspace c = true := hw c (List.mem_cons_self _ _)
    simp only [List.cons_append, List.takeWhile_cons, hc, if_true]
    rw [ih (fun d hd => hw d (List.mem_cons_of_mem _ hd))]

theorem numStop_cases (r : List Char) (h : NumStop r) :
    r = [] ∨ ∃ c r1, r = c :: r1 ∧ (c = ',' ∨ c = ']' ∨ c = '}') := by
  cases r with
  | nil => exact Or.inl rfl
  | cons c r1 => exact Or.inr ⟨c, r1, rfl, h c (by simp)⟩

theorem stop_char (c : Char) (h : c = ',' ∨ c = ']' ∨ c = '}') :
    isspace c = false ∧ isdigit c = false ∧ c ≠ '.' ∧ c ≠ 'e' ∧ c ≠ 'E' ∧ c ≠ '+'
      ∧ c ≠ '-' := by
  rcases h with rfl | rfl | rfl <;> decide

theorem ws_numStop (r : List Char) (h : NumStop r) : ws r = r := by
  rcases numStop_cases r h with rfl | ⟨c, r1, rfl, hc⟩
  · rfl
  · simp [ws, List.dropWhile_cons, (stop_char c hc).1]

theorem takeWhile_space_numStop (r : List Char) (h : NumStop r) :
    r.takeWhile isspace = [] := by
  rcases numStop_cases r h with rfl | ⟨c, r1, rfl, hc⟩
  · rfl
  · simp [List.takeWhile_cons, (stop_char c hc).1]

/-! ## The number scanner on number tokens -/

theorem scan_digits_stop (c : Char) (q : List Char) (h1 : isspace c = false)
    (h2 : isdigit c = false) : scan_digits (c :: q) = ([], c :: q) := by
  rw [scan_digits]; simp [h1, h2]

theorem scan_digits_numStop (r : List Char) (h : NumStop r) : scan_digits r = ([], r) := by
  rcases numStop_cases r h with rfl | ⟨c, r1, rfl, hc⟩
  · rfl
  · exact scan_digits_stop c r1 (stop_char c hc).1 (stop_char c hc).2.1

theorem scan_digits_pass (ds q : List Char) (h : ∀ c ∈ ds, isspace c = true ∨ isdigit c = true) :
    scan_digits (ds ++ q) = (ds ++ (scan_digits q).1, (scan_digits q).2) := by
  induction ds with
  | nil => rfl
  | cons c ds ih =>
    have hc : (isspace c || isdigit c) = true := by
      rcases h c (List.mem_cons_self _ _) with h1 | h1 <;> simp [h1]
    rw [List.cons_append, scan_digits]
    simp only [hc, if_true]
    rw [ih (fun d hd => h d (List.mem_cons_of_mem _ hd))]
    rfl

/-- Digits followed by a character that is neither a digit nor whitespace. -/
theorem scan_digits_then (ds : List Char) (c : Char) (q : List Char) (hd : Digits ds)
    (h1 : isspace c = false) (h2 : isdigit c = false) :
    scan_digits (ds ++ c :: q) = (ds, c :: q) := by
  rw [scan_digits_pass ds _ (fun d h => Or.inr (hd d h)), scan_digits_stop c q h1 h2]
  simp

/-- Digits at the end of the token: the whitespace behind them is passed over. -/
theorem scan_digits_end (ds w r : List Char) (hd : Digits ds) (hw : AllSpace w)
    (hr : NumStop r) : scan_digits (ds ++ (w ++ r)) = (ds ++ w, r) := by
  rw [← List.append_assoc, scan_digits_pass (ds ++ w) r, scan_digits_numStop r hr]
  · simp
  · intro c hc
    rcases List.mem_append.1 hc with h | h
    · exact Or.inr (hd c h)
    · exact Or.inl (hw c h)

theorem scan_opt_cons (c1 c2 c : Char) (r : List Char) (hc : isspace c = false) :
    scan_opt c1 c2 (c :: r) = if c = c1 ∨ c = c2 then ([c], r) else ([], c :: r) := by
  simp [scan_opt, ws, List.dropWhile_cons, List.takeWhile_cons, hc]

theorem scan_frac_cons (c : Char) (r : List Char) (hc : isspace c = false) :
    scan_frac (c :: r)
      = if c = '.' then (c :: (scan_digits r).1, (scan_digits r).2) else ([], c :: r) := by
  simp [scan_frac, ws, List.dropWhile_cons, List.takeWhile_cons, hc]

theorem scan_exp_cons (c : Char) (r : List Char) (hc : isspace c = false) :
    scan_exp (c :: r)
      = if c = 'e' ∨ c = 'E' then
          (c :: ((scan_opt '+' '-' r).1 ++ (scan_digits (scan_opt '+' '-' r).2).1),
            (scan_digits (scan_opt '+' '-' r).2).2)
        else ([], c :: r) := by
  simp [scan_exp, ws, List.dropWhile_cons, List.takeWhile_cons, hc]

theorem scan_frac_numStop (r : List Char) (h : NumStop r) : scan_frac r = ([], r) := by
  rcases numStop_cases r h with rfl | ⟨c, r1, rfl, hc⟩
  · rfl
  · rw [scan_frac_cons c r1 (stop_char c hc).1]
    simp [(stop_char c hc).2.2.1]

theorem scan_exp_numStop (r : List Char) (h : NumStop r) : scan_exp r = ([], r) := by
  rcases numStop_cases r h with rfl | ⟨c, r1, rfl, hc⟩
  · rfl
  · rw [scan_exp_cons c r1 (stop_char c hc).1]
    simp [(stop_char c hc).2.2.2.1, (stop_char c hc).2.2.2.2.1]

/-- The exponent part of a token, at the end of the token. -/
theorem scan_exp_tok (ex w r : List Char) (he : ExpTok ex) (hw : AllSpace w) (hr : NumStop r)
    (hne : ex ≠ []) : scan_exp (ex ++ (w ++ r)) = (ex ++ w, r) := by
  rcases he with rfl | ⟨s, ed, rfl, hs, hed, hed0⟩
  · exact absurd rfl hne
  · have hss : isspace s = false := by rcases hs with rfl | rfl <;> decide
    rw [List.cons_append, List.cons_append, scan_exp_cons _ _ (by decide),
      scan_opt_cons _ _ _ _ hss]
    simp only [hs, if_true, true_or]
    rw [scan_digits_end ed w r hed hw hr]
    simp

theorem isdigit_not_space (c : Char) (h : isdigit c = true) : isspace c = false := by
  simp only [isdigit, isspace, Bool.and_eq_true, decide_eq_true_eq] at *
  simp only [Bool.or_eq_false_iff, beq_eq_false_iff_ne, Bool.and_eq_false_iff,
    decide_eq_false_iff_not]
  omega

/-- The fraction and exponent parts of a token, at the end of the token. -/
theorem scan_frac_exp_tok (fd ex w r : List Char) (hfd : Digits fd) (he : ExpTok ex)
    (hw : AllSpace w) (hr : NumStop r) (hne : F64.fracPart fd ++ ex ≠ []) :
    (scan_frac (F64.fracPart fd ++ (ex ++ (w ++ r)))).1
        ++ (scan_exp (scan_frac (F64.fracPart fd ++ (ex ++ (w ++ r)))).2).1
      = F64.fracPart fd ++ (ex ++ w)
    ∧ (scan_exp (scan_frac (F64.fracPart fd ++ (ex ++ (w ++ r)))).2).2 = r := by
  have hex : ∀ c q, ex = c :: q → isspace c = false ∧ isdigit c = false ∧ c ≠ '.' := by
    intro c q h
    rcases he with h0 | ⟨s, ed, h1, _⟩
    · rw [h0] at h; cases h
    · rw [h1] at h; injection h with h _; rw [← h]; decide
  cases fd with
  | nil =>
    have hexne : ex ≠ [] := by simpa [F64.fracPart] using hne
    cases hx : ex with
    | nil => exact absurd hx hexne
    | cons c q =>
      have hc := hex c q hx
      simp only [F64.fracPart, List.nil_append, List.cons_append]
      rw [scan_frac_cons c _ hc.1]
      simp only [hc.2.2, if_false]
      rw [← List.cons_append, ← hx, scan_exp_tok ex w r he hw hr hexne]
      simp [hx]
  | cons d fd1 =>
    simp only [F64.fracPart, List.cons_append]
    rw [scan_frac_cons _ _ (by decide)]
    simp only [if_true]
    cases hx : ex with
    | nil =>
      simp only [List.nil_append]
      rw [← List.cons_append, scan_digits_end (d :: fd1) w r hfd hw hr]
      simp only
      rw [scan_exp_numStop r hr]
      simp
    | cons c q =>
      have hc := hex c q hx
      rw [← List.cons_append d fd1, List.cons_append c q,
        scan_digits_then (d :: fd1) c _ hfd hc.1 hc.2.1]
      simp only
      rw [← List.cons_append, ← hx, scan_exp_tok ex w r he hw hr (by rw [hx]; simp)]
      simp

/-- The scanner passes over a whole number token and the whitespace behind it. -/
theorem scan_number_tok (a w r : List Char) (ha : NumTok a) (hw : AllSpace w)
    (hr : NumStop r) : scan_number (a ++ (w ++ r)) = (a ++ w, r) := by
  rcases ha with ⟨sg, ip, fd, ex, rfl, hsg, hip, hip0, hfd, he⟩
  cases hi : ip with
  | nil => exact absurd hi hip0
  | cons d ip1 =>
    have hd : isdigit d = true := hip d (by rw [hi]; simp)
    have hds : isspace d = false := isdigit_not_space d hd
    have hdm : d ≠ '-' := by
      intro h; rw [h] at hd; exact absurd hd (by decide)
    have h1 : scan_opt '-' '-' (sg ++ (ip ++ (F64.fracPart fd ++ ex)) ++ (w ++ r))
        = (sg, ip ++ (F64.fracPart fd ++ (ex ++ (w ++ r)))) := by
      rcases hsg with rfl | rfl
      · rw [hi]
        simp only [List.nil_append, List.cons_append, List.append_assoc]
        rw [scan_opt_cons _ _ _ _ hds]
        simp [hdm]
      · simp only [List.cons_append, List.nil_append, List.append_assoc]
        rw [scan_opt_cons _ _ _ _ (by decide)]
        simp
    rw [← hi]
    unfold scan_number
    simp only [h1]
    by_cases hne : F64.fracPart fd ++ ex = []
    · have hf0 : F64.fracPart fd = [] := (List.append_eq_nil.1 hne).1
      have he0 : ex = [] := (List.append_eq_nil.1 hne).2
      rw [hf0, he0]
      simp only [List.nil_append, List.append_nil]
      rw [scan_digits_end ip w r hip hw hr]
      simp only
      rw [scan_frac_numStop r hr]
      simp only
      rw [scan_exp_numStop r hr]
      simp
    · have hh : ∃ c q, F64.fracPart fd ++ (ex ++ (w ++ r)) = c :: q
          ∧ isspace c = false ∧ isdigit c = false := by
        cases fd with
        | nil =>
          rcases he with h0 | ⟨s, ed, h1, _⟩
          · rw [h0] at hne; simp [F64.fracPart] at hne
          · rw [h1]; exact ⟨'e', _, rfl, by decide, by decide⟩
        | cons d1 fd1 => exact ⟨'.', _, rfl, by decide, by decide⟩
      rcases hh with ⟨c, q, hcq, hc1, hc2⟩
      rw [hcq, scan_digits_then ip c q hip hc1 hc2, ← hcq]
      simp only
      have h2 := scan_frac_exp_tok fd ex w r hfd he hw hr hne
      rw [h2.2]
      simp only [List.append_assoc]
      rw [h2.1]

/-- A number token starts with `-` or a digit. -/
theorem numTok_head (a : List Char) (ha : NumTok a) :
    ∃ c q, a = c :: q ∧ (c = '-' ∨ isdigit c = true) := by
  rcases ha with ⟨sg, ip, fd, ex, rfl, hsg, hip, hip0, _, _⟩
  rcases hsg with rfl | rfl
  · cases ip with
    | nil => exact absurd rfl hip0
    | cons d ip1 => exact ⟨d, _, rfl, Or.inr (hip d (by simp))⟩
  · exact ⟨'-', _, rfl, Or.inl rfl⟩

/-! ## `stod` ignores whitespace behind the text -/

theorem takeWhile_append_none (p : Char → Bool) (s w : List Char)
    (hw : ∀ c ∈ w, p c = false) : (s ++ w).takeWhile p = s.takeWhile p := by
  induction s with
  | nil =>
    cases w with
    | nil => rfl
    | cons c w => simp [List.takeWhile_cons, hw c (List.mem_cons_self _ _)]
  | cons a s ih =>
    simp only [List.cons_append, List.takeWhile_cons]
    split
    · rw [ih]
    · rfl

theorem dropWhile_append_none (p : Char → Bool) (s w : List Char)
    (hw : ∀ c ∈ w, p c = false) : (s ++ w).dropWhile p = s.dropWhile p ++ w := by
  induction s with
  | nil =>
    cases w with
    | nil => rfl
    | cons c w => simp [List.dropWhile_cons, hw c (List.mem_cons_self _ _)]
  | cons a s ih =>
    simp only [List.cons_append, List.dropWhile_cons]
    split
    · rw [ih]
    · rfl

theorem space_char (c : Char) (h : isspace c = true) :
    isdigit c = false ∧ c ≠ '.' ∧ c ≠ 'e' ∧ c ≠ 'E' ∧ c ≠ '+' ∧ c ≠ '-' := by
  refine ⟨?_, ?_, ?_, ?_, ?_, ?_⟩
  · cases hd : isdigit c
    · rfl
    · rw [isdigit_not_space c hd] at h; cases h
  all_goals (intro e; rw [e] at h; exact absurd h (by decide))

theorem allSpace_not_digit (w : List Char) (hw : AllSpace w) : ∀ c ∈ w, isdigit c = false :=
  fun c hc => (space_char c (hw c hc)).1

namespace F64

theorem takeSign_append (u w : List Char) (hw : AllSpace w) :
    takeSign (u ++ w) = ((takeSign u).1, (takeSign u).2 ++ w) := by
  cases u with
  | nil =>
    cases w with
    | nil => rfl
    | cons c w =>
      have hc := space_char c (hw c (List.mem_cons_self _ _))
      simp [takeSign, hc.2.2.2.2.1, hc.2.2.2.2.2]
  | cons a u =>
    simp only [List.cons_append, takeSign]
    split
    · rfl
    · split <;> rfl

theorem takeExp_append (u w : List Char) (hw : AllSpace w) :
    takeExp (u ++ w) = takeExp u := by
  cases u with
  | nil =>
    cases w with
    | nil => rfl
    | cons c w =>
      have hc := space_char c (hw c (List.mem_cons_self _ _))
      simp [takeExp, hc.2.2.1, hc.2.2.2.1]
  | cons a u =>
    simp only [List.cons_append, takeExp]
    rw [takeSign_append u w hw]
    simp only
    rw [takeWhile_append_none isdigit _ w (allSpace_not_digit w hw)]

theorem stod_digits_append (sign : Bool) (u w : List Char) (hw : AllSpace w) :
    stod_digits sign (u ++ w) = stod_digits sign u := by
  have hnd := allSpace_not_digit w hw
  unfold stod_digits
  simp only [takeWhile_append_none isdigit u w hnd, dropWhile_append_none isdigit u w hnd]
  cases hr : List.dropWhile isdigit u with
  | nil =>
    cases w with
    | nil => rfl
    | cons c w1 =>
      have hc := space_char c (hw c (List.mem_cons_self _ _))
      simp only [List.nil_append, hc.2.1, if_false]
      rw [show c :: w1 = [] ++ (c :: w1) from rfl, takeExp_append [] (c :: w1) hw]
  | cons c r =>
    simp only [List.cons_append]
    by_cases hc : c = '.'
    · simp only [hc, if_true]
      rw [takeWhile_append_none isdigit r w hnd, dropWhile_append_none isdigit r w hnd,
        takeExp_append _ w hw]
    · simp only [hc, if_false]
      rw [← List.cons_append, takeExp_append _ w hw]

theorem dropWhile_space_append (s w : List Char) (hw : AllSpace w) :
    ∃ w1, AllSpace w1 ∧ (s ++ w).dropWhile isspace = s.dropWhile isspace ++ w1 := by
  induction s with
  | nil =>
    refine ⟨[], fun c hc => absurd hc (List.not_mem_nil c), ?_⟩
    simp only [List.nil_append, List.dropWhile_nil, List.dropWhile_eq_nil_iff]
    exact hw
  | cons a s ih =>
    simp only [List.cons_append, List.dropWhile_cons]
    split
    · exact ih
    · exact ⟨w, hw, rfl⟩

/-- `stod` ignores whitespace behind the text it is given. -/
theorem stod_append_space (s w : List Char) (hw : AllSpace w) :
    stod (s ++ w) = stod s := by
  rcases dropWhile_space_append s w hw with ⟨w1, hw1, h⟩
  unfold stod
  simp only [h, takeSign_append _ w1 hw1, stod_digits_append _ _ w1 hw1]

end F64

namespace F64

/-! ## The shape of the text written for a number -/

theorem isdigit_digitChar (d : Nat) : isdigit (digitChar d) = true := by
  unfold digitChar
  have h : d % 10 < 10 := Nat.mod_lt _ (by decide)
  generalize d % 10 = m at h
  interval_cases m <;> decide

theorem digits_decDigits (k n : Nat) : Digits (decDigits k n) := by
  induction k generalizing n with
  | zero => intro c hc; simp [decDigits] at hc
  | succ k ih =>
    intro c hc
    rw [decDigits] at hc
    rcases List.mem_append.1 hc with h | h
    · exact ih _ c h
    · rw [List.mem_singleton.1 h]; exact isdigit_digitChar n

theorem decDigits_ne_nil (k n : Nat) (hk : 0 < k) : decDigits k n ≠ [] := by
  cases k with
  | zero => exact absurd hk (Nat.lt_irrefl _)
  | succ k => rw [decDigits]; simp

theorem digits_stripZeros (ds : List Char) (h : Digits ds) : Digits (stripZeros ds) := by
  intro c hc
  unfold stripZeros at hc
  rw [List.mem_reverse] at hc
  exact h c (List.mem_reverse.1 ((List.dropWhile_sublist _).subset hc))

theorem expTok_sci (X : Int) :
    ExpTok ('e' :: (if X < 0 then '-' else '+')
      :: decDigits (max 2 (numDigits X.natAbs)) X.natAbs) := by
  refine Or.inr ⟨_, _, rfl, ?_, digits_decDigits _ _, decDigits_ne_nil _ _ ?_⟩
  · by_cases h : X < 0 <;> simp [h]
  · exact Nat.lt_of_lt_of_le (by decide) (Nat.le_max_left _ _)

theorem numTok_sciText (sg : List Char) (hsg : sg = [] ∨ sg = ['-']) (D : Nat) (X : Int) :
    NumTok (sg ++ sciText D X) := by
  refine ⟨sg, decDigits 1 (D / 10 ^ 14), stripZeros (decDigits 14 D), _, ?_, hsg,
    digits_decDigits _ _, decDigits_ne_nil _ _ (by decide),
    digits_stripZeros _ (digits_decDigits _ _), expTok_sci X⟩
  unfold sciText
  simp only [List.append_assoc]

theorem numTok_fixText (sg : List Char) (hsg : sg = [] ∨ sg = ['-']) (D : Nat) (X : Int) :
    NumTok (sg ++ fixText D X) := by
  unfold fixText
  split
  · exact ⟨sg, decDigits 1 0, stripZeros (decDigits (14 + X.natAbs) D), [], by simp, hsg,
      digits_decDigits _ _, decDigits_ne_nil _ _ (by decide),
      digits_stripZeros _ (digits_decDigits _ _), Or.inl rfl⟩
  · exact ⟨sg, decDigits (X.toNat + 1) (D / 10 ^ (14 - X.toNat)),
      stripZeros (decDigits (14 - X.toNat) D), [], by simp, hsg,
      digits_decDigits _ _, decDigits_ne_nil _ _ (Nat.succ_pos _),
      digits_stripZeros _ (digits_decDigits _ _), Or.inl rfl⟩

/-- The text written for a double is `nan`, `-nan`, `inf`, `-inf` or a number token. -/
theorem fmt15_shape (x : F64) :
    fmt15 x = "nan".toList ∨ fmt15 x = "-nan".toList ∨ fmt15 x = "inf".toList
      ∨ fmt15 x = "-inf".toList ∨ NumTok (fmt15 x) := by
  have hsg : (if x.neg = true then ['-'] else ([] : List Char)) = []
      ∨ (if x.neg = true then ['-'] else ([] : List Char)) = ['-'] := by
    cases x.neg <;> simp
  unfold fmt15
  simp only
  generalize (if x.neg = true then ['-'] else ([] : List Char)) = sg at hsg
  by_cases h1 : x.expo = 2047
  · simp only [h1, if_true]
    by_cases h2 : x.frac = 0
    · rcases hsg with rfl | rfl <;> simp [h2]
    · rcases hsg with rfl | rfl <;> simp [h2]
  · simp only [h1, if_false]
    refine Or.inr (Or.inr (Or.inr (Or.inr ?_)))
    by_cases h2 : x.mant = 0
    · simp only [h2, if_true]
      exact ⟨sg, ['0'], [], [], by simp [fracPart], hsg,
        by intro c hc; simp at hc; rw [hc]; decide,
        by simp, by intro c hc; simp at hc, Or.inl rfl⟩
    · simp only [h2, if_false]
      split
      · exact numTok_sciText _ hsg _ _
      · exact numTok_fixText _ hsg _ _

end F64

end minijson

/-! ## Parsing serialized text -/

namespace minijson

open Parser

theorem string_loop_esc (s : List Char) : ∀ (out r : List Char),
    string_loop .normal out (esc s ++ '"' :: r) = .ok (out ++ s.map reread_char, r) := by
  induction s with
  | nil => intro out r; simp [esc, string_loop]
  | cons c s ih =>
    intro out r
    have hfin : ∀ x : Char, x = reread_char c →
        string_loop .normal (out ++ [x]) (esc s ++ '"' :: r)
          = .ok (out ++ (c :: s).map reread_char, r) := by
      intro x hx
      rw [ih, hx]; simp
    rw [esc, esc_char]
    by_cases h1 : c = '"'
    · subst h1
      simp only [if_true, List.cons_append, List.nil_append]
      rw [string_loop, if_neg (by decide), if_pos rfl, string_loop]
      exact hfin _ (by decide)
    by_cases h2 : c = '\\'
    · subst h2
      simp only [if_neg h1, if_true, List.cons_append, List.nil_append]
      rw [string_loop, if_neg (by decide), if_pos rfl, string_loop]
      exact hfin _ (by decide)
    by_cases h3 : c = '\x08'
    · subst h3
      simp only [if_neg h1, if_neg h2, if_true, List.cons_append, List.nil_append]
      rw [string_loop, if_neg (by decide), if_pos rfl, string_loop]
      exact hfin _ (by decide)
    by_cases h4 : c = '\x0c'
    · subst h4
      simp only [if_neg h1, if_neg h2, if_neg h3, if_true, List.cons_append, List.nil_append]
      rw [string_loop, if_neg (by decide), if_pos rfl, string_loop]
      exact hfin _ (by decide)
    by_cases h5 : c = '\n'
    · subst h5
      simp only [if_neg h1, if_neg h2, if_neg h3, if_neg h4, if_true, List.cons_append,
        List.nil_append]
      rw [string_loop, if_neg (by decide), if_pos rfl, string_loop]
      exact hfin _ (by decide)
    by_cases h6 : c = '\r'
    · subst h6
      simp only [if_neg h1, if_neg h2, if_neg h3, if_neg h4, if_neg h5, if_true,
        List.cons_append, List.nil_append]
      rw [string_loop, if_neg (by decide), if_pos rfl, string_loop]
      exact hfin _ (by decide)
    by_cases h7 : c = '\t'
    · subst h7
      simp only [if_neg h1, if_neg h2, if_neg h3, if_neg h4, if_neg h5, if_neg h6, if_true,
        List.cons_append, List.nil_append]
      rw [string_loop, if_neg (by decide), if_pos rfl, string_loop]
      exact hfin _ (by decide)
    simp only [if_neg h1, if_neg h2, if_neg h3, if_neg h4, if_neg h5, if_neg h6, if_neg h7]
    by_cases h8 : c.toNat < 32
    · simp only [if_pos h8, List.cons_append, List.nil_append]
      rw [string_loop, if_neg (by decide), if_neg (by decide)]
      exact hfin _ (by simp [reread_char, h3, h4, h5, h6, h7, h8])
    · simp only [if_neg h8, List.cons_append, List.nil_append]
      rw [string_loop, if_neg h1, if_neg h2]
      exact hfin _ (by simp [reread_char, h3, h4, h5, h6, h7, h8])

/-! ### Unfolding the parser on a known first character -/

theorem ws_cons (c : Char) (q : List Char) (hc : isspace c = false) : ws (c :: q) = c :: q := by
  simp [ws, List.dropWhile_cons, hc]

theorem peek_cons (c : Char) (q : List Char) (hc : isspace c = false) :
    peek (c :: q) = (c, c :: q) := by
  unfold peek; rw [ws_cons c q hc]

theorem ws_ws (t : List Char) : ws (ws t) = ws t := by
  unfold ws
  induction t with
  | nil => rfl
  | cons c t ih =>
    rw [List.dropWhile_cons]
    split
    · exact ih
    · rename_i h
      rw [List.dropWhile_cons, if_neg h]

theorem parse_value_ws (n : Nat) (t : List Char) : parse_value n (ws t) = parse_value n t := by
  cases n with
  | zero => rfl
  | succ n => rw [parse_value, parse_value, ws_ws]

theorem parse_value_space (n : Nat) (w t : List Char) (hw : AllSpace w) :
    parse_value n (w ++ t) = parse_value n t := by
  rw [← parse_value_ws n (w ++ t), ws_allSpace_append w t hw, parse_value_ws]

theorem array_loop_ws (pv : List Char → Res (Value × List Char))
    (hpv : ∀ t, pv (ws t) = pv t) (k : Nat) (arr : List Value) (t : List Char) :
    array_loop pv k arr (ws t) = array_loop pv k arr t := by
  cases k with
  | zero => rfl
  | succ k => rw [array_loop, array_loop, hpv]

theorem parse_string_ws (t : List Char) : parse_string (ws t) = parse_string t := by
  unfold parse_string; rw [ws_ws]

theorem object_loop_ws (pv : List Char → Res (Value × List Char))
    (k : Nat) (obj : Map) (t : List Char) :
    object_loop pv k obj (ws t) = object_loop pv k obj t := by
  cases k with
  | zero => rfl
  | succ k => rw [object_loop, object_loop, parse_string_ws]

theorem parse_value_head (n : Nat) (c : Char) (q : List Char) (hc : isspace c = false) :
    parse_value (n + 1) (c :: q) =
      if c = '"' then
        match parse_string (c :: q) with
        | .ok (s, r) => .ok (Value.string s, r)
        | .error e => .error e
        | .fuel => .fuel
      else if c = '{' then parse_object (parse_value n) (c :: q)
      else if c = '[' then parse_array (parse_value n) (c :: q)
      else if c = 't' then
        match consume "true" (c :: q) with
        | .ok r => .ok (Value.boolean true, r)
        | .error e => .error e
        | .fuel => .fuel
      else if c = 'f' then
        match consume "false" (c :: q) with
        | .ok r => .ok (Value.boolean false, r)
        | .error e => .error e
        | .fuel => .fuel
      else if c = 'n' then
        match consume "null" (c :: q) with
        | .ok r => .ok (Value.nullv, r)
        | .error e => .error e
        | .fuel => .fuel
      else if c = '-' ∨ isdigit c then
        match parse_number (c :: q) with
        | .ok (x, r) => .ok (Value.number x, r)
        | .error e => .error e
        | .fuel => .fuel
      else .error "invalid json value" := by
  rw [parse_value, ws_cons c q hc, peek_cons c q hc]
  all_goals rfl

theorem parse_array_cons (pv : List Char → Res (Value × List Char)) (q : List Char) :
    parse_array pv ('[' :: q) =
      if (peek (ws q)).1 = ']' then .ok (Value.array [], (Parser.get (peek (ws q)).2).2)
      else array_loop pv ((peek (ws q)).2.length + 1) [] (peek (ws q)).2 := by
  unfold parse_array
  rw [expect_eq, ws_cons _ _ (by decide)]
  simp [Parser.get]

theorem parse_object_cons (pv : List Char → Res (Value × List Char)) (q : List Char) :
    parse_object pv ('{' :: q) =
      if (peek (ws q)).1 = '}' then .ok (Value.object [], (Parser.get (peek (ws q)).2).2)
      else object_loop pv ((peek (ws q)).2.length + 1) [] (peek (ws q)).2 := by
  unfold parse_object
  rw [expect_eq, ws_cons _ _ (by decide)]
  simp [Parser.get]

/-! ### Leaves -/

theorem reads_ok (v : Value) (w r : List Char) (hw : AllSpace w) (hr : NumStop r) :
    Reads (.ok (v, w ++ r)) (.ok v) r :=
  ⟨w ++ r, rfl, by rw [ws_allSpace_append w r hw, ws_numStop r hr]⟩

theorem consume_loop_self (lit : String) (ps t : List Char) :
    consume_loop lit ps (ps ++ t) = .ok t := by
  induction ps with
  | nil => rfl
  | cons p ps ih =>
    rw [List.cons_append, consume_loop]
    simp only [Parser.get, ne_eq, not_true_eq_false, if_false]
    exact ih

theorem parse_value_null (n : Nat) (t : List Char) :
    parse_value (n + 1) ("null".toList ++ t) = .ok (Value.nullv, t) := by
  have h : consume "null" ("null".toList ++ t) = .ok t := by
    unfold consume
    rw [show ws ("null".toList ++ t) = "null".toList ++ t from ws_cons _ _ (by decide)]
    exact consume_loop_self _ _ _
  rw [show "null".toList ++ t = 'n' :: ("ull".toList ++ t) from rfl] at h ⊢
  rw [parse_value_head _ _ _ (by decide), if_neg (by decide), if_neg (by decide),
    if_neg (by decide), if_neg (by decide), if_neg (by decide), if_pos rfl, h]

theorem parse_value_true (n : Nat) (t : List Char) :
    parse_value (n + 1) ("true".toList ++ t) = .ok (Value.boolean true, t) := by
  have h : consume "true" ("true".toList ++ t) = .ok t := by
    unfold consume
    rw [show ws ("true".toList ++ t) = "true".toList ++ t from ws_cons _ _ (by decide)]
    exact consume_loop_self _ _ _
  rw [show "true".toList ++ t = 't' :: ("rue".toList ++ t) from rfl] at h ⊢
  rw [parse_value_head _ _ _ (by decide), if_neg (by decide), if_neg (by decide),
    if_neg (by decide), if_pos rfl, h]

theorem parse_value_false (n : Nat) (t : List Char) :
    parse_value (n + 1) ("false".toList ++ t) = .ok (Value.boolean false, t) := by
  have h : consume "false" ("false".toList ++ t) = .ok t := by
    unfold consume
    rw [show ws ("false".toList ++ t) = "false".toList ++ t from ws_cons _ _ (by decide)]
    exact consume_loop_self _ _ _
  rw [show "false".toList ++ t = 'f' :: ("alse".toList ++ t) from rfl] at h ⊢
  rw [parse_value_head _ _ _ (by decide), if_neg (by decide), if_neg (by decide),
    if_neg (by decide), if_neg (by decide), if_pos rfl, h]

theorem parse_value_string (n : Nat) (s t : List Char) :
    parse_value (n + 1) ('"' :: (esc s ++ '"' :: t))
      = .ok (Value.string (s.map reread_char), t) := by
  have h : parse_string ('"' :: (esc s ++ '"' :: t)) = .ok (s.map reread_char, t) := by
    unfold parse_string
    rw [ws_cons _ _ (by decide)]
    simp only [Parser.get, ne_eq, not_true_eq_false, if_false]
    rw [string_loop_esc]; rfl
  rw [parse_value_head _ _ _ (by decide), if_pos rfl, h]

/-! ### Numbers -/

theorem parse_number_tok (a w r : List Char) (ha : NumTok a) (hw : AllSpace w)
    (hr : NumStop r) :
    parse_number (a ++ (w ++ r)) =
      match F64.stod a with
      | none => .error "bad number"
      | some x => .ok (x, r) := by
  rcases numTok_head a ha with ⟨c, q, hcq, hc⟩
  have hsp : isspace c = false := by
    rcases hc with rfl | hc
    · decide
    · exact isdigit_not_space c hc
  unfold parse_number
  have hws : ws (a ++ (w ++ r)) = a ++ (w ++ r) := by
    rw [hcq, List.cons_append]; exact ws_cons _ _ hsp
  simp only [hws, scan_number_tok a w r ha hw hr, F64.stod_append_space a w hw]
  all_goals (cases F64.stod a <;> rfl)

theorem parse_value_tok (n : Nat) (a w r : List Char) (ha : NumTok a) (hw : AllSpace w)
    (hr : NumStop r) :
    parse_value (n + 1) (a ++ (w ++ r)) =
      match F64.stod a with
      | none => .error "bad number"
      | some x => .ok (Value.number x, r) := by
  rcases numTok_head a ha with ⟨c, q, hcq, hc⟩
  have hsp : isspace c = false := by
    rcases hc with rfl | hc
    · decide
    · exact isdigit_not_space c hc
  have hd : c = '-' ∨ isdigit c = true := hc
  have h1 : c ≠ '"' ∧ c ≠ '{' ∧ c ≠ '[' ∧ c ≠ 't' ∧ c ≠ 'f' ∧ c ≠ 'n' := by
    rcases hc with rfl | hc
    · decide
    · refine ⟨?_, ?_, ?_, ?_, ?_, ?_⟩ <;>
        (intro e; rw [e] at hc; exact absurd hc (by decide))
  have hp := parse_number_tok a w r ha hw hr
  rw [hcq, List.cons_append] at hp ⊢
  rw [parse_value_head _ _ _ hsp, if_neg h1.1, if_neg h1.2.1, if_neg h1.2.2.1,
    if_neg h1.2.2.2.1, if_neg h1.2.2.2.2.1, if_neg h1.2.2.2.2.2, if_pos hd, hp]
  cases F64.stod (c :: q) <;> rfl

theorem parse_tok (a : List Char) (ha : NumTok a) :
    parse a =
      match F64.stod a with
      | none => .error "bad number"
      | some x => .ok (Value.number x) := by
  have h := parse_value_tok a.length a [] [] ha (fun c hc => absurd hc (List.not_mem_nil c))
    (fun c hc => by simp at hc)
  simp only [List.append_nil] at h
  unfold parse
  rw [h]
  cases F64.stod a <;> simp [ws]

/-- A Number leaf in serialized text is read like its text alone. -/
theorem reads_number (n : Nat) (x : F64) (w r : List Char) (hw : AllSpace w)
    (hr : NumStop r) :
    Reads (parse_value (n + 1) (F64.fmt15 x ++ (w ++ r))) (parse (F64.fmt15 x)) r := by
  rcases F64.fmt15_shape x with h | h | h | h | h
  · rw [h]
    have e1 : parse "nan".toList = .error "expected literal: null" := by rfl
    have e2 : parse_value (n + 1) ("nan".toList ++ (w ++ r))
        = .error "expected literal: null" := by
      show parse_value (n + 1) ('n' :: ('a' :: 'n' :: (w ++ r))) = _
      rw [parse_value_head _ _ _ (by decide), if_neg (by decide), if_neg (by decide),
        if_neg (by decide), if_neg (by decide), if_neg (by decide), if_pos rfl]
      rfl
    rw [e1, e2]; exact rfl
  · rw [h]
    have e1 : parse "-nan".toList = .error "bad number" := by rfl
    have e2 : parse_value (n + 1) ("-nan".toList ++ (w ++ r)) = .error "bad number" := by
      show parse_value (n + 1) ('-' :: ('n' :: 'a' :: 'n' :: (w ++ r))) = _
      rw [parse_value_head _ _ _ (by decide), if_neg (by decide), if_neg (by decide),
        if_neg (by decide), if_neg (by decide), if_neg (by decide), if_neg (by decide),
        if_pos (Or.inl rfl)]
      rfl
    rw [e1, e2]; exact rfl
  · rw [h]
    have e1 : parse "inf".toList = .error "invalid json value" := by rfl
    have e2 : parse_value (n + 1) ("inf".toList ++ (w ++ r)) = .error "invalid json value" := by
      show parse_value (n + 1) ('i' :: ('n' :: 'f' :: (w ++ r))) = _
      rw [parse_value_head _ _ _ (by decide), if_neg (by decide), if_neg (by decide),
        if_neg (by decide), if_neg (by decide), if_neg (by decide), if_neg (by decide),
        if_neg (by decide)]
    rw [e1, e2]; exact rfl
  · rw [h]
    have e1 : parse "-inf".toList = .error "bad number" := by rfl
    have e2 : parse_value (n + 1) ("-inf".toList ++ (w ++ r)) = .error "bad number" := by
      show parse_value (n + 1) ('-' :: ('i' :: 'n' :: 'f' :: (w ++ r))) = _
      rw [parse_value_head _ _ _ (by decide), if_neg (by decide), if_neg (by decide),
        if_neg (by decide), if_neg (by decide), if_neg (by decide), if_neg (by decide),
        if_pos (Or.inl rfl)]
      rfl
    rw [e1, e2]; exact rfl
  · rw [parse_value_tok n _ w r h hw hr, parse_tok _ h]
    cases F64.stod (F64.fmt15 x) with
    | none => exact rfl
    | some y => exact ⟨r, rfl, ws_numStop r hr⟩

/-! ### Containers -/

theorem allSpace_nil : AllSpace [] := fun c hc => absurd hc (List.not_mem_nil c)

theorem allSpace_append (a b : List Char) (ha : AllSpace a) (hb : AllSpace b) :
    AllSpace (a ++ b) := by
  intro c hc
  rcases List.mem_append.1 hc with h | h
  · exact ha c h
  · exact hb c h

theorem allSpace_ifp (pretty : Bool) (s : List Char) (hs : AllSpace s) :
    AllSpace (ifp pretty s) := by
  cases pretty
  · exact allSpace_nil
  · exact hs

theorem allSpace_indent (n : Int) : AllSpace (indent n) := by
  intro c hc
  rw [List.eq_of_mem_replicate hc]; decide

theorem allSpace_newline : AllSpace ['\n'] := by
  intro c hc; rw [List.mem_singleton.1 hc]; decide

theorem allSpace_blank : AllSpace [' '] := by
  intro c hc; rw [List.mem_singleton.1 hc]; decide

theorem numStop_cons (c : Char) (q : List Char) (h : c = ',' ∨ c = ']' ∨ c = '}') :
    NumStop (c :: q) := by
  intro d hd
  simp only [List.head?_cons, Option.mem_def, Option.some.injEq] at hd
  rw [← hd]; exact h

/-- The serialized form of a Value starts with a character that is not
whitespace and closes no container. -/
theorem stringify_head (v : Value) (pretty : Bool) (lvl : Int) :
    ∃ c q, stringify v pretty lvl = c :: q ∧ isspace c = false ∧ c ≠ ']' ∧ c ≠ '}' := by
  cases v with
  | nullv => exact ⟨'n', _, rfl, by decide, by decide, by decide⟩
  | boolean b =>
    cases b
    · exact ⟨'f', _, rfl, by decide, by decide, by decide⟩
    · exact ⟨'t', _, rfl, by decide, by decide, by decide⟩
  | number x =>
    rw [stringify]
    rcases F64.fmt15_shape x with h | h | h | h | h
    · rw [h]; exact ⟨'n', _, rfl, by decide, by decide, by decide⟩
    · rw [h]; exact ⟨'-', _, rfl, by decide, by decide, by decide⟩
    · rw [h]; exact ⟨'i', _, rfl, by decide, by decide, by decide⟩
    · rw [h]; exact ⟨'-', _, rfl, by decide, by decide, by decide⟩
    · rcases numTok_head _ h with ⟨c, q, hcq, hc⟩
      refine ⟨c, q, hcq, ?_, ?_, ?_⟩
      · rcases hc with rfl | hc
        · decide
        · exact isdigit_not_space c hc
      · rcases hc with rfl | hc
        · decide
        · intro e; rw [e] at hc; exact absurd hc (by decide)
      · rcases hc with rfl | hc
        · decide
        · intro e; rw [e] at hc; exact absurd hc (by decide)
  | string s => exact ⟨'"', _, by rw [stringify], by decide, by decide, by decide⟩
  | array xs =>
    cases xs with
    | nil => exact ⟨'[', _, by rw [stringify], by decide, by decide, by decide⟩
    | cons x xs => exact ⟨'[', _, by rw [stringify], by decide, by decide, by decide⟩
  | object m =>
    cases m with
    | nil => exact ⟨'{', _, by rw [stringify], by decide, by decide, by decide⟩
    | cons x xs => exact ⟨'{', _, by rw [stringify], by decide, by decide, by decide⟩

theorem array_loop_succ (pv : List Char → Res (Value × List Char)) (k : Nat)
    (arr : List Value) (t : List Char) :
    array_loop pv (k + 1) arr t =
      match pv t with
      | .error e => .error e
      | .fuel => .fuel
      | .ok (v, t1) =>
        if (Parser.get (ws t1)).1 = ']' then
          .ok (Value.array (arr ++ [v]), (Parser.get (ws t1)).2)
        else if (Parser.get (ws t1)).1 ≠ ',' then .error "expected , or ]"
        else array_loop pv k (arr ++ [v]) (Parser.get (ws t1)).2 := by
  rw [array_loop]
  all_goals rfl

theorem object_loop_succ (pv : List Char → Res (Value × List Char)) (k : Nat)
    (obj : Map) (t : List Char) :
    object_loop pv (k + 1) obj t =
      match parse_string t with
      | .error e => .error e
      | .fuel => .fuel
      | .ok (key, t1) =>
        match expect ':' (ws t1) with
        | .error e => .error e
        | .fuel => .fuel
        | .ok t2 =>
          match pv t2 with
          | .error e => .error e
          | .fuel => .fuel
          | .ok (val, t3) =>
            if (Parser.get (ws t3)).1 = '}' then
              .ok (Value.object (Map.emplace key val obj), (Parser.get (ws t3)).2)
            else if (Parser.get (ws t3)).1 ≠ ',' then .error "expected , or \x7d"
            else object_loop pv k (Map.emplace key val obj) (Parser.get (ws t3)).2 := by
  rw [object_loop]
  all_goals rfl

/-- One round of the array loop, given what `pv` does on the element. -/
theorem array_loop_step_last (pv : List Char → Res (Value × List Char)) (k : Nat)
    (arr : List Value) (t q rest : List Char) (y : Value)
    (h1 : pv t = .ok (y, q)) (h2 : ws q = ']' :: rest) :
    array_loop pv (k + 1) arr t = .ok (Value.array (arr ++ [y]), rest) := by
  rw [array_loop_succ, h1]
  simp only [h2, Parser.get, if_true]

theorem array_loop_step_more (pv : List Char → Res (Value × List Char)) (k : Nat)
    (arr : List Value) (t q rest : List Char) (y : Value)
    (h1 : pv t = .ok (y, q)) (h2 : ws q = ',' :: rest) :
    array_loop pv (k + 1) arr t = array_loop pv k (arr ++ [y]) rest := by
  rw [array_loop_succ, h1]
  simp only [h2, Parser.get]
  rw [if_neg (by decide), if_neg (by simp)]

theorem array_loop_step_error (pv : List Char → Res (Value × List Char)) (k : Nat)
    (arr : List Value) (t : List Char) (e : String) (h1 : pv t = .error e) :
    array_loop pv (k + 1) arr t = .error e := by
  rw [array_loop_succ, h1]

theorem array_loop_step_fuel (pv : List Char → Res (Value × List Char)) (k : Nat)
    (arr : List Value) (t : List Char) (h1 : pv t = .fuel) :
    array_loop pv (k + 1) arr t = .fuel := by
  rw [array_loop_succ, h1]

theorem stringify_array_cons (x : Value) (xs : List Value) (pretty : Bool) (lvl : Int)
    (t : List Char) :
    stringify (Value.array (x :: xs)) pretty lvl ++ t
      = '[' :: (ifp pretty ['\n'] ++ (stringify_elems (x :: xs) pretty lvl
          ++ (ifp pretty (indent lvl) ++ ']' :: t))) := by
  rw [stringify]; simp

theorem stringify_object_cons (kx : List Char × Value) (m : List (List Char × Value))
    (pretty : Bool) (lvl : Int) (t : List Char) :
    stringify (Value.object (kx :: m)) pretty lvl ++ t
      = '{' :: (ifp pretty ['\n'] ++ (stringify_members (kx :: m) pretty lvl
          ++ (ifp pretty (indent lvl) ++ '}' :: t))) := by
  rw [stringify]; simp

theorem stringify_elems_cons (x : Value) (xs : List Value) (pretty : Bool) (lvl : Int)
    (t : List Char) :
    stringify_elems (x :: xs) pretty lvl ++ t
      = ifp pretty (indent (lvl + 2)) ++ (stringify x pretty (lvl + 2)
          ++ ((if xs.isEmpty then [] else [',']) ++ (ifp pretty ['\n']
          ++ (stringify_elems xs pretty lvl ++ t)))) := by
  rw [stringify_elems]; simp

theorem stringify_members_cons (k : List Char) (x : Value) (m : List (List Char × Value))
    (pretty : Bool) (lvl : Int) (t : List Char) :
    stringify_members ((k, x) :: m) pretty lvl ++ t
      = ifp pretty (indent (lvl + 2)) ++ ('"' :: (esc k ++ ('"' :: ':' :: (ifp pretty [' ']
          ++ (stringify x pretty (lvl + 2)
          ++ ((if m.isEmpty then [] else [',']) ++ (ifp pretty ['\n']
          ++ (stringify_members m pretty lvl ++ t)))))))) := by
  rw [stringify_members]; simp

theorem elems_head (x : Value) (xs : List Value) (pretty : Bool) (lvl : Int) (t : List Char) :
    ∃ c q, ws (stringify_elems (x :: xs) pretty lvl ++ t) = c :: q ∧ isspace c = false
      ∧ c ≠ ']' := by
  rcases stringify_head x pretty (lvl + 2) with ⟨c, q, h, h1, h2, _⟩
  have e : ws (stringify_elems (x :: xs) pretty lvl ++ t)
      = c :: (q ++ ((if xs.isEmpty then [] else [',']) ++ (ifp pretty ['\n']
          ++ (stringify_elems xs pretty lvl ++ t)))) := by
    rw [stringify_elems_cons, ws_allSpace_append _ _ (allSpace_ifp _ _ (allSpace_indent _)), h,
      List.cons_append, ws_cons _ _ h1]
  exact ⟨c, _, e, h1, h2⟩

theorem members_head (kx : List Char × Value) (m : List (List Char × Value)) (pretty : Bool)
    (lvl : Int) (t : List Char) :
    ∃ q, ws (stringify_members (kx :: m) pretty lvl ++ t) = '"' :: q := by
  rcases kx with ⟨k, x⟩
  have e : ws (stringify_members ((k, x) :: m) pretty lvl ++ t)
      = '"' :: (esc k ++ ('"' :: ':' :: (ifp pretty [' ']
          ++ (stringify x pretty (lvl + 2)
          ++ ((if m.isEmpty then [] else [',']) ++ (ifp pretty ['\n']
          ++ (stringify_members m pretty lvl ++ t))))))) := by
    rw [stringify_members_cons, ws_allSpace_append _ _ (allSpace_ifp _ _ (allSpace_indent _)),
      ws_cons _ _ (by decide)]
  exact ⟨_, e⟩

theorem parse_string_esc (s t : List Char) :
    parse_string ('"' :: (esc s ++ '"' :: t)) = .ok (s.map reread_char, t) := by
  unfold parse_string
  rw [ws_cons _ _ (by decide)]
  simp only [Parser.get, ne_eq, not_true_eq_false, if_false]
  rw [string_loop_esc]; rfl

theorem object_loop_step_last (pv : List Char → Res (Value × List Char)) (k : Nat)
    (obj : Map) (t t1 t2 q rest key : List Char) (val : Value)
    (h0 : parse_string t = .ok (key, t1)) (h1 : expect ':' (ws t1) = .ok t2)
    (h2 : pv t2 = .ok (val, q)) (h3 : ws q = '}' :: rest) :
    object_loop pv (k + 1) obj t = .ok (Value.object (Map.emplace key val obj), rest) := by
  rw [object_loop_succ, h0]
  simp only [h1, h2, h3, Parser.get, if_true]

theorem object_loop_step_more (pv : List Char → Res (Value × List Char)) (k : Nat)
    (obj : Map) (t t1 t2 q rest key : List Char) (val : Value)
    (h0 : parse_string t = .ok (key, t1)) (h1 : expect ':' (ws t1) = .ok t2)
    (h2 : pv t2 = .ok (val, q)) (h3 : ws q = ',' :: rest) :
    object_loop pv (k + 1) obj t = object_loop pv k (Map.emplace key val obj) rest := by
  rw [object_loop_succ, h0]
  simp only [h1, h2, h3, Parser.get]
  rw [if_neg (by decide), if_neg (by simp)]

theorem object_loop_step_error (pv : List Char → Res (Value × List Char)) (k : Nat)
    (obj : Map) (t t1 t2 key : List Char) (e : String)
    (h0 : parse_string t = .ok (key, t1)) (h1 : expect ':' (ws t1) = .ok t2)
    (h2 : pv t2 = .error e) :
    object_loop pv (k + 1) obj t = .error e := by
  rw [object_loop_succ, h0]
  simp only [h1, h2]

theorem object_loop_step_fuel (pv : List Char → Res (Value × List Char)) (k : Nat)
    (obj : Map) (t t1 t2 key : List Char)
    (h0 : parse_string t = .ok (key, t1)) (h1 : expect ':' (ws t1) = .ok t2)
    (h2 : pv t2 = .fuel) :
    object_loop pv (k + 1) obj t = .fuel := by
  rw [object_loop_succ, h0]
  simp only [h1, h2]

mutual

theorem reads_value : (v : Value) → (pretty : Bool) → (n : Nat) → (lvl : Int) →
    (w r : List Char) → AllSpace w → NumStop r →
    parse_value n (stringify v pretty lvl ++ (w ++ r)) ≠ .fuel →
    Reads (parse_value n (stringify v pretty lvl ++ (w ++ r))) (reparse v) r
  | _, _, 0, _, _, _, _, _, hf => absurd rfl hf
  | Value.nullv, pretty, n + 1, lvl, w, r, hw, hr, _ => by
    rw [stringify, parse_value_null, reparse]; exact reads_ok _ w r hw hr
  | Value.boolean b, pretty, n + 1, lvl, w, r, hw, hr, _ => by
    cases b
    · rw [stringify, if_neg (by decide), parse_value_false, reparse]
      exact reads_ok _ w r hw hr
    · rw [stringify, if_pos rfl, parse_value_true, reparse]
      exact reads_ok _ w r hw hr
  | Value.number x, pretty, n + 1, lvl, w, r, hw, hr, _ => by
    rw [stringify, reparse]; exact reads_number n x w r hw hr
  | Value.string s, pretty, n + 1, lvl, w, r, hw, hr, _ => by
    rw [stringify, reparse]
    simp only [List.cons_append, List.append_assoc, List.singleton_append]
    rw [parse_value_string]
    exact reads_ok _ w r hw hr
  | Value.array [], pretty, n + 1, lvl, w, r, hw, hr, _ => by
    rw [stringify, reparse, reparse_elems]
    simp only [List.cons_append, List.nil_append]
    rw [parse_value_head _ _ _ (by decide), if_neg (by decide), if_neg (by decide),
      if_pos rfl, parse_array_cons, ws_cons _ _ (by decide), peek_cons _ _ (by decide)]
    simp only [Parser.get, if_true]
    exact reads_ok _ w r hw hr
  | Value.array (x :: xs), pretty, n + 1, lvl, w, r, hw, hr, hf => by
    rcases elems_head x xs pretty lvl (ifp pretty (indent lvl) ++ ']' :: (w ++ r))
      with ⟨c, q, hcq, hc1, hc2⟩
    have hws : ws (ifp pretty ['\n'] ++ (stringify_elems (x :: xs) pretty lvl
        ++ (ifp pretty (indent lvl) ++ ']' :: (w ++ r)))) = c :: q := by
      rw [ws_allSpace_append _ _ (allSpace_ifp _ _ allSpace_newline), hcq]
    have hpv : parse_value (n + 1) (stringify (Value.array (x :: xs)) pretty lvl ++ (w ++ r))
        = array_loop (parse_value n) ((c :: q).length + 1) []
            (stringify_elems (x :: xs) pretty lvl
              ++ (ifp pretty (indent lvl) ++ ']' :: (w ++ r))) := by
      rw [stringify_array_cons, parse_value_head _ _ _ (by decide), if_neg (by decide),
        if_neg (by decide), if_pos rfl, parse_array_cons, hws, peek_cons _ _ hc1]
      simp only
      rw [if_neg hc2, ← hcq, array_loop_ws _ (parse_value_ws n)]
    rw [hpv] at hf ⊢
    have h := reads_elems (x :: xs) pretty n lvl _ [] w r (List.cons_ne_nil _ _) hw hr hf
    unfold ReadsElems at h
    rw [reparse]
    cases hre : reparse_elems (x :: xs) with
    | ok ys =>
      rw [hre] at h
      simp only [List.nil_append] at h
      rw [h]; exact reads_ok _ w r hw hr
    | error e => rw [hre] at h; rw [h]; exact rfl
    | fuel => rw [hre] at h; exact False.elim h
  | Value.object [], pretty, n + 1, lvl, w, r, hw, hr, _ => by
    rw [stringify, reparse, reparse_members]
    simp only [List.cons_append, List.nil_append]
    rw [parse_value_head _ _ _ (by decide), if_neg (by decide), if_pos rfl,
      parse_object_cons, ws_cons _ _ (by decide), peek_cons _ _ (by decide)]
    simp only [Parser.get, if_true]
    exact reads_ok _ w r hw hr
  | Value.object (kx :: m), pretty, n + 1, lvl, w, r, hw, hr, hf => by
    rcases members_head kx m pretty lvl (ifp pretty (indent lvl) ++ '}' :: (w ++ r))
      with ⟨q, hcq⟩
    have hws : ws (ifp pretty ['\n'] ++ (stringify_members (kx :: m) pretty lvl
        ++ (ifp pretty (indent lvl) ++ '}' :: (w ++ r)))) = '"' :: q := by
      rw [ws_allSpace_append _ _ (allSpace_ifp _ _ allSpace_newline), hcq]
    have hpv : parse_value (n + 1) (stringify (Value.object (kx :: m)) pretty lvl ++ (w ++ r))
        = object_loop (parse_value n) (('"' :: q).length + 1) []
            (stringify_members (kx :: m) pretty lvl
              ++ (ifp pretty (indent lvl) ++ '}' :: (w ++ r))) := by
      rw [stringify_object_cons, parse_value_head _ _ _ (by decide), if_neg (by decide),
        if_pos rfl, parse_object_cons, hws, peek_cons _ _ (by decide)]
      simp only
      rw [if_neg (by decide), ← hcq, object_loop_ws]
    rw [hpv] at hf ⊢
    have h := reads_members (kx :: m) pretty n lvl _ [] w r (List.cons_ne_nil _ _) hw hr hf
    unfold ReadsMembers at h
    rw [reparse]
    cases hre : reparse_members (kx :: m) [] with
    | ok ys =>
      rw [hre] at h
      rw [h]; exact reads_ok _ w r hw hr
    | error e => rw [hre] at h; rw [h]; exact rfl
    | fuel => rw [hre] at h; exact False.elim h

theorem reads_elems : (xs : List Value) → (pretty : Bool) → (n : Nat) → (lvl : Int) →
    (k : Nat) → (arr : List Value) → (w r : List Char) → xs ≠ [] → AllSpace w → NumStop r →
    array_loop (parse_value n) k arr
      (stringify_elems xs pretty lvl ++ (ifp pretty (indent lvl) ++ ']' :: (w ++ r))) ≠ .fuel →
    ReadsElems (array_loop (parse_value n) k arr
      (stringify_elems xs pretty lvl ++ (ifp pretty (indent lvl) ++ ']' :: (w ++ r))))
      arr xs (w ++ r)
  | _, _, _, _, 0, _, _, _, _, _, _, hf => absurd rfl hf
  | [], _, _, _, _ + 1, _, _, _, hne, _, _, _ => absurd rfl hne
  | x :: xs, pretty, n, lvl, k + 1, arr, w, r, _, hw, hr, hf => by
    rw [stringify_elems_cons] at hf ⊢
    have hsp := parse_value_space n (ifp pretty (indent (lvl + 2)))
      (stringify x pretty (lvl + 2) ++ ((if xs.isEmpty then [] else [',']) ++ (ifp pretty ['\n']
          ++ (stringify_elems xs pretty lvl ++ (ifp pretty (indent lvl) ++ ']' :: (w ++ r))))))
      (allSpace_ifp _ _ (allSpace_indent _))
    unfold ReadsElems
    rw [reparse_elems]
    by_cases hxs : xs = []
    · subst hxs
      have htxt : stringify x pretty (lvl + 2) ++ ((if ([] : List Value).isEmpty then []
            else [',']) ++ (ifp pretty ['\n'] ++ (stringify_elems [] pretty lvl
              ++ (ifp pretty (indent lvl) ++ ']' :: (w ++ r)))))
          = stringify x pretty (lvl + 2) ++ ((ifp pretty ['\n'] ++ ifp pretty (indent lvl))
              ++ (']' :: (w ++ r))) := by
        rw [stringify_elems]; simp
      rw [htxt] at hsp hf ⊢
      have hfx : parse_value n (stringify x pretty (lvl + 2)
          ++ ((ifp pretty ['\n'] ++ ifp pretty (indent lvl)) ++ (']' :: (w ++ r)))) ≠ .fuel := by
        intro hc
        exact hf (array_loop_step_fuel _ _ _ _ (hsp.trans hc))
      have hx := reads_value x pretty n (lvl + 2) _ _
        (allSpace_append _ _ (allSpace_ifp _ _ allSpace_newline)
          (allSpace_ifp _ _ (allSpace_indent _)))
        (numStop_cons ']' (w ++ r) (Or.inr (Or.inl rfl))) hfx
      unfold Reads at hx
      cases hrx : reparse x with
      | ok y =>
        rw [hrx] at hx
        rcases hx with ⟨q, hq1, hq2⟩
        rw [array_loop_step_last _ _ _ _ _ _ _ (hsp.trans hq1) hq2, reparse_elems]
      | error e =>
        rw [hrx] at hx
        rw [array_loop_step_error _ _ _ _ _ (hsp.trans hx)]
      | fuel => rw [hrx] at hx; exact False.elim hx
    · have hemp : xs.isEmpty = false := by
        cases xs with
        | nil => exact absurd rfl hxs
        | cons _ _ => rfl
      simp only [hemp, Bool.false_eq_true, if_false] at hf hsp ⊢
      have hfx : parse_value n (stringify x pretty (lvl + 2)
          ++ ([] ++ (',' :: (ifp pretty ['\n'] ++ (stringify_elems xs pretty lvl
            ++ (ifp pretty (indent lvl) ++ ']' :: (w ++ r))))))) ≠ .fuel := by
        intro hc
        exact hf (array_loop_step_fuel _ _ _ _ (hsp.trans hc))
      have hx := reads_value x pretty n (lvl + 2) _ _ allSpace_nil
        (numStop_cons ',' _ (Or.inl rfl)) hfx
      unfold Reads at hx
      cases hrx : reparse x with
      | ok y =>
        rw [hrx] at hx
        rcases hx with ⟨q, hq1, hq2⟩
        have hstep := array_loop_step_more (parse_value n) k arr _ _ _ _ (hsp.trans hq1) hq2
        have hspace : array_loop (parse_value n) k (arr ++ [y])
            (ifp pretty ['\n'] ++ (stringify_elems xs pretty lvl
              ++ (ifp pretty (indent lvl) ++ ']' :: (w ++ r))))
            = array_loop (parse_value n) k (arr ++ [y]) (stringify_elems xs pretty lvl
              ++ (ifp pretty (indent lvl) ++ ']' :: (w ++ r))) := by
          rw [← array_loop_ws _ (parse_value_ws n),
            ws_allSpace_append _ _ (allSpace_ifp _ _ allSpace_newline),
            array_loop_ws _ (parse_value_ws n)]
        rw [hstep, hspace] at hf ⊢
        have ih := reads_elems xs pretty n lvl k (arr ++ [y]) w r hxs hw hr hf
        unfold ReadsElems at ih
        cases hre : reparse_elems xs with
        | ok ys => rw [hre] at ih; simp only; rw [ih, List.append_assoc]; rfl
        | error e => rw [hre] at ih; exact ih
        | fuel => rw [hre] at ih; exact False.elim ih
      | error e =>
        rw [hrx] at hx
        rw [array_loop_step_error _ _ _ _ _ (hsp.trans hx)]
      | fuel => rw [hrx] at hx; exact False.elim hx

theorem reads_members : (m : List (List Char × Value)) → (pretty : Bool) → (n : Nat) →
    (lvl : Int) → (k : Nat) → (obj : Map) → (w r : List Char) → m ≠ [] → AllSpace w →
    NumStop r →
    object_loop (parse_value n) k obj
      (stringify_members m pretty lvl ++ (ifp pretty (indent lvl) ++ '}' :: (w ++ r)))
        ≠ .fuel →
    ReadsMembers (object_loop (parse_value n) k obj
      (stringify_members m pretty lvl ++ (ifp pretty (indent lvl) ++ '}' :: (w ++ r))))
      obj m (w ++ r)
  | _, _, _, _, 0, _, _, _, _, _, _, hf => absurd rfl hf
  | [], _, _, _, _ + 1, _, _, _, hne, _, _, _ => absurd rfl hne
  | (key, x) :: m, pretty, n, lvl, k + 1, obj, w, r, _, hw, hr, hf => by
    rw [stringify_members_cons] at hf ⊢
    -- the key and the colon
    have h0 : ∀ t1, parse_string (ifp pretty (indent (lvl + 2))
        ++ ('"' :: (esc key ++ ('"' :: ':' :: t1)))) = .ok (key.map reread_char, ':' :: t1) := by
      intro t1
      rw [← parse_string_ws, ws_allSpace_append _ _ (allSpace_ifp _ _ (allSpace_indent _)),
        parse_string_ws, parse_string_esc]
    have h1 : ∀ t1, expect ':' (ws (':' :: t1)) = .ok t1 := by
      intro t1
      rw [expect_ok ':' (by decide), ws_ws, ws_cons _ _ (by decide)]
    have hsp := fun t1 => parse_value_space n (ifp pretty [' ']) t1
      (allSpace_ifp _ _ allSpace_blank)
    unfold ReadsMembers
    simp only [reparse_members]
    by_cases hm : m = []
    · subst hm
      have htxt : stringify x pretty (lvl + 2) ++ ((if ([] : List (List Char × Value)).isEmpty
            then [] else [',']) ++ (ifp pretty ['\n'] ++ (stringify_members [] pretty lvl
              ++ (ifp pretty (indent lvl) ++ '}' :: (w ++ r)))))
          = stringify x pretty (lvl + 2) ++ ((ifp pretty ['\n'] ++ ifp pretty (indent lvl))
              ++ ('}' :: (w ++ r))) := by
        rw [stringify_members]; simp
      rw [htxt] at hf ⊢
      have hfx : parse_value n (stringify x pretty (lvl + 2)
          ++ ((ifp pretty ['\n'] ++ ifp pretty (indent lvl)) ++ ('}' :: (w ++ r)))) ≠ .fuel := by
        intro hc
        exact hf (object_loop_step_fuel _ _ _ _ _ _ _ (h0 _) (h1 _) ((hsp _).trans hc))
      have hx := reads_value x pretty n (lvl + 2) _ _
        (allSpace_append _ _ (allSpace_ifp _ _ allSpace_newline)
          (allSpace_ifp _ _ (allSpace_indent _)))
        (numStop_cons '}' (w ++ r) (Or.inr (Or.inr rfl))) hfx
      unfold Reads at hx
      cases hrx : reparse x with
      | ok y =>
        rw [hrx] at hx
        rcases hx with ⟨q, hq1, hq2⟩
        rw [object_loop_step_last _ _ _ _ _ _ _ _ _ _ (h0 _) (h1 _) ((hsp _).trans hq1) hq2]
        simp only [reparse_members]
      | error e =>
        rw [hrx] at hx
        rw [object_loop_step_error _ _ _ _ _ _ _ _ (h0 _) (h1 _) ((hsp _).trans hx)]
      | fuel => rw [hrx] at hx; exact False.elim hx
    · have hemp : m.isEmpty = false := by
        cases m with
        | nil => exact absurd rfl hm
        | cons _ _ => rfl
      simp only [hemp, Bool.false_eq_true, if_false] at hf ⊢
      have hcomma : ∀ X : List Char, [','] ++ X = [] ++ (',' :: X) := fun _ => rfl
      rw [hcomma] at hf ⊢
      have hfx : parse_value n (stringify x pretty (lvl + 2)
          ++ ([] ++ (',' :: (ifp pretty ['\n'] ++ (stringify_members m pretty lvl
            ++ (ifp pretty (indent lvl) ++ '}' :: (w ++ r))))))) ≠ .fuel := by
        intro hc
        exact hf (object_loop_step_fuel _ _ _ _ _ _ _ (h0 _) (h1 _) ((hsp _).trans hc))
      have hx := reads_value x pretty n (lvl + 2) _ _ allSpace_nil
        (numStop_cons ',' _ (Or.inl rfl)) hfx
      unfold Reads at hx
      cases hrx : reparse x with
      | ok y =>
        rw [hrx] at hx
        rcases hx with ⟨q, hq1, hq2⟩
        have hstep := object_loop_step_more (parse_value n) k obj _ _ _ _ _ _ _
          (h0 _) (h1 _) ((hsp _).trans hq1) hq2
        have hspace : object_loop (parse_value n) k (Map.emplace (key.map reread_char) y obj)
            (ifp pretty ['\n'] ++ (stringify_members m pretty lvl
              ++ (ifp pretty (indent lvl) ++ '}' :: (w ++ r))))
            = object_loop (parse_value n) k (Map.emplace (key.map reread_char) y obj)
              (stringify_members m pretty lvl
                ++ (ifp pretty (indent lvl) ++ '}' :: (w ++ r))) := by
          rw [← object_loop_ws, ws_allSpace_append _ _ (allSpace_ifp _ _ allSpace_newline),
            object_loop_ws]
        rw [hstep, hspace] at hf ⊢
        have ih := reads_members m pretty n lvl k _ w r hm hw hr hf
        unfold ReadsMembers at ih
        exact ih
      | error e =>
        rw [hrx] at hx
        rw [object_loop_step_error _ _ _ _ _ _ _ _ (h0 _) (h1 _) ((hsp _).trans hx)]
      | fuel => rw [hrx] at hx; exact False.elim hx

end

/-- Parsing the serialized form of a Value, compact or pretty, gives `reparse`. -/
theorem parse_stringify (v : Value) (pretty : Bool) (lvl : Int) :
    parse (stringify v pretty lvl) = reparse v := by
  have hf := parse_value_ne_fuel ((stringify v pretty lvl).length + 1) (stringify v pretty lvl)
    (Nat.lt_succ_self _)
  have h := reads_value v pretty ((stringify v pretty lvl).length + 1) lvl [] []
    allSpace_nil (fun c hc => by simp at hc) (by simpa using hf)
  simp only [List.append_nil] at h
  unfold Reads at h
  unfold parse
  cases hr : reparse v with
  | ok y =>
    rw [hr] at h
    rcases h with ⟨q, hq1, hq2⟩
    rw [hq1]
    simp only [hq2, ne_eq, not_true_eq_false, false_and, if_false]
  | error e =>
    rw [hr] at h
    rw [h]
  | fuel => rw [hr] at h; exact False.elim h

end minijson

/-! ## Key order and map insertion -/

namespace minijson

theorem char_toNat_inj (a b : Char) (h : a.toNat = b.toNat) : a = b := by
  apply Char.ext
  apply UInt32.ext
  exact h

theorem strLt_irrefl (a : List Char) : strLt a a = false := by
  induction a with
  | nil => rfl
  | cons c a ih => simp [strLt, ih]

theorem strLt_trans : ∀ (a b c : List Char), strLt a b = true → strLt b c = true →
    strLt a c = true := by
  intro a
  induction a with
  | nil =>
    intro b c h1 h2
    cases b with
    | nil => simp [strLt] at h1
    | cons y b =>
      cases c with
      | nil => simp [strLt] at h2
      | cons z c => rfl
  | cons x a ih =>
    intro b c h1 h2
    cases b with
    | nil => simp [strLt] at h1
    | cons y b =>
      cases c with
      | nil => simp [strLt] at h2
      | cons z c =>
        simp only [strLt, Bool.or_eq_true, decide_eq_true_eq, Bool.and_eq_true,
          beq_iff_eq] at h1 h2 ⊢
        rcases h1 with h1 | ⟨h1, h1'⟩
        · rcases h2 with h2 | ⟨h2, _⟩
          · exact Or.inl (Nat.lt_trans h1 h2)
          · exact Or.inl (by omega)
        · rcases h2 with h2 | ⟨h2, h2'⟩
          · exact Or.inl (by omega)
          · exact Or.inr ⟨by omega, ih b c h1' h2'⟩

theorem strLt_total : ∀ (a b : List Char), strLt a b = false → a ≠ b → strLt b a = true := by
  intro a
  induction a with
  | nil =>
    intro b h1 h2
    cases b with
    | nil => exact absurd rfl h2
    | cons y b => simp [strLt] at h1
  | cons x a ih =>
    intro b h1 h2
    cases b with
    | nil => rfl
    | cons y b =>
      simp only [strLt, Bool.or_eq_false_iff, decide_eq_false_iff_not, Bool.and_eq_false_iff,
        beq_eq_false_iff_ne] at h1
      simp only [strLt, Bool.or_eq_true, decide_eq_true_eq, Bool.and_eq_true, beq_iff_eq]
      by_cases hxy : x.toNat = y.toNat
      · have hc : x = y := char_toNat_inj x y hxy
        right
        refine ⟨hxy.symm, ih b ?_ ?_⟩
        · rcases h1.2 with h | h
          · exact absurd hxy h
          · exact h
        · intro e; exact h2 (by rw [hc, e])
      · left; omega

theorem strLt_asymm (a b : List Char) (h : strLt a b = true) : strLt b a = false := by
  cases hb : strLt b a with
  | false => rfl
  | true =>
    have := strLt_trans a b a h hb
    rw [strLt_irrefl] at this
    cases this

theorem strLt_ne (a b : List Char) (h : strLt a b = true) : a ≠ b := by
  intro e; rw [e, strLt_irrefl] at h; cases h

namespace Map

theorem sorted_cons (k : List Char) (v : Value) (m : Map) :
    Map.Sorted ((k, v) :: m) ↔ (∀ kv ∈ m, strLt k kv.1 = true) ∧ Map.Sorted m := by
  unfold Map.Sorted
  simp [List.pairwise_cons]

theorem mem_emplace (k : List Char) (v : Value) (m : Map) (kv : List Char × Value)
    (h : kv ∈ emplace k v m) : kv = (k, v) ∨ kv ∈ m := by
  induction m with
  | nil => simp [emplace] at h; exact Or.inl h
  | cons a m ih =>
    rcases a with ⟨k1, v1⟩
    rw [emplace] at h
    split at h
    · simpa using h
    · split at h
      · exact Or.inr h
      · rcases List.mem_cons.1 h with h | h
        · exact Or.inr (by rw [h]; exact List.mem_cons_self _ _)
        · rcases ih h with h | h
          · exact Or.inl h
          · exact Or.inr (List.mem_cons_of_mem _ h)

/-- `emplace` keeps the keys strictly ascending. -/
theorem sorted_emplace (k : List Char) (v : Value) (m : Map) (h : Map.Sorted m) :
    Map.Sorted (emplace k v m) := by
  induction m with
  | nil => simp [emplace, Map.Sorted]
  | cons a m ih =>
    rcases a with ⟨k1, v1⟩
    rw [sorted_cons] at h
    rw [emplace]
    split
    · rename_i hlt
      rw [sorted_cons]
      refine ⟨?_, (sorted_cons k1 v1 m).2 h⟩
      intro kv hkv
      rcases List.mem_cons.1 hkv with e | e
      · rw [e]; exact hlt
      · exact strLt_trans _ _ _ hlt (h.1 kv e)
    · rename_i hlt
      split
      · exact (sorted_cons k1 v1 m).2 h
      · rename_i hne
        rw [sorted_cons]
        refine ⟨?_, ih h.2⟩
        intro kv hkv
        rcases mem_emplace k v m kv hkv with e | e
        · rw [e]
          exact strLt_total k k1 (by simpa using hlt) (fun e => hne e.symm)
        · exact h.1 kv e

theorem sorted_foldl (l : List (List Char × Value)) (acc : Map) (h : Map.Sorted acc) :
    Map.Sorted (l.foldl (fun m kv => emplace kv.1 kv.2 m) acc) := by
  induction l generalizing acc with
  | nil => exact h
  | cons a l ih => exact ih _ (sorted_emplace _ _ _ h)

theorem sorted_ofList (l : List (List Char × Value)) : Map.Sorted (ofList l) :=
  sorted_foldl l [] (by simp [Map.Sorted])

theorem find_none_of_lt (k : List Char) (m : Map) (h : ∀ kv ∈ m, strLt k kv.1 = true) :
    find k m = none := by
  induction m with
  | nil => rfl
  | cons a m ih =>
    rcases a with ⟨k1, v1⟩
    rw [find]
    have h1 := h (k1, v1) (List.mem_cons_self _ _)
    rw [if_neg (fun e => strLt_ne _ _ h1 e.symm)]
    exact ih (fun kv hkv => h kv (List.mem_cons_of_mem _ hkv))

/-- Lookup after `emplace`: an existing entry stays, a new key gets the value. -/
theorem find_emplace (k k1 : List Char) (v : Value) (m : Map) (h : Map.Sorted m) :
    find k (emplace k1 v m)
      = match find k m with
        | some x => some x
        | none => if k1 = k then some v else none := by
  induction m with
  | nil => simp [emplace, find]
  | cons a m ih =>
    rcases a with ⟨k2, v2⟩
    rw [sorted_cons] at h
    rw [emplace]
    split
    · rename_i hlt
      by_cases e : k1 = k
      · subst e
        have hn : find k1 ((k2, v2) :: m) = none :=
          find_none_of_lt k1 _ (by
            intro kv hkv
            rcases List.mem_cons.1 hkv with e | e
            · rw [e]; exact hlt
            · exact strLt_trans _ _ _ hlt (h.1 kv e))
        rw [hn]
        simp [find]
      · rw [find, if_neg e]
        cases find k ((k2, v2) :: m) <;> simp [e]
    · split
      · rename_i hlt heq
        subst heq
        by_cases e : k2 = k
        · simp [find, e]
        · cases find k ((k2, v2) :: m) <;> simp [e]
      · rename_i hlt hne
        rw [find, find]
        by_cases e : k2 = k
        · simp [e]
        · rw [if_neg e, if_neg e]
          exact ih h.2

end Map

end minijson

/-! ## Parsed Objects are key-sorted -/

namespace minijson

open Parser

theorem elems_sorted_append (a : List Value) (v : Value) (ha : elems_sorted a)
    (hv : v.KeysSorted) : elems_sorted (a ++ [v]) := by
  induction a with
  | nil => exact ⟨hv, trivial⟩
  | cons x a ih =>
    rw [elems_sorted] at ha
    rw [List.cons_append, elems_sorted]
    exact ⟨ha.1, ih ha.2⟩

theorem members_sorted_emplace (k : List Char) (v : Value) (m : Map) (hm : members_sorted m)
    (hv : v.KeysSorted) : members_sorted (Map.emplace k v m) := by
  induction m with
  | nil => exact ⟨hv, trivial⟩
  | cons a m ih =>
    rcases a with ⟨k1, v1⟩
    rw [members_sorted] at hm
    rw [Map.emplace]
    split
    · exact ⟨hv, hm.1, hm.2⟩
    · split
      · exact ⟨hm.1, hm.2⟩
      · exact ⟨hm.1, ih hm.2⟩

theorem sorted_nil : Map.Sorted [] := by simp [Map.Sorted]

theorem keysSorted_string (s : List Char) : (Value.string s).KeysSorted := by
  simp [Value.KeysSorted]

theorem keysSorted_number (x : F64) : (Value.number x).KeysSorted := by
  simp [Value.KeysSorted]

theorem keysSorted_boolean (b : Bool) : (Value.boolean b).KeysSorted := by
  simp [Value.KeysSorted]

theorem keysSorted_nullv : Value.nullv.KeysSorted := by
  simp [Value.KeysSorted]

theorem keysSorted_array (xs : List Value) (h : elems_sorted xs) :
    (Value.array xs).KeysSorted := by
  rw [Value.KeysSorted]; exact h

theorem keysSorted_object (m : Map) (h1 : members_sorted m) (h2 : Map.Sorted m) :
    (Value.object m).KeysSorted := by
  rw [Value.KeysSorted]; exact ⟨h1, h2⟩

theorem elems_sorted_nil : elems_sorted [] := by simp [elems_sorted]

theorem members_sorted_nil : members_sorted [] := by simp [members_sorted]

theorem array_loop_sorted (pv : List Char → Res (Value × List Char)) (hpv : YieldsSorted pv) :
    ∀ (k : Nat) (arr : List Value) (t : List Char) (v : Value) (r : List Char),
      elems_sorted arr → array_loop pv k arr t = .ok (v, r) → v.KeysSorted := by
  intro k
  induction k with
  | zero => intro arr t v r _ h; simp [array_loop] at h
  | succ k ih =>
    intro arr t v r ha h
    rw [array_loop_succ] at h
    split at h
    · cases h
    · cases h
    · rename_i v1 t1 hv
      have h1 := elems_sorted_append arr v1 ha (hpv _ _ _ hv)
      split at h
      · injection h with h; injection h with h _; rw [← h]; exact keysSorted_array _ h1
      · split at h
        · cases h
        · exact ih _ _ _ _ h1 h

theorem object_loop_sorted (pv : List Char → Res (Value × List Char)) (hpv : YieldsSorted pv) :
    ∀ (k : Nat) (obj : Map) (t : List Char) (v : Value) (r : List Char),
      members_sorted obj → Map.Sorted obj → object_loop pv k obj t = .ok (v, r) →
      v.KeysSorted := by
  intro k
  induction k with
  | zero => intro obj t v r _ _ h; simp [object_loop] at h
  | succ k ih =>
    intro obj t v r hm hs h
    rw [object_loop_succ] at h
    split at h
    · cases h
    · cases h
    · rename_i key t1 _
      split at h
      · cases h
      · cases h
      · split at h
        · cases h
        · cases h
        · rename_i val t3 hv
          have h1 := members_sorted_emplace key val obj hm (hpv _ _ _ hv)
          have h2 := Map.sorted_emplace key val obj hs
          split at h
          · injection h with h; injection h with h _
            rw [← h]; exact keysSorted_object _ h1 h2
          · split at h
            · cases h
            · exact ih _ _ _ _ h1 h2 h

theorem parse_value_sorted : ∀ (n : Nat), YieldsSorted (parse_value n) := by
  intro n
  induction n with
  | zero => intro t v r h; simp [parse_value] at h
  | succ n ih =>
    intro t v r h
    rw [parse_value] at h
    split at h
    · split at h
      · injection h with h; injection h with h _; rw [← h]; first | exact keysSorted_string _ | exact keysSorted_boolean _ | exact keysSorted_nullv | exact keysSorted_number _
      · cases h
      · cases h
    · split at h
      · unfold parse_object at h
        split at h
        · cases h
        · cases h
        · simp only at h
          split at h
          · injection h with h; injection h with h _
            rw [← h]; exact keysSorted_object _ members_sorted_nil sorted_nil
          · exact object_loop_sorted _ ih _ _ _ _ _ members_sorted_nil sorted_nil h
      · split at h
        · unfold parse_array at h
          split at h
          · cases h
          · cases h
          · simp only at h
            split at h
            · injection h with h; injection h with h _
              rw [← h]; first | exact keysSorted_array _ elems_sorted_nil | exact keysSorted_number _
            · exact array_loop_sorted _ ih _ _ _ _ _ elems_sorted_nil h
        · split at h
          · split at h
            · injection h with h; injection h with h _; rw [← h]; first | exact keysSorted_string _ | exact keysSorted_boolean _ | exact keysSorted_nullv | exact keysSorted_number _
            · cases h
            · cases h
          · split at h
            · split at h
              · injection h with h; injection h with h _; rw [← h]; first | exact keysSorted_string _ | exact keysSorted_boolean _ | exact keysSorted_nullv | exact keysSorted_number _
              · cases h
              · cases h
            · split at h
              · split at h
                · injection h with h; injection h with h _; rw [← h]; first | exact keysSorted_string _ | exact keysSorted_boolean _ | exact keysSorted_nullv | exact keysSorted_number _
                · cases h
                · cases h
              · split at h
                · split at h
                  · injection h with h; injection h with h _
                    rw [← h]; first | exact keysSorted_array _ elems_sorted_nil | exact keysSorted_number _
                  · cases h
                  · cases h
                · cases h

/-- Every Object inside a parsed Value holds its keys in strictly ascending order. -/
theorem parse_sorted (t : List Char) (v : Value) (h : parse t = .ok v) : v.KeysSorted := by
  unfold parse at h
  split at h
  · cases h
  · cases h
  · rename_i v1 r hv
    simp only at h
    split at h
    · cases h
    · injection h with h
      rw [← h]
      exact parse_value_sorted _ _ _ _ hv

end minijson

namespace minijson

open Parser

/-! ## Values on the lossless path -/

theorem reread_safe (c : Char) (h : 32 ≤ c.toNat) : reread_char c = c := by
  unfold reread_char
  split
  · rfl
  · rw [if_neg (by omega)]

theorem map_reread_safe (s : List Char) (h : ∀ c ∈ s, 32 ≤ c.toNat) :
    s.map reread_char = s := by
  induction s with
  | nil => rfl
  | cons c s ih =>
    rw [List.map_cons, reread_safe c (h c (List.mem_cons_self _ _)),
      ih (fun d hd => h d (List.mem_cons_of_mem _ hd))]

namespace Map

theorem emplace_last (k : List Char) (v : Value) (m : Map)
    (h : ∀ kv ∈ m, strLt kv.1 k = true) : emplace k v m = m ++ [(k, v)] := by
  induction m with
  | nil => rfl
  | cons a m ih =>
    rcases a with ⟨k1, v1⟩
    have h1 := h (k1, v1) (List.mem_cons_self _ _)
    rw [emplace, if_neg (by rw [strLt_asymm _ _ h1]; simp), if_neg (strLt_ne _ _ h1),
      ih (fun kv hkv => h kv (List.mem_cons_of_mem _ hkv))]
    rfl

theorem sorted_append_last (acc : Map) (k : List Char) (v : Value) (m : Map)
    (h : Map.Sorted (acc ++ (k, v) :: m)) : ∀ kv ∈ acc, strLt kv.1 k = true := by
  intro kv hkv
  unfold Map.Sorted at h
  rw [List.map_append, List.pairwise_append] at h
  exact h.2.2 kv.1 (List.mem_map_of_mem _ hkv) k (by simp)

/-- Inserting the entries of a key-sorted list one after the other rebuilds the list. -/
theorem foldl_emplace_sorted (m acc : Map) (h : Map.Sorted (acc ++ m)) :
    m.foldl (fun a kv => emplace kv.1 kv.2 a) acc = acc ++ m := by
  induction m generalizing acc with
  | nil => simp
  | cons a m ih =>
    rcases a with ⟨k, v⟩
    rw [List.foldl_cons, emplace_last k v acc (sorted_append_last acc k v m h)]
    have h2 : Map.Sorted ((acc ++ [(k, v)]) ++ m) := by
      rw [List.append_assoc]; exact h
    rw [ih _ h2, List.append_assoc]; rfl

theorem ofList_sorted (m : Map) (h : Map.Sorted m) : ofList m = m := by
  have := foldl_emplace_sorted m [] (by simpa using h)
  simpa [ofList] using this

/-- Lookup in a map built by successive `emplace`: the first entry of the list
under that key. -/
theorem find_foldl (l : List (List Char × Value)) (acc : Map) (h : Map.Sorted acc)
    (k : List Char) :
    find k (l.foldl (fun a kv => emplace kv.1 kv.2 a) acc)
      = match find k acc with
        | some x => some x
        | none => find k l := by
  induction l generalizing acc with
  | nil => simp only [List.foldl_nil, find]; cases find k acc <;> rfl
  | cons a l ih =>
    rcases a with ⟨k1, v1⟩
    rw [List.foldl_cons, ih _ (sorted_emplace _ _ _ h), find_emplace k k1 v1 acc h]
    cases find k acc with
    | some x => rfl
    | none =>
      simp only [find]
      by_cases e : k1 = k <;> simp [e]

theorem find_ofList (l : List (List Char × Value)) (k : List Char) :
    find k (ofList l) = find k l := by
  unfold ofList
  rw [find_foldl l [] (by simp [Map.Sorted]) k]
  rfl

theorem find_mem (k : List Char) (v : Value) (m : Map) (h : find k m = some v) :
    (k, v) ∈ m := by
  induction m with
  | nil => simp [find] at h
  | cons a m ih =>
    rcases a with ⟨k1, v1⟩
    rw [find] at h
    split at h
    · rename_i e
      injection h with h
      rw [e, h]; exact List.mem_cons_self _ _
    · exact List.mem_cons_of_mem _ (ih h)

/-- In a key-sorted map a key that is found occurs exactly once. -/
theorem count_key (k : List Char) (v : Value) (m : Map) (hs : Map.Sorted m)
    (h : find k m = some v) : (m.filter (fun kv => decide (kv.1 = k))).length = 1 := by
  induction m with
  | nil => simp [find] at h
  | cons a m ih =>
    rcases a with ⟨k1, v1⟩
    rw [sorted_cons] at hs
    by_cases e : k1 = k
    · have hnone : m.filter (fun kv => decide (kv.1 = k)) = [] := by
        rw [List.filter_eq_nil_iff]
        intro kv hkv
        have := strLt_ne _ _ (hs.1 kv hkv)
        simp only [decide_eq_true_eq]
        intro e2; exact this (by rw [e, e2])
      rw [List.filter_cons, if_pos (by simpa using e), hnone]
      rfl
    · rw [find, if_neg e] at h
      rw [List.filter_cons, if_neg (by simpa using e)]
      exact ih hs.2 h

end Map

mutual

theorem reparse_lossless : (v : Value) → v.KeysSorted → v.Lossless → reparse v = .ok v
  | Value.nullv, _, _ => by rw [reparse]
  | Value.boolean _, _, _ => by rw [reparse]
  | Value.number x, _, hl => by rw [reparse]; rw [Value.Lossless] at hl; exact hl
  | Value.string s, _, hl => by
    rw [Value.Lossless] at hl
    rw [reparse, map_reread_safe s hl]
  | Value.array xs, hs, hl => by
    rw [Value.KeysSorted] at hs
    rw [Value.Lossless] at hl
    rw [reparse, reparse_elems_lossless xs hs hl]
  | Value.object m, hs, hl => by
    rw [Value.KeysSorted] at hs
    rw [Value.Lossless] at hl
    rw [reparse, reparse_members_lossless m [] hs.1 hl]
    simp only
    rw [show m.foldl (fun a kv => Map.emplace kv.1 kv.2 a) [] = Map.ofList m from rfl,
      Map.ofList_sorted m hs.2]

theorem reparse_elems_lossless : (xs : List Value) → elems_sorted xs → elems_lossless xs →
    reparse_elems xs = .ok xs
  | [], _, _ => by rw [reparse_elems]
  | x :: xs, hs, hl => by
    rw [elems_sorted] at hs
    rw [elems_lossless] at hl
    rw [reparse_elems, reparse_lossless x hs.1 hl.1, reparse_elems_lossless xs hs.2 hl.2]

theorem reparse_members_lossless : (m : List (List Char × Value)) → (acc : Map) →
    members_sorted m → members_lossless m →
    reparse_members m acc = .ok (m.foldl (fun a kv => Map.emplace kv.1 kv.2 a) acc)
  | [], _, _, _ => by rw [reparse_members]; rfl
  | (k, x) :: m, acc, hs, hl => by
    rw [members_sorted] at hs
    rw [members_lossless] at hl
    rw [reparse_members, reparse_lossless x hs.1 hl.2.1, map_reread_safe k hl.1]
    simp only
    rw [reparse_members_lossless m _ hs.2 hl.2.2]
    rfl

end

end minijson

/-! ## Rounding: fractions with the same value are rounded alike -/

namespace minijson

open Parser

namespace F64

theorem ilog2Aux_eq (fuel : Nat) : ∀ n, n ≤ fuel → ilog2Aux fuel n = Nat.log 2 n := by
  induction fuel with
  | zero =>
    intro n h
    have : n = 0 := by omega
    subst this
    rw [Nat.log_of_lt (by decide)]
    rfl
  | succ fuel ih =>
    intro n h
    rw [ilog2Aux]
    split_ifs with h2
    · rw [ih (n / 2) (by omega), Nat.log_of_one_lt_of_le (by decide) h2]
    · rw [Nat.log_of_lt (by omega)]

theorem ilog2_eq (n : Nat) : ilog2 n = Nat.log 2 n := ilog2Aux_eq n n (Nat.le_refl n)

theorem ilog2_le (n : Nat) (h : n ≠ 0) : 2 ^ ilog2 n ≤ n := by
  rw [ilog2_eq]; exact Nat.pow_log_le_self 2 h

theorem ilog2_lt (n : Nat) : n < 2 ^ (ilog2 n + 1) := by
  rw [ilog2_eq]; exact Nat.lt_pow_succ_log_self (by decide) n

theorem numDigitsAux_eq (fuel : Nat) : ∀ n, n ≤ fuel → 0 < n →
    numDigitsAux fuel n = Nat.log 10 n + 1 := by
  induction fuel with
  | zero => intro n h h0; omega
  | succ fuel ih =>
    intro n h h0
    rw [numDigitsAux, if_neg (by omega)]
    by_cases h10 : 10 ≤ n
    · rw [ih (n / 10) (by omega) (by omega), Nat.log_of_one_lt_of_le (by decide) h10]
    · have hz : n / 10 = 0 := by omega
      rw [hz, Nat.log_of_lt (by omega)]
      cases fuel <;> simp [numDigitsAux]

theorem numDigits_eq (n : Nat) (h : 0 < n) : numDigits n = Nat.log 10 n + 1 :=
  numDigitsAux_eq n n (Nat.le_refl n) h

theorem numDigits_zero : numDigits 0 = 0 := rfl

theorem numDigits_le (n : Nat) (h : 0 < n) : 10 ^ (numDigits n - 1) ≤ n := by
  rw [numDigits_eq n h, Nat.add_sub_cancel]
  exact Nat.pow_log_le_self 10 (by omega)

theorem numDigits_lt (n : Nat) : n < 10 ^ numDigits n := by
  rcases Nat.eq_zero_or_pos n with h | h
  · subst h; decide
  · rw [numDigits_eq n h]; exact Nat.lt_pow_succ_log_self (by decide) n

theorem numDigits_pos (n : Nat) (h : 0 < n) : 0 < numDigits n := by
  rw [numDigits_eq n h]; omega

end F64

namespace F64

theorem round_eq (sign : Bool) (num den : Nat) :
    round sign num den =
      if num = 0 then some ⟨if sign then 2 ^ 63 else 0⟩
      else roundAt sign num den (binexp num den) := rfl

theorem scaled_lt_iff (a b : Nat) (e : Int) :
    a * 2 ^ (- e).toNat < b * 2 ^ e.toNat ↔ (a : ℚ) < b * 2 ^ e := by
  rcases le_or_lt 0 e with h | h
  · obtain ⟨k, rfl⟩ := Int.eq_ofNat_of_zero_le h
    have h1 : (-(k : Int)).toNat = 0 := by omega
    have h2 : ((k : Int)).toNat = k := by omega
    rw [h1, h2, zpow_natCast, pow_zero, mul_one]
    exact_mod_cast Iff.rfl
  · obtain ⟨k, hk⟩ : ∃ k : Nat, e = -((k : Int) + 1) := ⟨(-e - 1).toNat, by omega⟩
    subst hk
    have h1 : (-(-((k : Int) + 1))).toNat = k + 1 := by omega
    have h2 : (-((k : Int) + 1)).toNat = 0 := by omega
    rw [h1, h2, pow_zero, mul_one, zpow_neg]
    have h3 : ((2 : ℚ) ^ ((k : Int) + 1)) = 2 ^ (k + 1) := by
      rw [← zpow_natCast]; push_cast; rfl
    rw [h3, ← div_eq_mul_inv, lt_div_iff₀ (by positivity)]
    exact_mod_cast Iff.rfl

theorem binexp_spec (num den : Nat) (hn : 0 < num) (hd : 0 < den) :
    (den : ℚ) * 2 ^ binexp num den ≤ num ∧ (num : ℚ) < den * 2 ^ (binexp num den + 1) := by
  have ha1 : ((2 : ℚ) ^ (ilog2 num : Int)) ≤ num := by
    rw [zpow_natCast]; exact_mod_cast ilog2_le num (by omega)
  have ha2 : (num : ℚ) < 2 ^ ((ilog2 num : Int) + 1) := by
    have := ilog2_lt num
    have h3 : ((2 : ℚ) ^ ((ilog2 num : Int) + 1)) = 2 ^ (ilog2 num + 1) := by
      rw [← zpow_natCast]; push_cast; rfl
    rw [h3]; exact_mod_cast this
  have hb1 : ((2 : ℚ) ^ (ilog2 den : Int)) ≤ den := by
    rw [zpow_natCast]; exact_mod_cast ilog2_le den (by omega)
  have hb2 : (den : ℚ) < 2 ^ ((ilog2 den : Int) + 1) := by
    have := ilog2_lt den
    have h3 : ((2 : ℚ) ^ ((ilog2 den : Int) + 1)) = 2 ^ (ilog2 den + 1) := by
      rw [← zpow_natCast]; push_cast; rfl
    rw [h3]; exact_mod_cast this
  have hpos : ∀ z : Int, (0 : ℚ) < 2 ^ z := fun z => by positivity
  unfold binexp
  simp only
  generalize (ilog2 num : Int) = a at *
  generalize (ilog2 den : Int) = b at *
  split_ifs with h
  · rw [scaled_lt_iff] at h
    refine ⟨?_, by rw [sub_add_cancel]; exact h⟩
    have e1 : (2 : ℚ) ^ (b + 1) * 2 ^ (a - b - 1) = 2 ^ a := by
      rw [← zpow_add₀ (by norm_num : (2 : ℚ) ≠ 0)]; congr 1; ring
    calc (den : ℚ) * 2 ^ (a - b - 1) ≤ 2 ^ (b + 1) * 2 ^ (a - b - 1) :=
          mul_le_mul_of_nonneg_right (le_of_lt hb2) (le_of_lt (hpos _))
      _ = 2 ^ a := e1
      _ ≤ num := ha1
  · rw [scaled_lt_iff, not_lt] at h
    refine ⟨h, ?_⟩
    have e1 : (2 : ℚ) ^ b * 2 ^ (a - b + 1) = 2 ^ (a + 1) := by
      rw [← zpow_add₀ (by norm_num : (2 : ℚ) ≠ 0)]; congr 1; ring
    calc (num : ℚ) < 2 ^ (a + 1) := ha2
      _ = 2 ^ b * 2 ^ (a - b + 1) := e1.symm
      _ ≤ den * 2 ^ (a - b + 1) :=
          mul_le_mul_of_nonneg_right hb1 (le_of_lt (hpos _))

theorem binexp_unique (num den : Nat) (hn : 0 < num) (hd : 0 < den) (e : Int)
    (h1 : (den : ℚ) * 2 ^ e ≤ num) (h2 : (num : ℚ) < den * 2 ^ (e + 1)) :
    binexp num den = e := by
  rcases binexp_spec num den hn hd with ⟨s1, s2⟩
  have hdq : (0 : ℚ) < den := by exact_mod_cast hd
  have key : ∀ x y : Int, (den : ℚ) * 2 ^ x ≤ num → (num : ℚ) < den * 2 ^ (y + 1) → x ≤ y := by
    intro x y hx hy
    by_contra hlt
    have hle : y + 1 ≤ x := by omega
    have : (2 : ℚ) ^ (y + 1) ≤ 2 ^ x := (zpow_le_zpow_iff_right₀ (by norm_num)).mpr hle
    have := mul_le_mul_of_nonneg_left this (le_of_lt hdq)
    linarith
  have a := key _ _ s1 h2
  have b := key _ _ h1 s2
  omega

theorem binexp_scale (num den c : Nat) (hn : 0 < num) (hd : 0 < den) (hc : 0 < c) :
    binexp (num * c) (den * c) = binexp num den := by
  rcases binexp_spec num den hn hd with ⟨s1, s2⟩
  have hcq : (0 : ℚ) < c := by exact_mod_cast hc
  apply binexp_unique _ _ (Nat.mul_pos hn hc) (Nat.mul_pos hd hc)
  · push_cast
    have := mul_le_mul_of_nonneg_right s1 (le_of_lt hcq)
    linarith
  · push_cast
    have := mul_lt_mul_of_pos_right s2 hcq
    linarith

theorem roundAt_scale (sign : Bool) (num den c : Nat) (hc : 0 < c) (e0 : Int) :
    roundAt sign (num * c) (den * c) e0 = roundAt sign num den e0 := by
  unfold roundAt
  simp only
  have e1 : ∀ k : Nat, num * c * 2 ^ k = num * 2 ^ k * c := fun k => by ring
  have e2 : ∀ k : Nat, den * c * 2 ^ k = den * 2 ^ k * c := fun k => by ring
  simp only [e1, e2, Nat.mul_div_mul_right _ _ hc, Nat.mul_mod_mul_right]
  have c1 : ∀ a b : Nat, (a * c < 2 * (b * c)) ↔ a < 2 * b := by
    intro a b
    rw [← Nat.mul_assoc]
    exact Nat.mul_lt_mul_right hc
  have c2 : ∀ a b : Nat, (a * c = 2 * (b * c)) ↔ a = 2 * b := by
    intro a b
    rw [← Nat.mul_assoc]
    exact Nat.mul_left_inj (by omega)
  have c3 : ∀ a b : Nat, (a * c ≤ 2 * (b * c)) ↔ a ≤ 2 * b := by
    intro a b
    rw [← Nat.mul_assoc]
    exact ⟨fun h => Nat.le_of_mul_le_mul_right h hc, fun h => Nat.mul_le_mul_right c h⟩
  have c4 : ∀ a b : Nat, (4 * (b * c) = a * c) ↔ 4 * b = a := by
    intro a b
    rw [← Nat.mul_assoc]
    exact Nat.mul_left_inj (by omega)
  have c5 : ∀ a : Nat, (a * c = 0) ↔ a = 0 := by
    intro a
    constructor
    · intro h
      rcases Nat.mul_eq_zero.1 h with h | h
      · exact h
      · omega
    · intro h; rw [h]; simp
  simp only [c1, c2, c3, c4, c5, ne_eq]

theorem round_scale (sign : Bool) (num den c : Nat) (hd : 0 < den) (hc : 0 < c) :
    round sign (num * c) (den * c) = round sign num den := by
  rw [round_eq, round_eq]
  rcases Nat.eq_zero_or_pos num with h | h
  · subst h; simp
  · rw [if_neg (by have := Nat.mul_pos h hc; omega), if_neg (by omega),
      binexp_scale num den c h hd hc, roundAt_scale _ _ _ _ hc]

/-- Fractions with the same value are rounded alike. -/
theorem round_congr (sign : Bool) (a b c d : Nat) (hb : 0 < b) (hd : 0 < d)
    (h : a * d = c * b) : round sign a b = round sign c d := by
  rw [← round_scale sign a b d hb hd, ← round_scale sign c d b hd hb, h, Nat.mul_comm b d]

end F64

end minijson

/-! ## The value read from the text written for a double -/

namespace minijson

open Parser

namespace F64

theorem digitChar_val (d : Nat) : (digitChar d).toNat - 48 = d % 10 := by
  unfold digitChar
  have h : d % 10 < 10 := Nat.mod_lt _ (by decide)
  generalize d % 10 = m at h
  interval_cases m <;> rfl

theorem digitsVal_foldl (b : List Char) : ∀ acc : Nat,
    b.foldl (fun acc c => acc * 10 + (c.toNat - 48)) acc = acc * 10 ^ b.length + digitsVal b := by
  induction b with
  | nil => intro acc; simp [digitsVal]
  | cons c b ih =>
    intro acc
    unfold digitsVal
    rw [List.foldl_cons, List.foldl_cons, ih, ih (0 * 10 + (c.toNat - 48)), List.length_cons]
    ring

theorem digitsVal_append (a b : List Char) :
    digitsVal (a ++ b) = digitsVal a * 10 ^ b.length + digitsVal b := by
  unfold digitsVal
  rw [List.foldl_append, digitsVal_foldl]
  rfl

theorem digitsVal_nil : digitsVal [] = 0 := rfl

theorem digitsVal_singleton (c : Char) : digitsVal [c] = c.toNat - 48 := by
  simp [digitsVal]

theorem length_decDigits (k n : Nat) : (decDigits k n).length = k := by
  induction k generalizing n with
  | zero => rfl
  | succ k ih => rw [decDigits, List.length_append, ih]; rfl

theorem digitsVal_decDigits (k : Nat) : ∀ n, digitsVal (decDigits k n) = n % 10 ^ k := by
  induction k with
  | zero => intro n; simp [decDigits, digitsVal, Nat.mod_one]
  | succ k ih =>
    intro n
    have e : n % 10 ^ (k + 1) = n % 10 + 10 * (n / 10 % 10 ^ k) := by
      rw [pow_succ', Nat.mod_mul]
    rw [decDigits, digitsVal_append, ih, digitsVal_singleton, digitChar_val, List.length_singleton, e]
    ring

theorem digitsVal_replicate (z : Nat) : digitsVal (List.replicate z '0') = 0 := by
  induction z with
  | zero => rfl
  | succ z ih =>
    rw [List.replicate_succ']
    rw [digitsVal_append, ih]
    rfl

theorem stripZeros_spec (ds : List Char) :
    ∃ z, ds = stripZeros ds ++ List.replicate z '0' := by
  unfold stripZeros
  have h := List.takeWhile_append_dropWhile (fun c => c == '0') ds.reverse
  have h2 := congrArg List.reverse h
  rw [List.reverse_append, List.reverse_reverse] at h2
  refine ⟨(List.takeWhile (fun c => c == '0') ds.reverse).length, ?_⟩
  have h3 : (List.takeWhile (fun c => c == '0') ds.reverse).reverse
      = List.replicate (List.takeWhile (fun c => c == '0') ds.reverse).length '0' := by
    rw [List.eq_replicate_iff]
    refine ⟨by simp, ?_⟩
    intro b hb
    rw [List.mem_reverse] at hb
    have := List.mem_takeWhile_imp hb
    simpa using this
  rw [← h3]
  exact h2.symm

/-- The digits in front of the stripped zeros carry the value. -/
theorem digitsVal_stripZeros (ds : List Char) :
    digitsVal ds = digitsVal (stripZeros ds) * 10 ^ (ds.length - (stripZeros ds).length)
    ∧ (stripZeros ds).length ≤ ds.length := by
  rcases stripZeros_spec ds with ⟨z, hz⟩
  have hl : ds.length = (stripZeros ds).length + z := by
    have := congrArg List.length hz
    rw [List.length_append, List.length_replicate] at this
    exact this
  constructor
  · have e : ds.length - (stripZeros ds).length = z := by omega
    rw [e]
    nth_rewrite 1 [hz]
    rw [digitsVal_append, digitsVal_replicate, List.length_replicate, Nat.add_zero]
  · omega

theorem takeWhile_digits (ds rest : List Char) (hd : Digits ds)
    (hr : ∀ c ∈ rest.head?, isdigit c = false) :
    (ds ++ rest).takeWhile isdigit = ds ∧ (ds ++ rest).dropWhile isdigit = rest := by
  induction ds with
  | nil =>
    cases rest with
    | nil => simp
    | cons c r =>
      have := hr c (by simp)
      simp [List.takeWhile_cons, List.dropWhile_cons, this]
  | cons d ds ih =>
    have h1 := hd d (List.mem_cons_self _ _)
    have h2 := ih (fun c hc => hd c (List.mem_cons_of_mem _ hc))
    simp [List.takeWhile_cons, List.dropWhile_cons, h1, h2.1, h2.2]

end F64

namespace F64

theorem takeExp_nil : takeExp [] = 0 := rfl

theorem takeExp_tok (sc : Char) (ed : List Char) (hs : sc = '+' ∨ sc = '-') (hed : Digits ed)
    (hne : ed ≠ []) :
    takeExp ('e' :: sc :: ed)
      = if sc = '-' then - (digitsVal ed : Int) else (digitsVal ed : Int) := by
  have ht := (takeWhile_digits ed [] hed (by simp)).1
  rw [List.append_nil] at ht
  unfold takeExp
  simp only [true_or, if_true]
  rcases hs with rfl | rfl
  · simp only [takeSign, show ('+' : Char) ≠ '-' by decide, if_false, if_true, ht, hne]
    simp
  · simp only [takeSign, if_true, ht, hne]
    simp

/-- The value `std::stod` reads from a number text `-? digits (. digits)? (e± digits)?`. -/
theorem stod_text (neg : Bool) (ip fs ex : List Char) (E : Int) (hip : Digits ip)
    (hne : ip ≠ []) (hfs : Digits fs)
    (hex : (ex = [] ∧ E = 0) ∨ ∃ sc ed, ex = 'e' :: sc :: ed ∧ (sc = '+' ∨ sc = '-')
      ∧ Digits ed ∧ ed ≠ []
      ∧ E = if sc = '-' then - (digitsVal ed : Int) else (digitsVal ed : Int)) :
    stod ((if neg then ['-'] else []) ++ (ip ++ (fracPart fs ++ ex)))
      = round neg (digitsVal (ip ++ fs) * 10 ^ (E - (fs.length : Int)).toNat)
          (10 ^ (- (E - (fs.length : Int))).toNat) := by
  obtain ⟨c0, ip1, hc0⟩ : ∃ c0 ip1, ip = c0 :: ip1 := by
    cases ip with
    | nil => exact absurd rfl hne
    | cons c l => exact ⟨c, l, rfl⟩
  have hd0 : isdigit c0 = true := hip c0 (by rw [hc0]; simp)
  have hs0 : isspace c0 = false := isdigit_not_space c0 hd0
  have hm0 : c0 ≠ '-' ∧ c0 ≠ '+' := by
    constructor <;> (rintro rfl; revert hd0; decide)
  have hE : takeExp ex = E := by
    rcases hex with ⟨rfl, rfl⟩ | ⟨sc, ed, rfl, hs, hed, hne2, rfl⟩
    · rfl
    · exact takeExp_tok sc ed hs hed hne2
  have hexhead : ∀ c ∈ ex.head?, isdigit c = false := by
    rcases hex with ⟨rfl, _⟩ | ⟨sc, ed, rfl, _⟩
    · simp
    · intro c hc; simp at hc; rw [← hc]; decide
  have hresthead : ∀ c ∈ (fracPart fs ++ ex).head?, isdigit c = false := by
    cases fs with
    | nil => exact hexhead
    | cons f fs1 => intro c hc; simp [fracPart] at hc; rw [← hc]; decide
  have hsign : takeSign (((if neg then ['-'] else []) ++ (ip ++ (fracPart fs ++ ex))).dropWhile
      isspace) = (neg, ip ++ (fracPart fs ++ ex)) := by
    cases neg with
    | true =>
      simp only [if_true, List.singleton_append]
      rw [List.dropWhile_cons, if_neg (by decide)]
      simp [takeSign]
    | false =>
      simp only [Bool.false_eq_true, if_false, List.nil_append]
      rw [hc0, List.cons_append, List.dropWhile_cons, if_neg (by rw [hs0]; decide)]
      simp [takeSign, hm0.1, hm0.2]
  unfold stod
  rw [hsign]
  simp only
  unfold stod_digits
  rcases takeWhile_digits ip (fracPart fs ++ ex) hip hresthead with ⟨t1, t2⟩
  simp only [t1, t2]
  cases fs with
  | nil =>
    rcases hex with ⟨rfl, rfl⟩ | ⟨sc, ed, rfl, hs, hed, hne2, rfl⟩
    · simp only [fracPart, List.append_nil, List.nil_append]
      rw [if_neg (by simp [hne])]
      rfl
    · simp only [fracPart, List.append_nil, List.nil_append, show ('e' : Char) ≠ '.' by decide,
        if_false]
      rw [if_neg (by simp [hne]), hE]
  | cons f fs1 =>
    rcases takeWhile_digits (f :: fs1) ex hfs hexhead with ⟨u1, u2⟩
    simp only [fracPart, List.cons_append, if_true] at u1 u2 ⊢
    rw [u1, u2, if_neg (by simp [hne]), hE]

end F64

namespace F64

theorem scaled10_lt_iff (a b : Nat) (e : Int) :
    a * 10 ^ (- e).toNat < b * 10 ^ e.toNat ↔ (a : ℚ) < b * 10 ^ e := by
  rcases le_or_lt 0 e with h | h
  · obtain ⟨k, rfl⟩ := Int.eq_ofNat_of_zero_le h
    have h1 : (-(k : Int)).toNat = 0 := by omega
    have h2 : ((k : Int)).toNat = k := by omega
    rw [h1, h2, zpow_natCast, pow_zero, mul_one]
    exact_mod_cast Iff.rfl
  · obtain ⟨k, hk⟩ : ∃ k : Nat, e = -((k : Int) + 1) := ⟨(-e - 1).toNat, by omega⟩
    subst hk
    have h1 : (-(-((k : Int) + 1))).toNat = k + 1 := by omega
    have h2 : (-((k : Int) + 1)).toNat = 0 := by omega
    rw [h1, h2, pow_zero, mul_one, zpow_neg]
    have h3 : ((10 : ℚ) ^ ((k : Int) + 1)) = 10 ^ (k + 1) := by
      rw [← zpow_natCast]; push_cast; rfl
    rw [h3, ← div_eq_mul_inv, lt_div_iff₀ (by positivity)]
    exact_mod_cast Iff.rfl

/-- The decimal exponent that `sig15` computes first. -/
theorem sig15_exp (num den : Nat) (hn : 0 < num) (hd : 0 < den) (x0 : Int)
    (hx : x0 = if den ≤ num then (numDigits (num / den) : Int) - 1
      else if den ≤ num * 10 ^ (numDigits (den / num) - 1)
        then - ((numDigits (den / num) : Int) - 1) else - (numDigits (den / num) : Int)) :
    (den : ℚ) * 10 ^ x0 ≤ num ∧ (num : ℚ) < den * 10 ^ (x0 + 1) := by
  have hcast : ∀ k : Nat, ((10 : ℚ) ^ (k : Int)) = ((10 ^ k : Nat) : ℚ) := by
    intro k; rw [zpow_natCast]; push_cast; rfl
  have hdq : (0 : ℚ) < den := by exact_mod_cast hd
  have hnq : (0 : ℚ) < num := by exact_mod_cast hn
  split_ifs at hx with h1 h2
  · have ha : 0 < num / den := Nat.div_pos h1 hd
    have l1 := numDigits_le _ ha
    have l2 := numDigits_lt (num / den)
    have p := numDigits_pos _ ha
    obtain ⟨k, hk⟩ : ∃ k, numDigits (num / den) = k + 1 := ⟨numDigits (num / den) - 1, by omega⟩
    rw [hk] at l1 l2 hx
    rw [Nat.add_sub_cancel] at l1
    have e1 : x0 = (k : Int) := by rw [hx]; push_cast; ring
    have e2 : x0 + 1 = ((k + 1 : Nat) : Int) := by rw [e1]; push_cast; ring
    rw [e2, e1, hcast, hcast]
    constructor
    · have : den * 10 ^ k ≤ num :=
        Nat.le_trans (Nat.mul_le_mul_left den l1) (Nat.mul_div_le num den)
      exact_mod_cast this
    · have h3 : num < den * (num / den + 1) := Nat.lt_mul_div_succ num hd
      have : num < den * 10 ^ (k + 1) :=
        Nat.lt_of_lt_of_le h3 (Nat.mul_le_mul_left den l2)
      exact_mod_cast this
  · have h1' : num < den := by omega
    have hb : 0 < den / num := Nat.div_pos (by omega) hn
    have l1 := numDigits_le _ hb
    have l2 := numDigits_lt (den / num)
    obtain ⟨k, hk⟩ : ∃ k, numDigits (den / num) = k + 1 :=
      ⟨numDigits (den / num) - 1, by have := numDigits_pos _ hb; omega⟩
    rw [hk] at l1 l2 hx h2
    rw [Nat.add_sub_cancel] at l1 h2
    have g1 : num * 10 ^ k ≤ den :=
      Nat.le_trans (Nat.mul_le_mul_left num l1) (Nat.mul_div_le den num)
    have geq : den = num * 10 ^ k := by omega
    have e1 : x0 = - (k : Int) := by rw [hx]; push_cast; ring
    rw [e1]
    have hpk : ((10 : ℚ) ^ (-(k : Int))) = (((10 ^ k : Nat) : ℚ))⁻¹ := by
      rw [zpow_neg, hcast]
    have hpos : (0 : ℚ) < ((10 ^ k : Nat) : ℚ) := by positivity
    have geq' : (den : ℚ) = num * ((10 ^ k : Nat) : ℚ) := by exact_mod_cast geq
    constructor
    · rw [hpk, geq', mul_assoc, mul_inv_cancel₀ (ne_of_gt hpos), mul_one]
    · rw [zpow_add₀ (by norm_num : (10 : ℚ) ≠ 0), hpk, geq']
      have : (num : ℚ) * ((10 ^ k : Nat) : ℚ) * ((((10 ^ k : Nat) : ℚ))⁻¹ * 10 ^ (1 : Int))
          = num * 10 := by
        rw [zpow_one]
        field_simp
        ring
      rw [this]
      linarith
  · have h1' : num < den := by omega
    have hb : 0 < den / num := Nat.div_pos (by omega) hn
    have l1 := numDigits_le _ hb
    have l2 := numDigits_lt (den / num)
    obtain ⟨k, hk⟩ : ∃ k, numDigits (den / num) = k + 1 :=
      ⟨numDigits (den / num) - 1, by have := numDigits_pos _ hb; omega⟩
    rw [hk] at l1 l2 hx h2
    rw [Nat.add_sub_cancel] at l1 h2
    have g2 : den < num * 10 ^ (k + 1) :=
      Nat.lt_of_lt_of_le (Nat.lt_mul_div_succ den hn) (Nat.mul_le_mul_left num l2)
    have g3 : num * 10 ^ k < den := by omega
    have e1 : x0 = - ((k + 1 : Nat) : Int) := by rw [hx]
    have e2 : x0 + 1 = - ((k : Nat) : Int) := by rw [e1]; push_cast; ring
    rw [e2, e1, zpow_neg, zpow_neg, hcast, hcast]
    have hp1 : (0 : ℚ) < ((10 ^ (k + 1) : Nat) : ℚ) := by positivity
    have hp0 : (0 : ℚ) < ((10 ^ k : Nat) : ℚ) := by positivity
    constructor
    · rw [← div_eq_mul_inv, div_le_iff₀ hp1]
      exact_mod_cast le_of_lt g2
    · rw [← div_eq_mul_inv, lt_div_iff₀ hp0]
      exact_mod_cast g3

/-- The fifteen significant digits are a number below `10 ^ 15`. -/
theorem sig15_lt (num den : Nat) (hn : 0 < num) (hd : 0 < den) :
    (sig15 num den).1 < 10 ^ 15 := by
  have hs := sig15_exp num den hn hd _ rfl
  unfold sig15
  simp only
  generalize (if den ≤ num then (numDigits (num / den) : Int) - 1
      else if den ≤ num * 10 ^ (numDigits (den / num) - 1)
        then - ((numDigits (den / num) : Int) - 1) else - (numDigits (den / num) : Int)) = x0
    at hs ⊢
  rcases hs with ⟨_, s2⟩
  -- the quotient is below 10 ^ 15
  have hq : num * 10 ^ (14 - x0).toNat / (den * 10 ^ (x0 - 14).toNat) < 10 ^ 15 := by
    rw [Nat.div_lt_iff_lt_mul (Nat.mul_pos hd (by positivity))]
    have e : (14 - x0) = - (x0 - 14) := by ring
    rw [e, show 10 ^ 15 * (den * 10 ^ (x0 - 14).toNat) = (10 ^ 15 * den) * 10 ^ (x0 - 14).toNat by
      ring, scaled10_lt_iff]
    push_cast
    have e2 : (den : ℚ) * 10 ^ (x0 + 1) = 10 ^ 15 * den * 10 ^ (x0 - 14) := by
      have : (10 : ℚ) ^ (x0 + 1) = 10 ^ (15 : Int) * 10 ^ (x0 - 14) := by
        rw [← zpow_add₀ (by norm_num : (10 : ℚ) ≠ 0)]; congr 1; ring
      rw [this]
      have : (10 : ℚ) ^ (15 : Int) = 10 ^ 15 := by norm_cast
      rw [this]; ring
    have e3 : (1000000000000000 : ℚ) = 10 ^ 15 := by norm_num
    rw [e3, ← e2]; exact s2
  split_ifs with h1 h2 h3
  · simp only; norm_num
  · simp only; omega
  · simp only; norm_num
  · simp only; omega

end F64

namespace F64

theorem magnitude_pos (x : F64) (h : x.mant ≠ 0) : 0 < x.magnitude.1 ∧ 0 < x.magnitude.2 := by
  unfold magnitude
  simp only
  split_ifs
  · exact ⟨Nat.mul_pos (by omega) (by positivity), Nat.one_pos⟩
  · exact ⟨by omega, by positivity⟩

theorem cross10 (W D z : Nat) (ex X : Int) (hD : W * 10 ^ z = D) (hex : ex = X - 14 + z) :
    W * 10 ^ ex.toNat * 10 ^ (14 - X).toNat = D * 10 ^ (X - 14).toNat * 10 ^ (- ex).toNat := by
  subst hD
  have e : ex.toNat + (14 - X).toNat = z + (X - 14).toNat + (- ex).toNat := by omega
  calc W * 10 ^ ex.toNat * 10 ^ (14 - X).toNat
      = W * 10 ^ (ex.toNat + (14 - X).toNat) := by rw [pow_add]; ring
    _ = W * 10 ^ (z + (X - 14).toNat + (- ex).toNat) := by rw [e]
    _ = W * 10 ^ z * 10 ^ (X - 14).toNat * 10 ^ (- ex).toNat := by rw [pow_add, pow_add]; ring

/-- What `std::stod` reads from the digits `ip`, fraction digits `fs` (the digits
`ds` without their trailing zeros) and exponent `E`, when these hold the number
`D * 10 ^ (X - 14)`. -/
theorem stod_parts (neg : Bool) (ip ds ex : List Char) (E X : Int) (D : Nat)
    (hip : Digits ip) (hne : ip ≠ []) (hds : Digits ds)
    (hex : (ex = [] ∧ E = 0) ∨ ∃ sc ed, ex = 'e' :: sc :: ed ∧ (sc = '+' ∨ sc = '-')
      ∧ Digits ed ∧ ed ≠ []
      ∧ E = if sc = '-' then - (digitsVal ed : Int) else (digitsVal ed : Int))
    (hD : digitsVal ip * 10 ^ ds.length + digitsVal ds = D)
    (hE : E - (ds.length : Int) = X - 14) :
    stod ((if neg then ['-'] else []) ++ (ip ++ (fracPart (stripZeros ds) ++ ex)))
      = round neg (D * 10 ^ (X - 14).toNat) (10 ^ (14 - X).toNat) := by
  rw [stod_text neg ip (stripZeros ds) ex E hip hne (digits_stripZeros ds hds) hex]
  rcases digitsVal_stripZeros ds with ⟨hv, hl⟩
  apply round_congr _ _ _ _ _ (by positivity) (by positivity)
  apply cross10 _ _ (ds.length - (stripZeros ds).length)
  · rw [digitsVal_append, Nat.add_mul, Nat.mul_assoc, ← pow_add, ← hv]
    have : (stripZeros ds).length + (ds.length - (stripZeros ds).length) = ds.length := by omega
    rw [this, hD]
  · omega

theorem stod_fmt15 (x : F64) (hf : x.expo ≠ 2047) :
    stod (fmt15 x) = round x.neg (dec15 x).1 (dec15 x).2 := by
  unfold fmt15 dec15
  simp only [if_neg hf]
  by_cases hm : x.mant = 0
  · simp only [if_pos hm]
    have h := stod_text x.neg ['0'] [] [] 0 (by intro c hc; simp at hc; rw [hc]; decide)
      (by simp) (by intro c hc; simp at hc) (Or.inl ⟨rfl, rfl⟩)
    simp only [fracPart, List.append_nil] at h
    rw [h]
    rfl
  · simp only [if_neg hm]
    rcases magnitude_pos x hm with ⟨p1, p2⟩
    have hD := sig15_lt _ _ p1 p2
    generalize (sig15 x.magnitude.1 x.magnitude.2) = p at hD ⊢
    rcases p with ⟨D, X⟩
    simp only at hD ⊢
    by_cases hsci : X < -4 ∨ 15 ≤ X
    · -- scientific style
      rw [if_pos hsci]
      unfold sciText
      have hE : (if (if X < 0 then '-' else '+') = '-'
          then - (digitsVal (decDigits (max 2 (numDigits X.natAbs)) X.natAbs) : Int)
          else (digitsVal (decDigits (max 2 (numDigits X.natAbs)) X.natAbs) : Int)) = X := by
        have hv : digitsVal (decDigits (max 2 (numDigits X.natAbs)) X.natAbs) = X.natAbs := by
          rw [digitsVal_decDigits]
          apply Nat.mod_eq_of_lt
          exact Nat.lt_of_lt_of_le (numDigits_lt _)
            (Nat.pow_le_pow_right (by decide) (Nat.le_max_right _ _))
        rw [hv]
        by_cases hx : X < 0
        · simp only [hx, if_true]; omega
        · simp only [hx, if_false, show ('+' : Char) ≠ '-' by decide]; omega
      have h := stod_parts x.neg (decDigits 1 (D / 10 ^ 14)) (decDigits 14 D)
        ('e' :: (if X < 0 then '-' else '+')
          :: decDigits (max 2 (numDigits X.natAbs)) X.natAbs) (X + 0) X D
        (digits_decDigits _ _) (decDigits_ne_nil _ _ (by decide)) (digits_decDigits _ _)
        (Or.inr ⟨_, _, rfl, by by_cases hx : X < 0 <;> simp [hx], digits_decDigits _ _,
          decDigits_ne_nil _ _ (Nat.lt_of_lt_of_le (by decide) (Nat.le_max_left _ _)),
          by rw [hE]; ring⟩)
        (by
          rw [digitsVal_decDigits, digitsVal_decDigits, length_decDigits,
            Nat.mod_eq_of_lt (by omega : D / 10 ^ 14 < 10 ^ 1)]
          exact Nat.div_add_mod' D (10 ^ 14))
        (by rw [length_decDigits]; push_cast; ring)
      simp only [List.append_assoc] at h ⊢
      exact h
    · rw [if_neg hsci]
      unfold fixText
      have hr : -4 ≤ X ∧ X < 15 := by omega
      by_cases hneg : X < 0
      · rw [if_pos hneg]
        have h := stod_parts x.neg (decDigits 1 0) (decDigits (14 + X.natAbs) D) [] 0 X D
          (digits_decDigits _ _) (decDigits_ne_nil _ _ (by decide)) (digits_decDigits _ _)
          (Or.inl ⟨rfl, rfl⟩)
          (by
            rw [digitsVal_decDigits, digitsVal_decDigits, length_decDigits]
            have : D < 10 ^ (14 + X.natAbs) :=
              Nat.lt_of_lt_of_le hD (Nat.pow_le_pow_right (by decide) (by omega))
            rw [Nat.mod_eq_of_lt this]; simp)
          (by rw [length_decDigits]; omega)
        simp only [List.append_nil] at h
        exact h
      · rw [if_neg hneg]
        have h := stod_parts x.neg (decDigits (X.toNat + 1) (D / 10 ^ (14 - X.toNat)))
          (decDigits (14 - X.toNat) D) [] 0 X D
          (digits_decDigits _ _) (decDigits_ne_nil _ _ (Nat.succ_pos _)) (digits_decDigits _ _)
          (Or.inl ⟨rfl, rfl⟩)
          (by
            rw [digitsVal_decDigits, digitsVal_decDigits, length_decDigits]
            have : D / 10 ^ (14 - X.toNat) < 10 ^ (X.toNat + 1) := by
              rw [Nat.div_lt_iff_lt_mul (by positivity), ← pow_add]
              have : X.toNat + 1 + (14 - X.toNat) = 15 := by omega
              rw [this]; exact hD
            rw [Nat.mod_eq_of_lt this]
            exact Nat.div_add_mod' D (10 ^ (14 - X.toNat)))
          (by rw [length_decDigits]; omega)
        simp only [List.append_nil] at h
        exact h

end F64

end minijson
/-! ## Decimal numbers of at most fifteen digits -/

namespace minijson

namespace F64

end F64

end minijson


/-! ## Integers below ten to the fifteenth -/

namespace minijson

open Parser

namespace F64

end F64

namespace F64

end F64

end minijson

/-! ## Numbers and Values that survive the round trip -/

namespace minijson

open Parser

namespace F64

theorem fmt15_finite (x : F64) (hf : x.expo ≠ 2047) : NumTok (fmt15 x) := by
  have hsg : (if x.neg = true then ['-'] else ([] : List Char)) = []
      ∨ (if x.neg = true then ['-'] else ([] : List Char)) = ['-'] := by
    cases x.neg <;> simp
  unfold fmt15
  simp only
  generalize (if x.neg = true then ['-'] else ([] : List Char)) = sg at hsg
  simp only [hf, if_false]
  by_cases h2 : x.mant = 0
  · simp only [h2, if_true]
    exact ⟨sg, ['0'], [], [], by simp [fracPart], hsg,
      by intro c hc; simp at hc; rw [hc]; decide,
      by simp, by intro c hc; simp at hc, Or.inl rfl⟩
  · simp only [h2, if_false]
    split
    · exact numTok_sciText _ hsg _ _
    · exact numTok_fixText _ hsg _ _

theorem fmt15_infinite (x : F64) (hf : x.expo = 2047) :
    fmt15 x = "nan".toList ∨ fmt15 x = "-nan".toList ∨ fmt15 x = "inf".toList
      ∨ fmt15 x = "-inf".toList := by
  unfold fmt15
  simp only [hf, if_true]
  cases x.neg <;> by_cases h2 : x.frac = 0 <;> simp [h2]

end F64

/-- The text of a Number is read back as the same Number exactly when fifteen
significant digits determine it. -/
theorem parse_fmt15_iff (x : F64) :
    parse (F64.fmt15 x) = .ok (Value.number x) ↔ F64.Exact15 x := by
  by_cases hf : x.expo = 2047
  · constructor
    · intro h
      exfalso
      have e1 : parse "nan".toList = .error "expected literal: null" := by rfl
      have e2 : parse "-nan".toList = .error "bad number" := by rfl
      have e3 : parse "inf".toList = .error "invalid json value" := by rfl
      have e4 : parse "-inf".toList = .error "bad number" := by rfl
      rcases F64.fmt15_infinite x hf with g | g | g | g <;> rw [g] at h
      · rw [e1] at h; cases h
      · rw [e2] at h; cases h
      · rw [e3] at h; cases h
      · rw [e4] at h; cases h
    · intro h; exact absurd hf h.1
  · rw [parse_tok _ (F64.fmt15_finite x hf), F64.stod_fmt15 x hf]
    unfold F64.Exact15
    constructor
    · intro h
      refine ⟨hf, ?_⟩
      cases hr : F64.round x.neg (F64.dec15 x).1 (F64.dec15 x).2 with
      | none => rw [hr] at h; cases h
      | some y =>
        rw [hr] at h
        simp only at h
        injection h with h
        injection h with h
        rw [h]
    · intro h
      rw [h.2]

mutual

theorem exact_lossless : (v : Value) → v.Exact → v.Lossless
  | Value.nullv, _ => by simp [Value.Lossless]
  | Value.boolean _, _ => by simp [Value.Lossless]
  | Value.number x, h => by
    rw [Value.Exact] at h
    rw [Value.Lossless]
    exact (parse_fmt15_iff x).2 h
  | Value.string s, h => by
    rw [Value.Exact] at h
    rw [Value.Lossless]
    exact h
  | Value.array xs, h => by
    rw [Value.Exact] at h
    rw [Value.Lossless]
    exact elems_exact_lossless xs h
  | Value.object m, h => by
    rw [Value.Exact] at h
    rw [Value.Lossless]
    exact members_exact_lossless m h

theorem elems_exact_lossless : (xs : List Value) → elems_exact xs → elems_lossless xs
  | [], _ => by rw [elems_lossless]; trivial
  | x :: xs, h => by
    rw [elems_exact] at h
    rw [elems_lossless]
    exact ⟨exact_lossless x h.1, elems_exact_lossless xs h.2⟩

theorem members_exact_lossless : (m : List (List Char × Value)) → members_exact m →
    members_lossless m
  | [], _ => by rw [members_lossless]; trivial
  | (k, x) :: m, h => by
    rw [members_exact] at h
    rw [members_lossless]
    exact ⟨h.1, exact_lossless x h.2.1, members_exact_lossless m h.2.2⟩

end

end minijson

/-! ## The map built from the members of an object text -/

namespace minijson

open Parser

theorem object_loop_members (pv : List Char → Res (Value × List Char)) :
    ∀ (k : Nat) (obj : Map) (t : List Char),
      object_loop pv k obj t =
        match object_members pv k t with
        | .ok (ms, r) =>
          .ok (Value.object (ms.foldl (fun m kv => Map.emplace kv.1 kv.2 m) obj), r)
        | .error e => .error e
        | .fuel => .fuel := by
  intro k
  induction k with
  | zero => intro obj t; rfl
  | succ k ih =>
    intro obj t
    rw [object_loop_succ, object_members]
    cases hs : parse_string t with
    | fuel => rfl
    | error e => rfl
    | ok y0 =>
      rcases y0 with ⟨key, t1⟩
      simp only
      cases he : expect ':' (ws t1) with
      | fuel => rfl
      | error e => rfl
      | ok t2 =>
        simp only
        cases hp : pv t2 with
        | fuel => rfl
        | error e => rfl
        | ok y =>
          rcases y with ⟨val, t3⟩
          simp only
          split_ifs with h1 h2
          · rfl
          · rfl
          · rw [ih]
            cases object_members pv k (Parser.get (ws t3)).2 with
            | fuel => rfl
            | error e => rfl
            | ok z => rfl

theorem parse_object_eq_members (pv : List Char → Res (Value × List Char)) (t : List Char) :
    parse_object pv t =
      match parse_object_members pv t with
      | .ok (ms, r) => .ok (Value.object (Map.ofList ms), r)
      | .error e => .error e
      | .fuel => .fuel := by
  unfold parse_object parse_object_members
  cases he : expect '{' t with
  | fuel => rfl
  | error e => rfl
  | ok t1 =>
    simp only
    split_ifs with h1
    · rfl
    · rw [object_loop_members]
      rfl

/-- On a text that starts with an opening brace, `parse` returns the map built from
the members of the text, inserted in their order. -/
theorem parse_eq_members (text : List Char) (h : (peek (ws text)).1 = '{') :
    parse text =
      match text_members text with
      | .ok ms => .ok (Value.object (Map.ofList ms))
      | .error e => .error e
      | .fuel => .fuel := by
  unfold parse text_members
  rw [if_pos h, parse_value, if_neg (by rw [h]; decide), if_pos h, parse_object_eq_members]
  simp only [Nat.add_sub_cancel]
  cases parse_object_members (parse_value text.length) (peek (ws text)).2 with
  | fuel => rfl
  | error e => rfl
  | ok y =>
    rcases y with ⟨ms, r⟩
    simp only
    split_ifs <;> rfl

end minijson

/-! ## Pretty and compact output -/

namespace minijson

open Parser

/-- C8.  Pretty and compact output denote the same value: for every Value
`v`, `parse (stringify v true)` and `parse (stringify v false)` are the same
outcome, the same Value or the same error, and it is an outcome of the parser
proper (the recursion budget of the embedding is not exhausted). -/
theorem pretty_compact_same_parse (v : Value) :
    parse (stringify v true 0) = parse (stringify v false 0)
    ∧ parse (stringify v true 0) ≠ .fuel := by
  refine ⟨?_, parse_ne_fuel _⟩
  rw [parse_stringify, parse_stringify]

end minijson

/-! ## Round trip, duplicate keys, member order -/

namespace minijson

open Parser

theorem intercalate_cons_cons (sep a b : List Char) (l : List (List Char)) :
    List.intercalate sep (a :: b :: l) = a ++ sep ++ List.intercalate sep (b :: l) := by
  simp [List.intercalate, List.intersperse]

/-- The members of an Object are written in the order of the map, separated by commas. -/
theorem stringify_members_eq (m : List (List Char × Value)) (pretty : Bool) (lvl : Int) :
    stringify_members m pretty lvl
      = List.intercalate (',' :: ifp pretty ['\n']) (m.map (member_text pretty lvl))
        ++ (if m.isEmpty then [] else ifp pretty ['\n']) := by
  induction m with
  | nil => simp [stringify_members, List.intercalate]
  | cons kv m ih =>
    rcases kv with ⟨k, x⟩
    rw [stringify_members, ih]
    cases m with
    | nil => simp [List.intercalate, member_text]
    | cons kv2 m2 =>
      simp only [List.map_cons]
      rw [intercalate_cons_cons (',' :: ifp pretty ['\n']) (member_text pretty lvl (k, x))
        (member_text pretty lvl kv2)]
      simp [member_text]

/-- C9.  Object members are serialized in key-sorted order: every Object
inside a Value returned by `parse` holds its keys in strictly ascending
lexicographic order, whatever their order in the source text; so does every
map built by inserting entries (`Map.ofList`); and `stringify` writes the
members of an Object one after the other in the order of the map, each key
once.  For the text with keys `b`, `a` the compact output has `a` before `b`. -/
theorem object_members_key_sorted :
    (∀ (t : List Char) (v : Value), parse t = .ok v → v.KeysSorted)
    ∧ (∀ l : List (List Char × Value), Map.Sorted (Map.ofList l))
    ∧ (∀ (kv : List Char × Value) (m : Map) (pretty : Bool) (lvl : Int),
        stringify (Value.object (kv :: m)) pretty lvl
          = '{' :: (ifp pretty ['\n']
              ++ List.intercalate (',' :: ifp pretty ['\n'])
                  ((kv :: m).map (member_text pretty lvl))
              ++ ifp pretty ['\n'] ++ ifp pretty (indent lvl) ++ ['}']))
    ∧ (∃ v, parse "\x7b\"b\":true,\"a\":null\x7d".toList = .ok v
        ∧ stringify v false 0 = "\x7b\"a\":null,\"b\":true\x7d".toList) := by
  refine ⟨parse_sorted, Map.sorted_ofList, ?_, ?_⟩
  · intro kv m pretty lvl
    rw [stringify, stringify_members_eq]
    simp
  · exact ⟨Value.object [("a".toList, Value.nullv), ("b".toList, Value.boolean true)],
      by rfl, by rfl⟩

/-- C2, counterexample.  The text with the key `k` twice, values 1 and 2,
parses to the Object with the single key `k` mapped to 1, not to 2. -/
theorem duplicate_key_counterexample :
    parse "\x7b\"k\":1,\"k\":2\x7d".toList
      = .ok (Value.object [("k".toList, Value.number (F64.ofNat 1))])
    ∧ F64.ofNat 1 ≠ F64.ofNat 2 := by
  exact ⟨by rfl, by decide⟩

/-- C2, amended.  Duplicate keys: for every object text, whatever its layout,
that is read as the members `ms` (in the order of the text, keys as `parse_string`
returns them, keys possibly repeated), `parse` succeeds, and for every key `k` of
`ms` the resulting Object has exactly one entry for `k`, mapped to the value of the
first occurrence of `k` in the text: the insertion `emplace` leaves an existing
entry unchanged. -/
theorem duplicate_key_first_wins (text : List Char) (ms : List (List Char × Value))
    (hm : text_members text = .ok ms) (k : List Char) (x : Value)
    (hk : Map.find k ms = some x) :
    ∃ o, parse text = .ok (Value.object o)
      ∧ Map.find k o = some x
      ∧ (o.filter (fun kv => decide (kv.1 = k))).length = 1 := by
  have hb : (peek (ws text)).1 = '{' := by
    by_contra hne
    unfold text_members at hm
    rw [if_neg hne] at hm
    cases hm
  refine ⟨Map.ofList ms, ?_, ?_, ?_⟩
  · rw [parse_eq_members text hb, hm]
  · rw [Map.find_ofList]; exact hk
  · exact Map.count_key k x _ (Map.sorted_ofList ms) (by rw [Map.find_ofList]; exact hk)

set_option maxRecDepth 20000 in
theorem dup_text_members :
    text_members dup_text = .ok [
      ("k".toList, Value.number (F64.ofNat 1)),
      ("a/b".toList, Value.array []),
      ("k".toList, Value.number (F64.ofNat 2)),
      ("a/b".toList, Value.boolean true),
      ("?".toList, Value.nullv),
      ("k".toList, Value.object [("k".toList, Value.number (F64.ofNat 3))])] := by
  rfl

/-- Witness of C2 (amended): a text with blanks and line breaks in which the key `k`
appears three times and the key `a/b` twice, once written with an escaped slash;
the Object returned maps `k` to 1, the value of its first occurrence, and holds
`k` once. -/
theorem duplicate_key_first_wins_witness :
    ∃ o, parse dup_text = .ok (Value.object o)
      ∧ Map.find "k".toList o = some (Value.number (F64.ofNat 1))
      ∧ (o.filter (fun kv => decide (kv.1 = "k".toList))).length = 1 :=
  duplicate_key_first_wins dup_text _ dup_text_members "k".toList
    (Value.number (F64.ofNat 1)) (by rfl)

end minijson

/-! ## Key lookup and container layout -/

namespace minijson

open Parser

theorem find_isSome_iff (k : List Char) (m : Map) :
    (Map.find k m).isSome = true ↔ k ∈ m.map Prod.fst := by
  induction m with
  | nil => simp [Map.find]
  | cons a m ih =>
    rcases a with ⟨k1, v1⟩
    rw [Map.find]
    by_cases h : k1 = k
    · simp [h]
    · have h2 : ¬ k = k1 := fun e => h e.symm
      simp [h, h2, ih]

/-- C12.  Key lookup: for every Value `v` and key `k`, `has k` is a total Boolean
function that is true exactly when `k` is a key of the object mapping of `v`;
when `has k` is true, `at k` returns a child that the mapping holds under `k`, and
when `has k` is false, `at k` raises the error `missing key: k` and returns no
value. -/
theorem key_lookup (v : Value) (k : List Char) :
    (v.has k = true ↔ k ∈ v.o.map Prod.fst)
    ∧ (v.has k = true → ∃ x, v.«at» k = .ok x ∧ (k, x) ∈ v.o)
    ∧ (v.has k = false → v.«at» k = .error ("missing key: " ++ String.mk k)) := by
  refine ⟨find_isSome_iff k v.o, ?_, ?_⟩
  · intro h
    unfold Value.has at h
    cases hf : Map.find k v.o with
    | none => rw [hf] at h; simp at h
    | some x =>
      refine ⟨x, ?_, Map.find_mem k x _ hf⟩
      unfold Value.«at»
      rw [hf]
  · intro h
    unfold Value.has at h
    cases hf : Map.find k v.o with
    | none =>
      unfold Value.«at»
      rw [hf]
    | some x => rw [hf] at h; simp at h

/-- C15.  Empty containers serialize without whitespace: for every pretty flag
and every indent level, `stringify` writes the empty Array as exactly `[]` and the
empty Object as exactly `{}`; the same two characters are written where the empty
container is an element of an Array or the value of a member, between the
indentation (or key) in front of it and the comma or newline behind it, as in
`[\n  [],\n  {}\n]`. -/
theorem empty_containers (pretty : Bool) (lvl : Int) :
    stringify (Value.array []) pretty lvl = ['[', ']']
    ∧ stringify (Value.object []) pretty lvl = ['{', '}']
    ∧ (∀ ys : List Value, stringify_elems (Value.array [] :: ys) pretty lvl
        = ifp pretty (indent (lvl + 2)) ++ ['[', ']'] ++ (if ys.isEmpty then [] else [','])
          ++ ifp pretty ['\n'] ++ stringify_elems ys pretty lvl)
    ∧ (∀ ys : List Value, stringify_elems (Value.object [] :: ys) pretty lvl
        = ifp pretty (indent (lvl + 2)) ++ ['{', '}'] ++ (if ys.isEmpty then [] else [','])
          ++ ifp pretty ['\n'] ++ stringify_elems ys pretty lvl)
    ∧ (∀ (k : List Char) (m : List (List Char × Value)),
        stringify_members ((k, Value.array []) :: m) pretty lvl
        = ifp pretty (indent (lvl + 2)) ++ '"' :: (esc k ++ ['"', ':']) ++ ifp pretty [' ']
          ++ ['[', ']'] ++ (if m.isEmpty then [] else [',']) ++ ifp pretty ['\n']
          ++ stringify_members m pretty lvl)
    ∧ (∀ (k : List Char) (m : List (List Char × Value)),
        stringify_members ((k, Value.object []) :: m) pretty lvl
        = ifp pretty (indent (lvl + 2)) ++ '"' :: (esc k ++ ['"', ':']) ++ ifp pretty [' ']
          ++ ['{', '}'] ++ (if m.isEmpty then [] else [',']) ++ ifp pretty ['\n']
          ++ stringify_members m pretty lvl)
    ∧ stringify (Value.array [Value.array [], Value.object []]) true 0
        = "[\n  [],\n  \x7b\x7d\n]".toList
    ∧ stringify (Value.object [("a".toList, Value.array []), ("b".toList, Value.object [])])
        true 0 = "\x7b\n  \"a\": [],\n  \"b\": \x7b\x7d\n\x7d".toList := by
  refine ⟨?_, ?_, ?_, ?_, ?_, ?_, ?_, ?_⟩
  · rw [stringify]
  · rw [stringify]
  · intro ys
    rw [stringify_elems, stringify]
  · intro ys
    rw [stringify_elems, stringify]
  · intro k m
    rw [stringify_members, stringify]
  · intro k m
    rw [stringify_members, stringify]
  · rfl
  · rfl

theorem stringify_elems_compact (x : Value) (xs : List Value) (lvl : Int) :
    stringify_elems (x :: xs) false lvl
      = List.intercalate [','] ((x :: xs).map (fun y => stringify y false (lvl + 2))) := by
  induction xs generalizing x with
  | nil => simp [stringify_elems, ifp, List.intercalate]
  | cons y ys ih =>
    rw [stringify_elems, ih y]
    simp only [List.map_cons]
    rw [intercalate_cons_cons]
    simp [ifp]

theorem stringify_elems_pretty (x : Value) (xs : List Value) (L : Nat) :
    stringify_elems (x :: xs) true (L : Int)
      = spec_layout_lines (L + 2) ((x :: xs).map (fun y => stringify y true ((L : Int) + 2))) := by
  have hi : indent ((L : Int) + 2) = List.replicate (L + 2) ' ' := by
    unfold indent
    congr 1
  induction xs generalizing x with
  | nil => simp [stringify_elems, ifp, spec_layout_lines, hi]
  | cons y ys ih =>
    rw [stringify_elems, ih y]
    simp only [List.map_cons, spec_layout_lines]
    rw [hi]
    simp [ifp]

theorem stringify_members_compact (kv : List Char × Value) (m : List (List Char × Value))
    (L : Nat) :
    stringify_members (kv :: m) false (L : Int)
      = List.intercalate [','] ((kv :: m).map (spec_member false L)) := by
  induction m generalizing kv with
  | nil =>
    rcases kv with ⟨k, x⟩
    simp [stringify_members, ifp, List.intercalate, spec_member]
  | cons y ys ih =>
    rcases kv with ⟨k, x⟩
    rw [stringify_members, ih y]
    simp only [List.map_cons]
    rw [intercalate_cons_cons]
    simp [ifp, spec_member]

theorem stringify_members_pretty (kv : List Char × Value) (m : List (List Char × Value))
    (L : Nat) :
    stringify_members (kv :: m) true (L : Int)
      = spec_layout_lines (L + 2) ((kv :: m).map (spec_member true L)) := by
  have hi : indent ((L : Int) + 2) = List.replicate (L + 2) ' ' := by
    unfold indent
    congr 1
  induction m generalizing kv with
  | nil =>
    rcases kv with ⟨k, x⟩
    simp [stringify_members, ifp, spec_layout_lines, spec_member, hi]
  | cons y ys ih =>
    rcases kv with ⟨k, x⟩
    rw [stringify_members, ih y]
    simp only [List.map_cons, spec_layout_lines]
    rw [hi]
    simp [ifp, spec_member]

/-- C16.  Container layout: for every non-empty Array serialized at indent level
`L`, the compact output is `[`, the compact texts of the elements joined by `,`,
and `]`; the pretty output is `[` and a newline, then for each element `L + 2`
spaces, its pretty text at level `L + 2`, a `,` unless it is the last, and a
newline, then `L` spaces and `]`.  Objects follow the same layout between `{` and
`}` with each member written as the escaped quoted key, `:` (compact) or `: `
(pretty), and the value.  The Object with key `a` mapped to `[true, null]` is
written pretty as in the example of the claim. -/
theorem container_layout (pretty : Bool) (L : Nat) :
    (∀ (x : Value) (xs : List Value),
      stringify (Value.array (x :: xs)) pretty (L : Int)
        = spec_layout '[' ']' pretty L
            ((x :: xs).map (fun y => stringify y pretty ((L : Int) + 2))))
    ∧ (∀ (kv : List Char × Value) (m : List (List Char × Value)),
      stringify (Value.object (kv :: m)) pretty (L : Int)
        = spec_layout '{' '}' pretty L ((kv :: m).map (spec_member pretty L)))
    ∧ stringify layout_doc true 0 = "\x7b\n  \"a\": [\n    true,\n    null\n  ]\n\x7d".toList := by
  have hi : indent (L : Int) = List.replicate L ' ' := by
    unfold indent
    congr 1
  refine ⟨?_, ?_, by rfl⟩
  · intro x xs
    cases pretty with
    | false =>
      rw [stringify, stringify_elems_compact]
      simp [spec_layout, ifp]
    | true =>
      rw [stringify, stringify_elems_pretty, hi]
      simp [spec_layout, ifp]
  · intro kv m
    cases pretty with
    | false =>
      rw [stringify, stringify_members_compact]
      simp [spec_layout, ifp]
    | true =>
      rw [stringify, stringify_members_pretty, hi]
      simp [spec_layout, ifp]

end minijson

/-! ## The payload of the agent -/

namespace inventory

open minijson

theorem isDisk_disk_value (d : platforminfo.DiskInfo) : IsDisk (disk_value d) := by
  unfold IsDisk HasString HasNumber disk_value
  simp only [Value.o, Map.find_ofList]
  refine ⟨rfl, ⟨_, rfl⟩, ⟨_, rfl⟩, ⟨_, rfl⟩⟩

theorem isAssetRecord_payload (hash : List Char → Nat) (p : platforminfo.Host)
    (agent_version : List Char) :
    IsAssetRecord (build_asset_payload hash p agent_version) := by
  unfold IsAssetRecord HasString HasNumber build_asset_payload
  simp only [Value.o, Map.find_ofList]
  refine ⟨rfl, ⟨_, rfl⟩, ⟨_, rfl⟩, ⟨_, rfl⟩, ⟨_, rfl⟩, ⟨_, rfl⟩, ⟨_, rfl⟩, ⟨_, rfl⟩, ⟨_, rfl⟩,
    ⟨_, rfl, ?_⟩⟩
  intro d hd
  rcases List.mem_map.1 hd with ⟨x, _, rfl⟩
  exact isDisk_disk_value x

/-- C20.  Every payload the agent builds passes its own schema: for every host
name, OS name, CPU model, core count, RAM size, list of disks and timestamp
answered by the platform layer, every hash function and every `agent_version`,
`validate_asset_schema` returns `(true, "")` on the Value assembled by
`build_asset_payload`, so the schema gate of the agent never takes the branch
`payload schema invalid`. -/
theorem payload_passes_schema (hash : List Char → Nat) (p : platforminfo.Host)
    (agent_version : List Char) :
    validate_asset_schema (build_asset_payload hash p agent_version) = .ok (true, "")
    ∧ schema_gate (build_asset_payload hash p agent_version) = .ok none := by
  have h : validate_asset_schema (build_asset_payload hash p agent_version) = .ok (true, "") := by
    rw [validate_eq, (first_failure_ok_iff _).2 ((spec_checks_iff _).2
      (isAssetRecord_payload hash p agent_version))]
  refine ⟨h, ?_⟩
  unfold schema_gate
  rw [h]

end inventory

/-! ## The validator returns for every Value -/

namespace inventory

open minijson

theorem check_req_str_total (v : Value) (ks : List String) :
    ∃ r, check_req_str v ks = .ok r := by
  induction ks with
  | nil => exact ⟨none, rfl⟩
  | cons k ks ih =>
    unfold check_req_str
    rw [lacks_eq]
    cases holds v k Value.is_string
    · exact ⟨_, rfl⟩
    · exact ih

theorem lacks_guard (d : Value) (k : String) (p : Value → Bool) :
    (d.has k.toList = true → ∃ x, d.«at» k.toList = .ok x ∧ lacks d k p = .ok (!p x))
    ∧ (d.has k.toList = false → lacks d k p = .ok true) := by
  unfold lacks Value.has Value.«at»
  cases h : Map.find k.toList d.o with
  | none => simp
  | some x => simp

/-- C21.  The validator is total and never raises the lookup error: for every
Value `v`, of any variant and nesting, `validate_asset_schema v` returns a pair of
a flag and a reason, no exception.  Every test `!d.has(k) || !p(d.at(k))` calls
`at` only after `has` answered true, and then `at` returns a child; when `has`
answers false the test is true without any lookup.  The loops over the required
keys and over the disks return for every list, and the `at("disks")` that opens
the loop over the disks follows a passed test that `disks` is present and an
Array.  A root that is no Object, the empty Object, a mistyped `disks` field and
disk elements that are no Objects are all answered with `false` and a reason. -/
theorem validator_total (v : Value) :
    (∃ b why, validate_asset_schema v = .ok (b, why))
    ∧ (∀ (d : Value) (k : String) (p : Value → Bool),
        (d.has k.toList = true → ∃ x, d.«at» k.toList = .ok x ∧ lacks d k p = .ok (!p x))
        ∧ (d.has k.toList = false → lacks d k p = .ok true))
    ∧ (∀ ks : List String, ∃ r, check_req_str v ks = .ok r)
    ∧ (∀ ds : List Value, ∃ r, check_disks ds = .ok r)
    ∧ (lacks v "disks" Value.is_array = .ok false →
        ∃ ds, v.«at» "disks".toList = .ok (Value.array ds))
    ∧ validate_asset_schema Value.nullv = .ok (false, "root bukan object")
    ∧ validate_asset_schema (Value.array [sample_doc]) = .ok (false, "root bukan object")
    ∧ validate_asset_schema (Value.object []) = .ok (false, "field string wajib: asset_id")
    ∧ validate_asset_schema sample_doc_mistyped = .ok (false, "field array wajib: disks")
    ∧ validate_asset_schema sample_doc_bad_disk = .ok (false, "disk item bukan object") := by
  refine ⟨⟨_, _, validate_eq v⟩, lacks_guard, check_req_str_total v,
    fun ds => ⟨_, check_disks_eq ds⟩, ?_, by rfl, by rfl, by rfl, by rfl, by rfl⟩
  intro h
  rw [lacks_eq] at h
  unfold holds at h
  unfold Value.«at»
  cases hf : Map.find "disks".toList v.o with
  | none => rw [hf] at h; simp at h
  | some x =>
    rw [hf] at h
    cases x <;> simp [Value.is_array] at h
    exact ⟨_, rfl⟩

end inventory

/-! ## Compact output has no control character -/

namespace minijson

open Parser

theorem printable_nil : Printable [] := by
  intro c hc
  simp at hc

theorem printable_append (a b : List Char) (ha : Printable a) (hb : Printable b) :
    Printable (a ++ b) := by
  intro c hc
  rcases List.mem_append.1 hc with h | h
  · exact ha c h
  · exact hb c h

theorem printable_cons (c : Char) (s : List Char) (hc : 32 ≤ c.toNat) (hs : Printable s) :
    Printable (c :: s) := by
  intro d hd
  rcases List.mem_cons.1 hd with h | h
  · rw [h]; exact hc
  · exact hs d h

theorem printable_digits (ds : List Char) (h : Digits ds) : Printable ds := by
  intro c hc
  have h1 := h c hc
  unfold isdigit at h1
  simp at h1
  omega

theorem printable_esc_char (c : Char) : Printable (esc_char c) := by
  unfold esc_char
  split_ifs with h1 h2 h3 h4 h5 h6 h7 h8
  all_goals first
    | (intro d hd; simp at hd; rcases hd with rfl | rfl <;> decide)
    | (intro d hd; simp at hd; rw [hd]; first | decide | omega)

theorem printable_esc (s : List Char) : Printable (esc s) := by
  induction s with
  | nil => exact printable_nil
  | cons c s ih =>
    rw [esc]
    exact printable_append _ _ (printable_esc_char c) ih

theorem printable_numTok (a : List Char) (h : NumTok a) : Printable a := by
  rcases h with ⟨sg, ip, fd, ex, rfl, hsg, hip, _, hfd, hex⟩
  refine printable_append _ _ ?_ (printable_append _ _ (printable_digits _ hip)
    (printable_append _ _ ?_ ?_))
  · rcases hsg with rfl | rfl
    · exact printable_nil
    · intro c hc; simp at hc; rw [hc]; decide
  · cases fd with
    | nil => exact printable_nil
    | cons d fd => exact printable_cons _ _ (by decide) (printable_digits _ hfd)
  · rcases hex with rfl | ⟨s, ed, rfl, hs, hed, _⟩
    · exact printable_nil
    · refine printable_cons _ _ (by decide) (printable_cons _ _ ?_ (printable_digits _ hed))
      rcases hs with rfl | rfl <;> decide

theorem printable_fmt15 (x : F64) : Printable (F64.fmt15 x) := by
  rcases F64.fmt15_shape x with h | h | h | h | h
  · rw [h]; intro c hc; revert c; decide
  · rw [h]; intro c hc; revert c; decide
  · rw [h]; intro c hc; revert c; decide
  · rw [h]; intro c hc; revert c; decide
  · exact printable_numTok _ h

mutual

theorem printable_stringify (v : Value) (lvl : Int) : Printable (stringify v false lvl) := by
  cases v with
  | nullv => rw [stringify]; decide
  | boolean b => cases b <;> (rw [stringify]; decide)
  | number x => rw [stringify]; exact printable_fmt15 x
  | string s =>
    rw [stringify]
    exact printable_cons _ _ (by decide)
      (printable_append _ _ (printable_esc s) (by decide))
  | array xs =>
    cases xs with
    | nil => rw [stringify]; decide
    | cons x xs =>
      rw [stringify]
      refine printable_cons _ _ (by decide) ?_
      refine printable_append _ _ (printable_append _ _ (printable_append _ _ ?_ ?_) ?_) ?_
      · exact printable_nil
      · exact printable_stringify_elems (x :: xs) lvl
      · exact printable_nil
      · decide
  | object m =>
    cases m with
    | nil => rw [stringify]; decide
    | cons kv m =>
      rw [stringify]
      refine printable_cons _ _ (by decide) ?_
      refine printable_append _ _ (printable_append _ _ (printable_append _ _ ?_ ?_) ?_) ?_
      · exact printable_nil
      · exact printable_stringify_members (kv :: m) lvl
      · exact printable_nil
      · decide

theorem printable_stringify_elems (xs : List Value) (lvl : Int) :
    Printable (stringify_elems xs false lvl) := by
  cases xs with
  | nil => rw [stringify_elems]; exact printable_nil
  | cons x xs =>
    rw [stringify_elems]
    refine printable_append _ _ (printable_append _ _ (printable_append _ _
      (printable_append _ _ printable_nil (printable_stringify x _)) ?_) printable_nil)
      (printable_stringify_elems xs lvl)
    split_ifs
    · exact printable_nil
    · decide

theorem printable_stringify_members (m : List (List Char × Value)) (lvl : Int) :
    Printable (stringify_members m false lvl) := by
  cases m with
  | nil => rw [stringify_members]; exact printable_nil
  | cons kv m =>
    rcases kv with ⟨k, x⟩
    rw [stringify_members]
    refine printable_append _ _ (printable_append _ _ (printable_append _ _
      (printable_append _ _ (printable_append _ _ (printable_append _ _ printable_nil ?_)
        printable_nil) (printable_stringify x _)) ?_) printable_nil)
      (printable_stringify_members m lvl)
    · exact printable_cons _ _ (by decide) (printable_append _ _ (printable_esc k) (by decide))
    · split_ifs
      · exact printable_nil
      · decide

end

/-- C19.  Compact output is a single line: for every Value `v` (and every indent
level), no character of `stringify v false` is below `0x20`; in particular none is
a newline or a carriage return. -/
theorem compact_no_control_char (v : Value) (lvl : Int) :
    ∀ c ∈ stringify v false lvl, 32 ≤ c.toNat ∧ c ≠ '\n' ∧ c ≠ '\r' := by
  intro c hc
  have h := printable_stringify v lvl c hc
  refine ⟨h, ?_, ?_⟩
  · rintro rfl
    revert h
    decide
  · rintro rfl
    revert h
    decide

/-- Witness of C19: the String of `a`, a newline and `b` is written on one line, as
`"a\nb"` with the two-character escape, and its character `n` is no control
character. -/
theorem compact_no_control_char_witness :
    stringify (Value.string "a\nb".toList) false 0 = "\"a\\nb\"".toList
    ∧ (32 ≤ ('n' : Char).toNat ∧ 'n' ≠ '\n' ∧ 'n' ≠ '\r') :=
  ⟨by rfl, compact_no_control_char (Value.string "a\nb".toList) 0 'n' (by decide)⟩

end minijson

/-! ## Unicode escapes and unterminated strings -/

namespace minijson

open Parser

theorem string_loop_plain_append (p out r : List Char)
    (h : ∀ c ∈ p, c ≠ '"' ∧ c ≠ '\\') :
    string_loop .normal out (p ++ r) = string_loop .normal (out ++ p) r := by
  induction p generalizing out with
  | nil => simp
  | cons c p ih =>
    have hc := h c (List.mem_cons_self _ _)
    rw [List.cons_append, string_loop]
    simp only [hc.1, hc.2, if_false]
    rw [ih _ (fun d hd => h d (List.mem_cons_of_mem _ hd))]
    simp

theorem string_loop_hex_ok (out r : List Char) (a b c d : Char)
    (ha : isxdigit a = true) (hb : isxdigit b = true) (hc : isxdigit c = true)
    (hd : isxdigit d = true) :
    string_loop (.hex 3) out (a :: b :: c :: d :: r) = string_loop .normal (out ++ ['?']) r := by
  rw [string_loop, if_pos ha, string_loop, if_pos hb, string_loop, if_pos hc]
  rw [string_loop, if_pos hd]

theorem string_loop_hex_bad (out t : List Char) (h : hex4 t = false) :
    string_loop (.hex 3) out t = .error "bad \\u escape" := by
  rcases t with _ | ⟨a, _ | ⟨b, _ | ⟨c, _ | ⟨d, r⟩⟩⟩⟩
  · rw [string_loop]
  · rw [string_loop]; split_ifs
    · rw [string_loop]
    · rfl
  · rw [string_loop]; split_ifs
    · rw [string_loop]; split_ifs
      · rw [string_loop]
      · rfl
    · rfl
  · rw [string_loop]; split_ifs
    · rw [string_loop]; split_ifs
      · rw [string_loop]; split_ifs
        · rw [string_loop]
        · rfl
      · rfl
    · rfl
  · simp only [hex4, Bool.and_eq_false_iff] at h
    rw [string_loop]; split_ifs with h1
    · rw [string_loop]; split_ifs with h2
      · rw [string_loop]; split_ifs with h3
        · rw [string_loop]; split_ifs with h4
          · rcases h with ((h | h) | h) | h <;> simp_all
          · rfl
        · rfl
      · rfl
    · rfl

theorem string_loop_u (out t : List Char) :
    string_loop .normal out ('\\' :: 'u' :: t) = string_loop (.hex 3) out t := by
  rw [string_loop]
  simp only [show ('\\' : Char) ≠ '"' by decide, if_false, if_true]
  rw [string_loop]
  rfl

theorem parse_quote (t : List Char) :
    parse ('"' :: t) =
      match string_loop .normal [] t with
      | .ok (s, r) =>
        if ws r ≠ [] ∧ (ws r).any (fun c => !isspace c) then .error "trailing data"
        else .ok (Value.string s)
      | .error e => .error e
      | .fuel => .fuel := by
  unfold parse
  rw [List.length_cons, parse_value_head _ _ _ (by decide), if_pos rfl]
  unfold parse_string
  rw [ws_cons _ _ (by decide)]
  simp only [Parser.get, ne_eq, not_true_eq_false, if_false]
  cases string_loop .normal [] t with
  | ok x => rfl
  | error e => rfl
  | fuel => rfl

/-- C11.  Unicode escapes collapse to `?`: for every `p` and `q` free of `"` and
of the backslash and all hexadecimal digits `h1 h2 h3 h4`, `parse` of the string
literal `"p\uh1h2h3h4q"` returns the String `p ++ "?" ++ q`; and when the text
after `\u` does not start with four hexadecimal digits (one of the four characters
is no hexadecimal digit, or the input ends before the fourth), `parse` fails with
`bad \u escape`, whatever follows. -/
theorem unicode_escape_collapses (p : List Char) (hp : ∀ c ∈ p, c ≠ '"' ∧ c ≠ '\\') :
    (∀ (q : List Char) (h1 h2 h3 h4 : Char), (∀ c ∈ q, c ≠ '"' ∧ c ≠ '\\') →
      isxdigit h1 = true → isxdigit h2 = true → isxdigit h3 = true → isxdigit h4 = true →
      parse ('"' :: (p ++ '\\' :: 'u' :: h1 :: h2 :: h3 :: h4 :: (q ++ ['"'])))
        = .ok (Value.string (p ++ '?' :: q)))
    ∧ (∀ t : List Char, hex4 t = false →
      parse ('"' :: (p ++ '\\' :: 'u' :: t)) = .error "bad \\u escape") := by
  constructor
  · intro q h1 h2 h3 h4 hq x1 x2 x3 x4
    rw [parse_quote, string_loop_plain_append p _ _ hp, string_loop_u,
      string_loop_hex_ok _ _ _ _ _ _ x1 x2 x3 x4, string_loop_plain_append q _ _ hq,
      string_loop]
    simp [ws]
  · intro t ht
    rw [parse_quote, string_loop_plain_append p _ _ hp, string_loop_u,
      string_loop_hex_bad _ _ ht]

/-- Witness of C11: `"a\u00e9b"` parses to the String `a?b`; with `g` in place of
a hexadecimal digit, and with the input ending after two digits, `parse` fails. -/
theorem unicode_escape_collapses_witness :
    parse "\"a\\u00e9b\"".toList = .ok (Value.string "a?b".toList)
    ∧ parse "\"a\\u00g9b\"".toList = .error "bad \\u escape"
    ∧ parse "\"a\\u00".toList = .error "bad \\u escape" :=
  have h := unicode_escape_collapses ['a'] (by decide)
  ⟨h.1 ['b'] '0' '0' 'e' '9' (by decide) (by decide) (by decide) (by decide) (by decide),
   h.2 "00g9b\"".toList (by decide), h.2 "00".toList (by decide)⟩

/-- C14.  Whitespace after the value is not always ignored: for every `s` free
of `"` and of the backslash, the text of an opening quote followed by `s` is
accepted by `parse` as the String `s` (the unterminated literal of C4), and with
non-empty whitespace `w` (space, tab, newline, carriage return) behind it `parse`
returns the String `s ++ w`, another Value: the whitespace is read into the
string. -/
theorem trailing_space_joins_string (s w : List Char)
    (hs : ∀ c ∈ s, c ≠ '"' ∧ c ≠ '\\')
    (hw : ∀ c ∈ w, c = ' ' ∨ c = '\t' ∨ c = '\n' ∨ c = '\r') (hne : w ≠ []) :
    parse ('"' :: s) = .ok (Value.string s)
    ∧ parse ('"' :: s ++ w) = .ok (Value.string (s ++ w))
    ∧ Value.string (s ++ w) ≠ Value.string s := by
  have hsw : ∀ c ∈ s ++ w, c ≠ '"' ∧ c ≠ '\\' := by
    intro c hc
    rcases List.mem_append.1 hc with h | h
    · exact hs c h
    · rcases hw c h with rfl | rfl | rfl | rfl <;> decide
  refine ⟨?_, ?_, ?_⟩
  · rw [parse_quote, string_loop_plain s [] hs]
    simp [ws]
  · rw [List.cons_append, parse_quote, string_loop_plain _ [] hsw]
    simp [ws]
  · intro h
    injection h with h
    have := congrArg List.length h
    simp at this
    exact hne this

/-- Witness of C14: `"abc` parses to the String `abc`, `"abc ` to the String `abc `
with the blank. -/
theorem trailing_space_joins_string_witness :
    parse "\"abc".toList = .ok (Value.string "abc".toList)
    ∧ parse "\"abc ".toList = .ok (Value.string "abc ".toList)
    ∧ Value.string "abc ".toList ≠ Value.string "abc".toList :=
  trailing_space_joins_string "abc".toList " ".toList (by decide) (by decide) (by decide)

end minijson

/-! ## The depth budget, whitespace and number tokens -/

namespace minijson

open Parser

theorem array_loop_mono (pv1 pv2 : List Char → Res (Value × List Char))
    (hpv : ∀ t, pv1 t ≠ .fuel → pv2 t = pv1 t) :
    ∀ (k : Nat) (arr : List Value) (t : List Char),
      array_loop pv1 k arr t ≠ .fuel → array_loop pv2 k arr t = array_loop pv1 k arr t := by
  intro k
  induction k with
  | zero => intro arr t h; exact absurd rfl h
  | succ k ih =>
    intro arr t h
    rw [array_loop_succ] at h ⊢
    rw [array_loop_succ]
    cases hp : pv1 t with
    | fuel => rw [hp] at h; exact absurd rfl h
    | error e => rw [hpv t (by rw [hp]; simp), hp]
    | ok x =>
      rcases x with ⟨v, t1⟩
      rw [hpv t (by rw [hp]; simp), hp]
      rw [hp] at h
      simp only at h ⊢
      split_ifs at h ⊢ with h1 h2
      · rfl
      · rfl
      · exact ih _ _ h

theorem object_loop_mono (pv1 pv2 : List Char → Res (Value × List Char))
    (hpv : ∀ t, pv1 t ≠ .fuel → pv2 t = pv1 t) :
    ∀ (k : Nat) (obj : Map) (t : List Char),
      object_loop pv1 k obj t ≠ .fuel → object_loop pv2 k obj t = object_loop pv1 k obj t := by
  intro k
  induction k with
  | zero => intro arr t h; exact absurd rfl h
  | succ k ih =>
    intro obj t h
    rw [object_loop_succ] at h ⊢
    rw [object_loop_succ]
    cases hs : parse_string t with
    | fuel => rfl
    | error e => rfl
    | ok x =>
      rcases x with ⟨key, t1⟩
      rw [hs] at h
      simp only at h ⊢
      cases he : expect ':' (ws t1) with
      | fuel => rfl
      | error e => rfl
      | ok t2 =>
        rw [he] at h
        simp only at h ⊢
        cases hp : pv1 t2 with
        | fuel => rw [hp] at h; exact absurd rfl h
        | error e => rw [hpv t2 (by rw [hp]; simp), hp]
        | ok y =>
          rcases y with ⟨val, t3⟩
          rw [hpv t2 (by rw [hp]; simp), hp]
          rw [hp] at h
          simp only at h ⊢
          split_ifs at h ⊢ with h1 h2
          · rfl
          · rfl
          · exact ih _ _ h

theorem parse_array_mono (pv1 pv2 : List Char → Res (Value × List Char))
    (hpv : ∀ t, pv1 t ≠ .fuel → pv2 t = pv1 t) (t : List Char)
    (h : parse_array pv1 t ≠ .fuel) : parse_array pv2 t = parse_array pv1 t := by
  unfold parse_array at h ⊢
  cases he : expect '[' t with
  | fuel => rfl
  | error e => rfl
  | ok t1 =>
    rw [he] at h
    simp only at h ⊢
    split_ifs at h ⊢ with h1
    · rfl
    · exact array_loop_mono pv1 pv2 hpv _ _ _ h

theorem parse_object_mono (pv1 pv2 : List Char → Res (Value × List Char))
    (hpv : ∀ t, pv1 t ≠ .fuel → pv2 t = pv1 t) (t : List Char)
    (h : parse_object pv1 t ≠ .fuel) : parse_object pv2 t = parse_object pv1 t := by
  unfold parse_object at h ⊢
  cases he : expect '{' t with
  | fuel => rfl
  | error e => rfl
  | ok t1 =>
    rw [he] at h
    simp only at h ⊢
    split_ifs at h ⊢ with h1
    · rfl
    · exact object_loop_mono pv1 pv2 hpv _ _ _ h

theorem parse_value_succ : ∀ (n : Nat) (t : List Char), parse_value n t ≠ .fuel →
    parse_value (n + 1) t = parse_value n t := by
  intro n
  induction n with
  | zero => intro t h; exact absurd rfl h
  | succ n ih =>
    intro t h
    rw [parse_value] at h ⊢
    rw [parse_value]
    split_ifs at h ⊢ with h1 h2 h3 h4 h5 h6 h7
    · rfl
    · exact parse_object_mono _ _ ih _ h
    · exact parse_array_mono _ _ ih _ h
    · rfl
    · rfl
    · rfl
    · rfl
    · rfl

theorem parse_value_add (n m : Nat) (t : List Char) (h : parse_value n t ≠ .fuel) :
    parse_value (n + m) t = parse_value n t := by
  induction m with
  | zero => rfl
  | succ m ih =>
    rw [← Nat.add_assoc, parse_value_succ _ _ (by rw [ih]; exact h), ih]

/-- Every depth budget above the length of the text gives the result of `parse`. -/
theorem parse_value_budget (n : Nat) (t : List Char) (h : t.length < n) :
    parse_value n t = parse_value (t.length + 1) t := by
  obtain ⟨m, rfl⟩ : ∃ m, n = t.length + 1 + m := ⟨n - (t.length + 1), by omega⟩
  exact parse_value_add _ _ _ (parse_value_ne_fuel _ _ (Nat.lt_succ_self _))

/-- Leading whitespace does not change the result of `parse`. -/
theorem parse_space (w t : List Char) (hw : AllSpace w) : parse (w ++ t) = parse t := by
  unfold parse
  rw [parse_value_space _ w t hw, parse_value_budget ((w ++ t).length + 1) t
    (by rw [List.length_append]; omega)]

/-- C17.  Number tokens outside the grammar are accepted: the texts `1.`, `1e`,
`1e+` and `-.5` do not match the number grammar of the specification
(`spec_number`), and `parse` returns a Number for each of them (1, 1, 1 and
-0.5): the scanner loops of `parse_number` accept an empty run of digits and
`std::stod` converts the longest valid prefix.  The lone `-` is rejected with
`bad number`, as claimed. -/
theorem malformed_numbers_accepted :
    (spec_number "1.".toList = false ∧ parse "1.".toList = .ok (Value.number (F64.ofNat 1)))
    ∧ (spec_number "1e".toList = false ∧ parse "1e".toList = .ok (Value.number (F64.ofNat 1)))
    ∧ (spec_number "1e+".toList = false
        ∧ parse "1e+".toList = .ok (Value.number (F64.ofNat 1)))
    ∧ (spec_number "-.5".toList = false
        ∧ parse "-.5".toList = .ok (Value.number ⟨0xBFE0000000000000⟩))
    ∧ (spec_number "-".toList = false ∧ parse "-".toList = .error "bad number")
    ∧ (spec_number "-12.5e+3".toList = true ∧ spec_number "42".toList = true) := by
  refine ⟨⟨by rfl, by rfl⟩, ⟨by rfl, by rfl⟩, ⟨by rfl, by rfl⟩, ⟨by rfl, by rfl⟩,
    ⟨by rfl, by rfl⟩, ⟨by rfl, by rfl⟩⟩

theorem isspace_iff (c : Char) : isspace c = true ↔ c ∈ isspace_chars := by
  unfold isspace isspace_chars
  simp only [List.mem_cons, List.mem_singleton, List.not_mem_nil, or_false, Bool.or_eq_true,
    beq_iff_eq, Bool.and_eq_true, decide_eq_true_eq]
  constructor
  · intro h
    have hc : ∀ d : Char, c.toNat = d.toNat → c = d := fun d hd => char_toNat_inj _ _ hd
    have h6 : c.toNat = 32 ∨ c.toNat = 9 ∨ c.toNat = 10 ∨ c.toNat = 11 ∨ c.toNat = 12
        ∨ c.toNat = 13 := by omega
    rcases h6 with h | h | h | h | h | h
    · exact Or.inl (hc ' ' h)
    · exact Or.inr (Or.inl (hc '\t' h))
    · exact Or.inr (Or.inr (Or.inl (hc '\n' h)))
    · exact Or.inr (Or.inr (Or.inr (Or.inl (hc '\x0b' h))))
    · exact Or.inr (Or.inr (Or.inr (Or.inr (Or.inl (hc '\x0c' h)))))
    · exact Or.inr (Or.inr (Or.inr (Or.inr (Or.inr (hc '\r' h)))))
  · rintro (rfl | rfl | rfl | rfl | rfl | rfl) <;> decide

/-- C18, counterexample.  The text `42` is accepted, and with a form feed or a
vertical tab in front of the value `parse` does not fail but returns the same
Number 42; a form feed between two tokens of `[1,2]` is skipped as well. -/
theorem formfeed_skipped :
    parse "42".toList = .ok (Value.number (F64.ofNat 42))
    ∧ parse "\x0c42".toList = .ok (Value.number (F64.ofNat 42))
    ∧ parse "\x0b42".toList = .ok (Value.number (F64.ofNat 42))
    ∧ parse "[1,2]".toList
        = .ok (Value.array [Value.number (F64.ofNat 1), Value.number (F64.ofNat 2)])
    ∧ parse "[1,\x0c2]".toList
        = .ok (Value.array [Value.number (F64.ofNat 1), Value.number (F64.ofNat 2)]) := by
  refine ⟨by rfl, by rfl, by rfl, by rfl, by rfl⟩

/-- C18, amended.  The whitespace of the parser is exactly the set of the six
characters `std::isspace` accepts: space, tab, newline, vertical tab, form feed and
carriage return.  For every text `t`, any run `w` of these characters in front of
the value leaves the result of `parse` unchanged, and a first character that is
none of the six is not skipped. -/
theorem parser_whitespace_is_isspace :
    (∀ c : Char, isspace c = true ↔ c ∈ isspace_chars)
    ∧ (∀ w t : List Char, (∀ c ∈ w, c ∈ isspace_chars) → parse (w ++ t) = parse t)
    ∧ (∀ (c : Char) (t : List Char), c ∉ isspace_chars → ws (c :: t) = c :: t) := by
  refine ⟨isspace_iff, ?_, ?_⟩
  · intro w t hw
    exact parse_space w t (fun c hc => (isspace_iff c).2 (hw c hc))
  · intro c t hc
    apply ws_cons
    cases h : isspace c with
    | false => rfl
    | true => exact absurd ((isspace_iff c).1 h) hc

/-- Witness of C18 (amended): a form feed, a vertical tab and a blank in front of
`42`. -/
theorem parser_whitespace_is_isspace_witness :
    parse "\x0c\x0b 42".toList = parse "42".toList :=
  parser_whitespace_is_isspace.2.1 "\x0c\x0b ".toList "42".toList (by decide)

end minijson

/-! ## Trailing commas and missing member values -/

namespace minijson

open Parser

theorem noSepEnd_nil : NoSepEnd [] := by
  intro x hx
  simp at hx

theorem noSepEnd_concat (a : List Char) (x : Char) (h1 : x ≠ ',') (h2 : x ≠ ':') :
    NoSepEnd (a ++ [x]) := by
  intro y hy
  rw [List.getLast?_concat] at hy
  cases hy
  exact ⟨h1, h2⟩

theorem noSepEnd_append (a b : List Char) (hb : b ≠ []) (h : NoSepEnd b) :
    NoSepEnd (a ++ b) := by
  intro y hy
  rw [List.getLast?_append] at hy
  cases hl : b.getLast? with
  | none => exact absurd (List.getLast?_eq_none_iff.1 hl) hb
  | some z =>
    rw [hl] at hy
    simp at hy
    exact h y (by rw [hl, hy]; simp)

theorem endsValue_append (a t r : List Char) (h : EndsValue t r) : EndsValue (a ++ t) r := by
  rcases h with h | ⟨c, rfl, hc, hn⟩
  · exact Or.inl h
  · exact Or.inr ⟨a ++ c, by simp, by simp [hc], noSepEnd_append a c hc hn⟩

theorem endsValue_concat (c r : List Char) (x : Char) (h1 : x ≠ ',') (h2 : x ≠ ':') :
    EndsValue (c ++ x :: r) r :=
  Or.inr ⟨c ++ [x], by simp, by simp, noSepEnd_concat c x h1 h2⟩

theorem ws_split (t : List Char) : ∃ w, t = w ++ ws t ∧ AllSpace w :=
  ⟨t.takeWhile isspace, (List.takeWhile_append_dropWhile isspace t).symm,
    fun c hc => List.mem_takeWhile_imp hc⟩

theorem get_eq_cons (u : List Char) (c : Char) (hc : c ≠ NUL) (h : (Parser.get u).1 = c) :
    u = c :: (Parser.get u).2 := by
  cases u with
  | nil => exact absurd h.symm hc
  | cons d u => simp only [Parser.get] at h ⊢; rw [h]

theorem space_not_sep (x : Char) (h : isspace x = true) : x ≠ ',' ∧ x ≠ ':' := by
  constructor <;> (rintro rfl; revert h; decide)

theorem string_loop_ends (t : List Char) :
    ∀ (st : StrState) (out s r : List Char), string_loop st out t = .ok (s, r) →
      r = [] ∨ ∃ c, t = c ++ '"' :: r := by
  induction t with
  | nil =>
    intro st out s r h
    cases st <;> simp [string_loop] at h
    exact Or.inl h.2
  | cons d t ih =>
    intro st out s r h
    have step : ∀ (st1 : StrState) (o : List Char),
        string_loop st1 o t = .ok (s, r) → r = [] ∨ ∃ c, d :: t = c ++ '"' :: r := by
      intro st1 o ho
      rcases ih st1 o s r ho with h1 | ⟨c, hc⟩
      · exact Or.inl h1
      · exact Or.inr ⟨d :: c, by rw [hc]; rfl⟩
    cases st with
    | normal =>
      rw [string_loop] at h
      split_ifs at h with h1 h2
      · injection h with h
        injection h with _ h
        exact Or.inr ⟨[], by rw [h1, h]; rfl⟩
      · exact step _ _ h
      · exact step _ _ h
    | esc =>
      rw [string_loop] at h
      split at h
      · exact step _ _ h
      · split_ifs at h
        exact step _ _ h
    | hex k =>
      cases k with
      | zero =>
        rw [string_loop] at h
        split_ifs at h
        exact step _ _ h
      | succ k =>
        rw [string_loop] at h
        split_ifs at h
        exact step _ _ h

theorem parse_string_ends (t s r : List Char) (h : parse_string t = .ok (s, r)) :
    EndsValue t r := by
  rcases (parse_string_ok t s r).1 h with ⟨t1, hw, hl⟩
  rcases ws_split t with ⟨w, ht, _⟩
  rcases string_loop_ends t1 _ _ _ _ hl with h1 | ⟨c, hc⟩
  · exact Or.inl h1
  · rw [ht, hw, hc]
    have e : w ++ '"' :: (c ++ '"' :: r) = (w ++ '"' :: c) ++ '"' :: r := by simp
    rw [e]
    exact endsValue_concat _ _ _ (by decide) (by decide)

theorem consume_loop_eq (lit : String) (ps t r : List Char) (hps : ∀ p ∈ ps, p ≠ NUL)
    (h : consume_loop lit ps t = .ok r) : t = ps ++ r := by
  induction ps generalizing t with
  | nil => simp [consume_loop] at h; rw [h]; rfl
  | cons p ps ih =>
    rw [consume_loop] at h
    split_ifs at h with h1
    have h2 := ih _ (fun q hq => hps q (List.mem_cons_of_mem _ hq)) h
    have hp := hps p (List.mem_cons_self _ _)
    simp only [ne_eq, not_not] at h1
    cases t with
    | nil => exact absurd h1.symm hp
    | cons d t =>
      simp only [Parser.get] at h2 h1
      rw [h1, h2]; rfl

theorem consume_ends (lit : String) (a : List Char) (x : Char) (hl : lit.toList = a ++ [x])
    (hps : ∀ p ∈ lit.toList, p ≠ NUL) (h1 : x ≠ ',') (h2 : x ≠ ':') (t r : List Char)
    (h : consume lit t = .ok r) : EndsValue t r := by
  unfold consume at h
  have e := consume_loop_eq lit _ _ _ hps h
  rcases ws_split t with ⟨w, ht, _⟩
  rw [ht, e, hl]
  have e2 : w ++ (a ++ [x] ++ r) = (w ++ a) ++ x :: r := by simp
  rw [e2]
  exact endsValue_concat _ _ _ h1 h2

theorem scan_digits_nosep (t : List Char) : ∀ c ∈ (scan_digits t).1, c ≠ ',' ∧ c ≠ ':' := by
  induction t with
  | nil => intro c hc; simp [scan_digits] at hc
  | cons d t ih =>
    intro c hc
    rw [scan_digits] at hc
    split_ifs at hc with h1
    · simp only [List.mem_cons] at hc
      rcases hc with rfl | hc
      · constructor <;> (rintro rfl; revert h1; decide)
      · exact ih c hc
    · simp at hc

theorem takeWhile_nosep (t : List Char) : ∀ c ∈ t.takeWhile isspace, c ≠ ',' ∧ c ≠ ':' :=
  fun c hc => space_not_sep c (List.mem_takeWhile_imp hc)

theorem scan_opt_nosep (c1 c2 : Char) (h1 : c1 ≠ ',' ∧ c1 ≠ ':') (h2 : c2 ≠ ',' ∧ c2 ≠ ':')
    (t : List Char) : ∀ c ∈ (scan_opt c1 c2 t).1, c ≠ ',' ∧ c ≠ ':' := by
  intro c hc
  unfold scan_opt at hc
  simp only at hc
  split at hc
  · exact takeWhile_nosep t c hc
  · split_ifs at hc with h
    · rcases List.mem_append.1 hc with hc | hc
      · exact takeWhile_nosep t c hc
      · simp only [List.mem_singleton] at hc
        rcases h with h | h
        · rw [hc, h]; exact h1
        · rw [hc, h]; exact h2
    · exact takeWhile_nosep t c hc

theorem scan_frac_nosep (t : List Char) : ∀ c ∈ (scan_frac t).1, c ≠ ',' ∧ c ≠ ':' := by
  intro c hc
  unfold scan_frac at hc
  simp only at hc
  split at hc
  · exact takeWhile_nosep t c hc
  · split_ifs at hc with h
    · rcases List.mem_append.1 hc with hc | hc
      · exact takeWhile_nosep t c hc
      · rcases List.mem_cons.1 hc with hc | hc
        · rw [hc, h]; decide
        · exact scan_digits_nosep _ c hc
    · exact takeWhile_nosep t c hc

theorem scan_exp_nosep (t : List Char) : ∀ c ∈ (scan_exp t).1, c ≠ ',' ∧ c ≠ ':' := by
  intro c hc
  unfold scan_exp at hc
  simp only at hc
  split at hc
  · exact takeWhile_nosep t c hc
  · split_ifs at hc with h
    · rcases List.mem_append.1 hc with hc | hc
      · exact takeWhile_nosep t c hc
      · rcases List.mem_cons.1 hc with hc | hc
        · rcases h with h | h <;> (rw [hc, h]; decide)
        · rcases List.mem_append.1 hc with hc | hc
          · exact scan_opt_nosep _ _ (by decide) (by decide) _ c hc
          · exact scan_digits_nosep _ c hc
    · exact takeWhile_nosep t c hc

theorem scan_number_nosep (t : List Char) : ∀ c ∈ (scan_number t).1, c ≠ ',' ∧ c ≠ ':' := by
  intro c hc
  unfold scan_number at hc
  simp only [List.mem_append] at hc
  rcases hc with ((hc | hc) | hc) | hc
  · exact scan_opt_nosep _ _ (by decide) (by decide) _ c hc
  · exact scan_digits_nosep _ c hc
  · exact scan_frac_nosep _ c hc
  · exact scan_exp_nosep _ c hc

theorem parse_number_ends (t : List Char) (x : F64) (r : List Char)
    (h : parse_number t = .ok (x, r)) : EndsValue t r := by
  simp only [parse_number] at h
  split at h
  · cases h
  · rename_i y hy
    injection h with h
    injection h with _ h
    rcases ws_split t with ⟨w, ht, _⟩
    have ha := scan_number_append (ws t)
    rw [h] at ha
    have hn : F64.stod [] = none := by rfl
    rcases List.eq_nil_or_concat (scan_number (ws t)).1 with e | ⟨L, b, e⟩
    · rw [e, hn] at hy
      cases hy
    · rw [List.concat_eq_append] at e
      have hb := scan_number_nosep (ws t) b (by rw [e]; simp)
      rw [e] at ha
      rw [ht, ← ha]
      have e2 : w ++ (L ++ [b] ++ r) = (w ++ L) ++ b :: r := by simp
      rw [e2]
      exact endsValue_concat _ _ _ hb.1 hb.2

theorem array_loop_closed (pv : List Char → Res (Value × List Char)) (hpv : Ends pv) :
    ∀ (k : Nat) (arr : List Value) (t : List Char) (v : Value) (r : List Char),
      array_loop pv k arr t = .ok (v, r) →
        ∃ c w, t = c ++ (w ++ ']' :: r) ∧ AllSpace w ∧ NoSepEnd c ∧ c ≠ [] := by
  intro k
  induction k with
  | zero => intro arr t v r h; simp [array_loop] at h
  | succ k ih =>
    intro arr t v r h
    rw [array_loop_succ] at h
    cases hp : pv t with
    | fuel => rw [hp] at h; cases h
    | error e => rw [hp] at h; cases h
    | ok y =>
      rcases y with ⟨x, q⟩
      rw [hp] at h
      simp only at h
      rcases ws_split q with ⟨w, hq, hw⟩
      have hends := hpv _ _ _ hp
      split_ifs at h with h1 h2
      · injection h with h
        injection h with _ h
        have e := get_eq_cons _ _ (by decide) h1
        rw [h] at e
        rw [e] at hq
        rcases hends with h0 | ⟨c, hc, hne, hn⟩
        · rw [h0] at hq; simp at hq
        · exact ⟨c, w, by rw [hc, hq], hw, hn, hne⟩
      · simp only [ne_eq, not_not] at h2
        have e := get_eq_cons _ _ (by decide) h2
        rcases ih _ _ _ _ h with ⟨c2, w2, h3, hw2, hn2, hne2⟩
        rw [h3] at e
        rw [e] at hq
        rcases hends with h0 | ⟨c, hc, hne, hn⟩
        · rw [h0] at hq; simp at hq
        · refine ⟨c ++ (w ++ ',' :: c2), w2, ?_, hw2, ?_, by simp [hne]⟩
          · rw [hc, hq]; simp
          · rw [← List.append_assoc]
            have e3 : (c ++ w) ++ ',' :: c2 = (c ++ w ++ [',']) ++ c2 := by simp
            rw [e3]
            exact noSepEnd_append _ _ hne2 hn2

theorem object_loop_closed (pv : List Char → Res (Value × List Char)) (hpv : Ends pv) :
    ∀ (k : Nat) (obj : Map) (t : List Char) (v : Value) (r : List Char),
      object_loop pv k obj t = .ok (v, r) →
        ∃ c w, t = c ++ (w ++ '}' :: r) ∧ AllSpace w ∧ NoSepEnd c ∧ c ≠ [] := by
  intro k
  induction k with
  | zero => intro obj t v r h; simp [object_loop] at h
  | succ k ih =>
    intro obj t v r h
    rw [object_loop_succ] at h
    cases hs : parse_string t with
    | fuel => rw [hs] at h; cases h
    | error e => rw [hs] at h; cases h
    | ok y0 =>
      rcases y0 with ⟨key, t1⟩
      rw [hs] at h
      simp only at h
      cases he : expect ':' (ws t1) with
      | fuel => rw [he] at h; cases h
      | error e => rw [he] at h; cases h
      | ok t2 =>
        rw [he] at h
        simp only at h
        have hcolon := (expect_ok ':' (by decide) _ _).1 he
        rw [ws_ws] at hcolon
        rcases ws_split t1 with ⟨w1, ht1, _⟩
        rw [hcolon] at ht1
        have hpre : ∃ c0, t = c0 ++ t2 := by
          rcases parse_string_ends _ _ _ hs with h0 | ⟨c, hc, _, _⟩
          · rw [h0] at ht1; simp at ht1
          · exact ⟨c ++ (w1 ++ [':']), by rw [hc, ht1]; simp⟩
        rcases hpre with ⟨c0, hc0⟩
        cases hp : pv t2 with
        | fuel => rw [hp] at h; cases h
        | error e => rw [hp] at h; cases h
        | ok y =>
          rcases y with ⟨x, q⟩
          rw [hp] at h
          simp only at h
          rcases ws_split q with ⟨w, hq, hw⟩
          have hends := hpv _ _ _ hp
          split_ifs at h with h1 h2
          · injection h with h
            injection h with _ h
            have e := get_eq_cons _ _ (by decide) h1
            rw [h] at e
            rw [e] at hq
            rcases hends with h0 | ⟨c, hc, hne, hn⟩
            · rw [h0] at hq; simp at hq
            · exact ⟨c0 ++ c, w, by rw [hc0, hc, hq]; simp, hw,
                noSepEnd_append _ _ hne hn, by simp [hne]⟩
          · simp only [ne_eq, not_not] at h2
            have e := get_eq_cons _ _ (by decide) h2
            rcases ih _ _ _ _ h with ⟨c2, w2, h3, hw2, hn2, hne2⟩
            rw [h3] at e
            rw [e] at hq
            rcases hends with h0 | ⟨c, hc, hne, hn⟩
            · rw [h0] at hq; simp at hq
            · refine ⟨(c0 ++ c ++ w ++ [',']) ++ c2, w2, ?_, hw2,
                noSepEnd_append _ _ hne2 hn2, by simp [hne2]⟩
              rw [hc0, hc, hq]; simp

theorem peek_eq (t : List Char) (c : Char) (hc : c ≠ NUL) (h : (peek t).1 = c) :
    ∃ r, ws t = c :: r ∧ (peek t).2 = c :: r := by
  unfold peek at h ⊢
  cases hw : ws t with
  | nil => rw [hw] at h; exact absurd h.symm hc
  | cons d r =>
    rw [hw] at h
    simp only at h ⊢
    exact ⟨r, by rw [h], by rw [h]⟩

theorem peek_snd (t : List Char) : (peek t).2 = ws t := by
  unfold peek
  cases ws t <;> rfl

theorem parse_array_closed (pv : List Char → Res (Value × List Char)) (hpv : Ends pv)
    (t t1 : List Char) (v : Value) (r : List Char) (ht : ws t = '[' :: t1)
    (h : parse_array pv t = .ok (v, r)) : ClosedBy ']' t1 r := by
  unfold parse_array at h
  rw [(expect_ok '[' (by decide) t t1).2 ht] at h
  simp only at h
  have hp : (peek (ws t1)).2 = ws t1 := by rw [peek_snd, ws_ws]
  rw [hp] at h
  rcases ws_split t1 with ⟨w, hw1, hw⟩
  split_ifs at h with h1
  · rcases peek_eq _ _ (by decide) h1 with ⟨r1, e1, e2⟩
    rw [ws_ws] at e1
    rw [e1] at h
    simp only [Parser.get] at h
    injection h with h
    injection h with _ h
    rw [e1, h] at hw1
    exact ⟨[], w, by rw [hw1]; rfl, hw, noSepEnd_nil⟩
  · rcases array_loop_closed pv hpv _ _ _ _ _ h with ⟨c, w2, e, hw2, hn, hne⟩
    exact ⟨w ++ c, w2, by rw [hw1, e]; simp, hw2, noSepEnd_append _ _ hne hn⟩

theorem parse_object_closed (pv : List Char → Res (Value × List Char)) (hpv : Ends pv)
    (t t1 : List Char) (v : Value) (r : List Char) (ht : ws t = '{' :: t1)
    (h : parse_object pv t = .ok (v, r)) : ClosedBy '}' t1 r := by
  unfold parse_object at h
  rw [(expect_ok '{' (by decide) t t1).2 ht] at h
  simp only at h
  have hp : (peek (ws t1)).2 = ws t1 := by rw [peek_snd, ws_ws]
  rw [hp] at h
  rcases ws_split t1 with ⟨w, hw1, hw⟩
  split_ifs at h with h1
  · rcases peek_eq _ _ (by decide) h1 with ⟨r1, e1, e2⟩
    rw [ws_ws] at e1
    rw [e1] at h
    simp only [Parser.get] at h
    injection h with h
    injection h with _ h
    rw [e1, h] at hw1
    exact ⟨[], w, by rw [hw1]; rfl, hw, noSepEnd_nil⟩
  · rcases object_loop_closed pv hpv _ _ _ _ _ h with ⟨c, w2, e, hw2, hn, hne⟩
    exact ⟨w ++ c, w2, by rw [hw1, e]; simp, hw2, noSepEnd_append _ _ hne hn⟩

theorem closedBy_ends (rb : Char) (h1 : rb ≠ ',') (h2 : rb ≠ ':') (a t1 r : List Char)
    (h : ClosedBy rb t1 r) : EndsValue (a ++ t1) r := by
  rcases h with ⟨c, w, e, _, _⟩
  rw [e]
  have e2 : a ++ (c ++ (w ++ rb :: r)) = (a ++ c ++ w) ++ rb :: r := by simp
  rw [e2]
  exact endsValue_concat _ _ _ h1 h2

theorem parse_value_ends : ∀ (n : Nat), Ends (parse_value n) := by
  intro n
  induction n with
  | zero => intro t v r h; simp [parse_value] at h
  | succ n ih =>
    intro t v r h
    rw [parse_value] at h
    have hp : (peek (ws t)).2 = ws t := by rw [peek_snd, ws_ws]
    rw [hp] at h
    rcases ws_split t with ⟨w, hw1, hw⟩
    rw [hw1]
    apply endsValue_append
    split_ifs at h with h1 h2 h3 h4 h5 h6 h7
    · cases hs : parse_string (ws t) with
      | fuel => rw [hs] at h; cases h
      | error e => rw [hs] at h; cases h
      | ok y =>
        rcases y with ⟨s, r1⟩
        rw [hs] at h
        injection h with h
        injection h with _ h
        rw [← h]
        exact parse_string_ends _ _ _ hs
    · rcases peek_eq _ _ (by decide) h2 with ⟨r1, e1, _⟩
      rw [ws_ws] at e1
      have hc := parse_object_closed _ ih (ws t) r1 v r (by rw [ws_ws, e1]) h
      rw [e1]
      exact closedBy_ends '}' (by decide) (by decide) ['{'] r1 r hc
    · rcases peek_eq _ _ (by decide) h3 with ⟨r1, e1, _⟩
      rw [ws_ws] at e1
      have hc := parse_array_closed _ ih (ws t) r1 v r (by rw [ws_ws, e1]) h
      rw [e1]
      exact closedBy_ends ']' (by decide) (by decide) ['['] r1 r hc
    · cases hs : consume "true" (ws t) with
      | fuel => rw [hs] at h; cases h
      | error e => rw [hs] at h; cases h
      | ok r1 =>
        rw [hs] at h
        injection h with h
        injection h with _ h
        rw [← h]
        exact consume_ends "true" "tru".toList 'e' rfl (by decide) (by decide) (by decide)
          _ _ hs
    · cases hs : consume "false" (ws t) with
      | fuel => rw [hs] at h; cases h
      | error e => rw [hs] at h; cases h
      | ok r1 =>
        rw [hs] at h
        injection h with h
        injection h with _ h
        rw [← h]
        exact consume_ends "false" "fals".toList 'e' rfl (by decide) (by decide) (by decide)
          _ _ hs
    · cases hs : consume "null" (ws t) with
      | fuel => rw [hs] at h; cases h
      | error e => rw [hs] at h; cases h
      | ok r1 =>
        rw [hs] at h
        injection h with h
        injection h with _ h
        rw [← h]
        exact consume_ends "null" "nul".toList 'l' rfl (by decide) (by decide) (by decide)
          _ _ hs
    · cases hs : parse_number (ws t) with
      | fuel => rw [hs] at h; cases h
      | error e => rw [hs] at h; cases h
      | ok y =>
        rcases y with ⟨x, r1⟩
        rw [hs] at h
        injection h with h
        injection h with _ h
        rw [← h]
        exact parse_number_ends _ _ _ hs

theorem closedBy_sep_absurd (rb sep : Char) (s r : List Char) (hrb : isspace rb = false)
    (hsep : sep = ',' ∨ sep = ':') (hr : AllSpace r) (h : ClosedBy rb (s ++ [sep, rb]) r) :
    False := by
  rcases h with ⟨c, w, e, hw, hn⟩
  have hs : isspace sep = false := by
    rcases hsep with rfl | rfl <;> decide
  rcases List.eq_nil_or_concat r with hr0 | ⟨L, b, hr0⟩
  · rw [hr0] at e
    have e1 : (s ++ [sep]) ++ [rb] = (c ++ w) ++ [rb] := by
      simpa using e
    have e2 := (List.append_inj' e1 rfl).1
    rcases List.eq_nil_or_concat w with hw0 | ⟨W, b, hw0⟩
    · rw [hw0, List.append_nil] at e2
      have := hn sep (by rw [← e2, List.getLast?_concat]; simp)
      rcases hsep with h | h
      · exact this.1 h
      · exact this.2 h
    · rw [List.concat_eq_append] at hw0
      rw [hw0, ← List.append_assoc] at e2
      have e3 := (List.append_inj' e2 rfl).2
      injection e3 with e3
      have := hw b (by rw [hw0]; simp)
      rw [← e3, hs] at this
      cases this
  · rw [List.concat_eq_append] at hr0
    rw [hr0] at e
    have e1 : (s ++ [sep]) ++ [rb] = (c ++ (w ++ rb :: L)) ++ [b] := by
      simpa using e
    have e3 := (List.append_inj' e1 rfl).2
    injection e3 with e3
    have := hr b (by rw [hr0]; simp)
    rw [← e3, hrb] at this
    cases this

theorem parse_ok_rest (text : List Char) (v : Value) (h : parse text = .ok v) :
    ∃ r, parse_value (text.length + 1) text = .ok (v, r) ∧ AllSpace r := by
  unfold parse at h
  cases hp : parse_value (text.length + 1) text with
  | fuel => rw [hp] at h; cases h
  | error e => rw [hp] at h; cases h
  | ok y =>
    rcases y with ⟨x, r⟩
    rw [hp] at h
    simp only at h
    split_ifs at h with h1
    injection h with h
    refine ⟨r, by rw [h], ?_⟩
    rcases ws_split r with ⟨w, hw1, hw⟩
    cases hx : ws r with
    | nil => rw [hx, List.append_nil] at hw1; rw [hw1]; exact hw
    | cons d r0 =>
      exfalso
      apply h1
      rw [hx]
      refine ⟨by simp, ?_⟩
      have hd : isspace d = false := by
        have := List.head_dropWhile_not isspace r (by
          show ws r ≠ []
          rw [hx]; simp)
        have e : (List.dropWhile isspace r) = d :: r0 := hx
        simp only [e, List.head_cons] at this
        simpa using this
      simp [hd]

/-- No text that ends with a comma or colon and the closing bracket of its first
character is accepted by `parse`. -/
theorem parse_sep_close (s : List Char) (sep : Char) (hsep : sep = ',' ∨ sep = ':') :
    (∃ e, parse ('[' :: (s ++ [sep, ']'])) = .error e)
    ∧ (∃ e, parse ('{' :: (s ++ [sep, '}'])) = .error e) := by
  constructor
  · cases hp : parse ('[' :: (s ++ [sep, ']'])) with
    | fuel => exact absurd hp (parse_ne_fuel _)
    | error e => exact ⟨e, rfl⟩
    | ok v =>
      exfalso
      rcases parse_ok_rest _ _ hp with ⟨r, h, hr⟩
      rw [List.length_cons, parse_value_head _ _ _ (by decide)] at h
      simp only [show ('[' : Char) ≠ '"' by decide, show ('[' : Char) ≠ '{' by decide,
        if_false, if_true] at h
      have hc := parse_array_closed _ (parse_value_ends _) _ _ v r
        (ws_cons _ _ (by decide)) h
      exact closedBy_sep_absurd ']' sep s r (by decide) hsep hr hc
  · cases hp : parse ('{' :: (s ++ [sep, '}'])) with
    | fuel => exact absurd hp (parse_ne_fuel _)
    | error e => exact ⟨e, rfl⟩
    | ok v =>
      exfalso
      rcases parse_ok_rest _ _ hp with ⟨r, h, hr⟩
      rw [List.length_cons, parse_value_head _ _ _ (by decide)] at h
      simp only [show ('{' : Char) ≠ '"' by decide, if_false, if_true] at h
      have hc := parse_object_closed _ (parse_value_ends _) _ _ v r
        (ws_cons _ _ (by decide)) h
      exact closedBy_sep_absurd '}' sep s r (by decide) hsep hr hc

/-- C13.  Trailing commas and missing member values are rejected: for every
sequence of element texts `es` (valid or not), `parse` of `[`, the texts joined by
commas, and `,]` fails with an error; for every key text `k` and element text
`e1`, `parse` of `{k:}` and of `{k:e1,}` fails with an error.  No Value is
returned in any of these cases.  The texts `[1,2,]` and `{"a":}` fail with
`invalid json value`. -/
theorem trailing_comma_rejected :
    (∀ (es : List (List Char)),
      ∃ e, parse ('[' :: (List.intercalate [','] es ++ [',', ']'])) = .error e)
    ∧ (∀ (k : List Char), ∃ e, parse ('{' :: (k ++ [':', '}'])) = .error e)
    ∧ (∀ (k e1 : List Char), ∃ e, parse ('{' :: (k ++ ':' :: (e1 ++ [',', '}']))) = .error e)
    ∧ parse "[1,2,]".toList = .error "invalid json value"
    ∧ parse "\x7b\"a\":\x7d".toList = .error "invalid json value" := by
  refine ⟨?_, ?_, ?_, by rfl, by rfl⟩
  · intro es
    exact (parse_sep_close _ ',' (Or.inl rfl)).1
  · intro k
    exact (parse_sep_close k ':' (Or.inr rfl)).2
  · intro k e1
    have h := (parse_sep_close (k ++ ':' :: e1) ',' (Or.inl rfl)).2
    simpa using h

end minijson
